import Mathlib

/-!
Verification development for the NetSurf fetch scheduler (`content/fetch.c`).

The scheduler manages concurrent retrievals through libcurl's multi
interface.  Active fetches form the intrusive doubly-linked list
`fetch_list` (fields `prev`/`next`); at most one fetch per host is in
progress, further same-host fetches wait in per-host FIFO chains (fields
`queue_prev`/`queue_next`).  The file header documents the invariant

    queue_prev == 0  <=>  curl_handle != 0.

This file gives a shallow embedding of the scheduler state and of the
operations `fetch_start`, `fetch_abort`, the libcurl write/header
callbacks `fetch_curl_data` / `fetch_curl_header`, status resolution
`fetch_process_headers`, and the completion processing performed by
`fetch_poll`.  The heap of `struct fetch` objects is modelled as an
association list keyed by an allocation id (the pointer identity); the
libcurl multi registry is the list of registered easy-handle ids.
Callbacks delivered to the client are recorded as events tagged with the
fetch id (the `CURLOPT_PRIVATE` association) together with a snapshot of
the scheduler state at the moment of delivery.  Undefined behaviour in
the C (dereferencing a freed `struct fetch`) is modelled by `Option`:
`none` means the execution has no defined result.
-/

namespace NetsurfFetch

/-- Event kinds of the client callback, `typedef enum fetch_msg`:
TYPE, DATA, FINISHED, ERROR, REDIRECT, AUTH. -/
inductive FetchMsg where
  | TYPE
  | DATA
  | FINISHED
  | ERROR
  | REDIRECT
  | AUTH
deriving DecidableEq, Repr

/-- Payload handed to the client callback, tagged by which buffer the C
code passes: `mime` is the Content-Type string plus `f->content_length`,
`chunk` a body chunk, `errorBuffer` the engine diagnostic
`f->error_buffer`, `message` a catalog string identified by its key
(`messages_get("Not2xx")`), `loc` the decoded `f->location`, `realm` the
captured `f->realm` (possibly the null pointer). -/
inductive EvData where
  | mime (type : String) (len : Nat)
  | chunk (bytes : String)
  | empty
  | errorBuffer (diag : String)
  | message (key : String)
  | loc (target : String)
  | realm (r : Option String)
deriving DecidableEq, Repr

/-- One `struct fetch`.  The callback function pointer and the opaque
context `p` are not represented: events carry the fetch id instead, which
is the association the C maintains through `CURLOPT_PRIVATE`.  The
`error_buffer` array is not stored either; the engine diagnostic is an
input of completion processing.  `curl_handle` is the id of the easy
handle, or none while queued. -/
structure Fetch where
  curl_handle : Option Nat
  had_headers : Bool
  in_callback : Bool
  aborting : Bool
  only_2xx : Bool
  url : String
  referer : Option String
  host : Option String
  location : Option String
  content_length : Nat
  realm : Option String
  queue_prev : Option Nat
  queue_next : Option Nat
  prev : Option Nat
  next : Option Nat
deriving DecidableEq, Repr

/-- Scheduler state: the heap of live `struct fetch` objects keyed by
allocation id, the active-list head `fetch_list`, the global flag
`fetch_active`, allocation counters for fresh ids and fresh easy handles,
the set `multi` of easy handles currently added to the curl multi handle,
and the set `dead` of easy handles whose transfer libcurl has aborted
because the write callback reported zero bytes consumed (such a handle
produces no further write callbacks and completes with
`CURLE_WRITE_ERROR`). -/
structure FetchState where
  heap : List (Nat × Fetch)
  fetch_list : Option Nat
  fetch_active : Bool
  next_id : Nat
  next_handle : Nat
  multi : List Nat
  dead : List Nat
deriving DecidableEq, Repr

/-- An event delivered to the client callback: fetch id, message kind,
payload, and the scheduler state at the moment the callback is entered. -/
structure Ev where
  fid : Nat
  msg : FetchMsg
  data : EvData
  snap : FetchState
deriving DecidableEq, Repr

/-! ### Heap primitives -/

/-- Dereference an allocation id. -/
def lookupF (h : List (Nat × Fetch)) (i : Nat) : Option Fetch :=
  match h with
  | [] => none
  | (j, f) :: t => if j = i then some f else lookupF t i

/-- Mutate the fetch with id `i` in place (no effect if `i` is dangling). -/
def updateF (h : List (Nat × Fetch)) (i : Nat) (g : Fetch → Fetch) :
    List (Nat × Fetch) :=
  match h with
  | [] => []
  | (j, f) :: t => if j = i then (j, g f) :: t else (j, f) :: updateF t i g

/-- Free the fetch with id `i`. -/
def removeF (h : List (Nat × Fetch)) (i : Nat) : List (Nat × Fetch) :=
  h.filter (fun p => p.1 ≠ i)

/-- Mutate fetch `i` inside a state. -/
def modifyf (s : FetchState) (i : Nat) (g : Fetch → Fetch) : FetchState :=
  { s with heap := updateF s.heap i g }

/-! ### String utilities used by the C code -/

/-- Lower-case one ASCII character, as `tolower` does on the inputs that
occur in host names and header names. -/
def charLower (c : Char) : Char :=
  if 'A' ≤ c ∧ c ≤ 'Z' then Char.ofNat (c.toNat + 32) else c

/-- Case-insensitive string equality: `strcasecmp(a, b) == 0`. -/
def strCaseEq (a b : String) : Bool :=
  a.data.map charLower = b.data.map charLower

/-- Case-insensitive prefix test on the first `strlen pat` characters:
`strncasecmp(s, pat, n) == 0` with `n = strlen pat`. -/
def strNCaseEq (s pat : String) : Bool :=
  (s.data.take pat.data.length).map charLower = pat.data.map charLower

/-- Case-sensitive prefix test: `strncmp(s, pat, strlen pat) == 0`. -/
def strPrefEq (s pat : String) : Bool :=
  s.data.take pat.data.length = pat.data

/-- Value of a hexadecimal digit, as `curl_unescape` accepts them. -/
def hexVal (c : Char) : Option Nat :=
  if '0' ≤ c ∧ c ≤ '9' then some (c.toNat - '0'.toNat)
  else if 'a' ≤ c ∧ c ≤ 'f' then some (c.toNat - 'a'.toNat + 10)
  else if 'A' ≤ c ∧ c ≤ 'F' then some (c.toNat - 'A'.toNat + 10)
  else none

/-- Percent-decoding over characters: every `%XY` with two hex digits
becomes the character with code `16*X + Y`; anything else is copied. -/
def unescapeL : List Char → List Char
  | [] => []
  | '%' :: a :: b :: rest =>
    match hexVal a, hexVal b with
    | some x, some y => Char.ofNat (16 * x + y) :: unescapeL rest
    | _, _ => '%' :: unescapeL (a :: b :: rest)
  | c :: rest => c :: unescapeL rest

/-- Percent-decode a string: the behaviour of libcurl's `curl_unescape`
on the inputs the scheduler hands it. -/
def curl_unescape (s : String) : String :=
  String.mk (unescapeL s.data)

/-- Scan for the first `://` separator and return what follows it. -/
def hostAfterSep : List Char → Option (List Char)
  | [] => none
  | ':' :: '/' :: '/' :: rest => some rest
  | _ :: rest => hostAfterSep rest

/-- Modelled from the spec: `url_host` from `utils/url.c`, which is not
under `src/`.  Per the spec, `start` "extracts host" from the URL and a
`ValidationError` means "the URL cannot be parsed into scheme/host": the
URL is split at the first `://` and the host is the authority up to the
next `/`; the result is none when there is no separator or the authority
is empty. -/
def url_host (url : String) : Option String :=
  match hostAfterSep url.data with
  | none => none
  | some rest =>
    let host := rest.takeWhile (fun c => c ≠ '/')
    if host.isEmpty then none else some (String.mk host)

/-- Modelled from the spec: the filetype-detection collaborator
(`fetch_filetype`, not under `src/`) mapping a local filesystem path to a
MIME string; the scheduler treats its result opaquely. -/
def fetch_filetype (_path : String) : String := "text/html"

/-! ### fetch_start -/

/-- Walk the active list `fetch_list` looking for a fetch whose host is
case-insensitively equal to `host`, skipping fetches with no host, as the
scan loop in `fetch_start` does.  `fuel` bounds the walk. -/
def findHostFetch (heap : List (Nat × Fetch)) (cur : Option Nat)
    (host : String) : Nat → Option Nat
  | 0 => none
  | fuel + 1 =>
    match cur with
    | none => none
    | some i =>
      match lookupF heap i with
      | none => none
      | some f =>
        match f.host with
        | some h =>
          if strCaseEq h host then some i
          else findHostFetch heap f.next host fuel
        | none => findHostFetch heap f.next host fuel

/-- Walk `queue_next` links to the end of a host queue, as the
queue-at-end loop in `fetch_start` does. -/
def queueTail (heap : List (Nat × Fetch)) (i : Nat) : Nat → Nat
  | 0 => i
  | fuel + 1 =>
    match lookupF heap i with
    | none => i
    | some f =>
      match f.queue_next with
      | none => i
      | some j => queueTail heap j fuel

/-- Insert the new fetch at the head of `fetch_list`, allocate a fresh
easy handle, and add it to the multi handle (lines 230-333 of
`fetch_start`). -/
def fetch_start_activate (s : FetchState) (f : Fetch) (id : Nat) :
    FetchState × Nat :=
  let h := s.next_handle
  let f1 := { f with next := s.fetch_list, prev := none, curl_handle := some h }
  let heap1 :=
    match s.fetch_list with
    | some oldHead => updateF s.heap oldHead (fun g => { g with prev := some id })
    | none => s.heap
  ({ s with heap := (id, f1) :: heap1, fetch_list := some id,
            fetch_active := true, next_id := id + 1, next_handle := h + 1,
            multi := h :: s.multi }, id)

/-- `fetch_start(url, referer, callback, p, only_2xx)`.  A new
`struct fetch` is always allocated (the C never returns 0: `xcalloc`
aborts on allocation failure and no URL validity check exists).  If some
fetch on the active list has a case-insensitively equal host, the new
fetch is appended to the tail of that host's queue with no easy handle;
otherwise it is activated.  Returns the new state and the handle (id)
given to the caller. -/
def fetch_start (s : FetchState) (url : String) (referer : Option String)
    (only_2xx : Bool) : FetchState × Nat :=
  let id := s.next_id
  let f : Fetch :=
    { curl_handle := none, had_headers := false, in_callback := false,
      aborting := false, only_2xx := only_2xx, url := url, referer := referer,
      host := url_host url, location := none, content_length := 0,
      realm := none, queue_prev := none, queue_next := none,
      prev := none, next := none }
  match f.host with
  | some h =>
    match findHostFetch s.heap s.fetch_list h (s.heap.length + 1) with
    | some hid =>
      let tid := queueTail s.heap hid (s.heap.length + 1)
      let heap1 := updateF s.heap tid (fun t => { t with queue_next := some id })
      ({ s with heap := (id, { f with queue_prev := some tid }) :: heap1,
                next_id := id + 1 }, id)
    | none => fetch_start_activate s f id
  | none => fetch_start_activate s f id

/-! ### fetch_abort -/

/-- Unlink `f` from the active list (lines 357-363): the C runs this
unconditionally, using `f`'s `prev`/`next` fields even when the fetch is
a queued one that is not on the list. -/
def fetch_unlink_active (s : FetchState) (f : Fetch) : FetchState :=
  let s1 :=
    match f.prev with
    | none => { s with fetch_list := f.next }
    | some p => modifyf s p (fun g => { g with next := f.next })
  match f.next with
  | none => s1
  | some n => modifyf s1 n (fun g => { g with prev := f.prev })

/-- Promote the queued successor `nid` of the dying fetch `i`: splice it
to the active-list head, hand it the just-released easy handle `h`, and
re-add that handle to the multi handle (lines 371-436). -/
def fetch_promote (s : FetchState) (h nid : Nat) : FetchState :=
  let s1 := modifyf s nid (fun g =>
    { g with prev := none, next := s.fetch_list, queue_prev := none,
             curl_handle := some h })
  let s2 :=
    match s.fetch_list with
    | none => s1
    | some oldHead => modifyf s1 oldHead (fun g => { g with prev := some nid })
  { s2 with fetch_list := some nid, multi := h :: s2.multi }

/-- Splice `f` out of its host queue (lines 442-445). -/
def fetch_splice_queue (s : FetchState) (f : Fetch) : FetchState :=
  let s1 :=
    match f.queue_prev with
    | none => s
    | some qp => modifyf s qp (fun g => { g with queue_next := f.queue_next })
  match f.queue_next with
  | none => s1
  | some qn => modifyf s1 qn (fun g => { g with queue_prev := f.queue_prev })

/-- The non-re-entrant path of `fetch_abort` on the fetch `f` with id
`i`: unlink from the active list, detach the easy handle from the multi
handle, then either promote a queued successor (handing it the handle
and re-registering it) or destroy the handle and splice `f` out of its
host queue; finally free `f`. -/
def fetch_abort_full (s : FetchState) (i : Nat) (f : Fetch) : FetchState :=
  let s2 := fetch_unlink_active s f
  let s3 :=
    match f.curl_handle with
    | none => s2
    | some h => { s2 with multi := s2.multi.filter (fun x => x ≠ h),
                          dead := s2.dead.filter (fun x => x ≠ h) }
  match f.curl_handle, f.queue_next with
  | some h, some nid =>
    let s4 := fetch_promote s3 h nid
    { s4 with heap := removeF s4.heap i }
  | _, _ =>
    let s5 := fetch_splice_queue s3 f
    { s5 with heap := removeF s5.heap i }

/-- `fetch_abort(f)`.  If `f->in_callback` the abort is only recorded in
`f->aborting` and everything else is untouched.  Otherwise the full
teardown `fetch_abort_full` runs.  Applying this to a dangling id is the
C dereferencing freed memory: no defined result. -/
def fetch_abort (s : FetchState) (i : Nat) : Option FetchState :=
  match lookupF s.heap i with
  | none => none
  | some f =>
    if f.in_callback then
      some (modifyf s i (fun g => { g with aborting := true }))
    else
      some (fetch_abort_full s i f)

/-! ### Event delivery and the status-resolution state machine -/

/-- Status information the engine reports for a transfer:
`CURLINFO_HTTP_CODE` and `CURLINFO_CONTENT_TYPE`. -/
structure HdrInfo where
  http_code : Nat
  content_type : Option String
deriving DecidableEq, Repr

/-- Invoke the client callback for fetch `i`.  The event records the
state at the moment the callback is entered.  `ab` is the client's
behaviour: when true, the client calls `fetch_abort` on this same fetch
synchronously from inside the callback (which the API documents as legal
at any time); the abort acts on the emission state. -/
def deliverEv (s : FetchState) (i : Nat) (m : FetchMsg) (d : EvData)
    (ab : Bool) : Option (FetchState × Ev) :=
  let ev : Ev := ⟨i, m, d, s⟩
  if ab then (fetch_abort s i).map (fun s2 => (s2, ev))
  else some (s, ev)

/-- Resolve the MIME type (lines 641-657): the engine-reported
Content-Type when present, else `text/html`, except that for `file:`
URLs the filetype collaborator is consulted on the decoded path. -/
def resolveMime (url : String) (ctype : Option String) : String :=
  match ctype with
  | some t => t
  | none =>
    if strPrefEq url "file:///" then
      fetch_filetype (curl_unescape (String.mk (url.data.drop 8)))
    else if strPrefEq url "file:/" then
      fetch_filetype (curl_unescape (String.mk (url.data.drop 6)))
    else "text/html"

/-- Continuation of `fetch_process_headers` after the redirect check
(lines 626-664): HTTP 401 gives AUTH and rejects; only-2xx policy on an
http-family URL gives the canned Not2xx ERROR and rejects; otherwise the
TYPE event is delivered and the fetch is rejected exactly when the client
requested an abort during the TYPE callback.  `f0` is the record as read
at entry.  The final read of `f->aborting` has no defined result if the
fetch was freed during the TYPE callback. -/
def fph_rest (s : FetchState) (i : Nat) (hdr : HdrInfo) (ab : Bool)
    (f0 : Fetch) : Option (FetchState × Bool × List Ev) :=
  if hdr.http_code = 401 then
    match deliverEv s i .AUTH (.realm f0.realm) ab with
    | none => none
    | some (s2, ev) => some (s2, true, [ev])
  else if f0.only_2xx ∧ strPrefEq f0.url "http" ∧
      (hdr.http_code < 200 ∨ 299 < hdr.http_code) then
    match deliverEv s i .ERROR (.message "Not2xx") ab with
    | none => none
    | some (s2, ev) => some (s2, true, [ev])
  else
    let mime := resolveMime f0.url hdr.content_type
    match deliverEv s i .TYPE (.mime mime f0.content_length) ab with
    | none => none
    | some (s2, ev) =>
      match lookupF s2.heap i with
      | none => none
      | some g => some (s2, g.aborting, [ev])

/-- `fetch_process_headers(f)`: runs once per fetch (it sets
`had_headers` first).  Reads the resolved status; a 3xx status with a
captured Location percent-decodes it and delivers REDIRECT, rejecting the
transfer; otherwise `fph_rest` continues.  Returns the state, whether the
transfer is being rejected, and the delivered events. -/
def fetch_process_headers (s : FetchState) (i : Nat) (hdr : HdrInfo)
    (ab : Bool) : Option (FetchState × Bool × List Ev) :=
  match lookupF s.heap i with
  | none => none
  | some f0 =>
    let s1 := modifyf s i (fun g => { g with had_headers := true })
    match f0.location with
    | some l =>
      if 300 ≤ hdr.http_code ∧ hdr.http_code < 400 then
        let dec := curl_unescape l
        let s2 := modifyf s1 i (fun g => { g with location := some dec })
        match deliverEv s2 i .REDIRECT (.loc dec) ab with
        | none => none
        | some (s3, ev) => some (s3, true, [ev])
      else fph_rest s1 i hdr ab f0
    | none => fph_rest s1 i hdr ab f0

/-- Deliver a DATA chunk and reset `in_callback` (lines 549-554); the
reset write has no defined result if the fetch was freed during the
callback. -/
def dataDeliver (s : FetchState) (i : Nat) (chunk : String) (ab : Bool)
    (evs : List Ev) : Option (FetchState × Bool × List Ev) :=
  match deliverEv s i .DATA (.chunk chunk) ab with
  | none => none
  | some (s2, ev) =>
    match lookupF s2.heap i with
    | none => none
    | some _ =>
      some (modifyf s2 i (fun g => { g with in_callback := false }),
        false, evs ++ [ev])

/-- `fetch_curl_data`, the libcurl write callback: sets `in_callback`,
runs status resolution on the first chunk, and either reports zero bytes
consumed (second component true: libcurl will abort the transfer with
`CURLE_WRITE_ERROR`) when resolution rejected the transfer, or forwards
the chunk as a DATA event and reports full consumption. -/
def fetch_curl_data (s : FetchState) (i : Nat) (chunk : String)
    (hdr : HdrInfo) (ab : Bool) : Option (FetchState × Bool × List Ev) :=
  match lookupF s.heap i with
  | none => none
  | some f0 =>
    let s1 := modifyf s i (fun g => { g with in_callback := true })
    if f0.had_headers = false then
      match fetch_process_headers s1 i hdr ab with
      | none => none
      | some (s2, true, evs) =>
        match lookupF s2.heap i with
        | none => none
        | some _ =>
          some (modifyf s2 i (fun g => { g with in_callback := false }),
            true, evs)
      | some (s2, false, evs) => dataDeliver s2 i chunk ab evs
    else dataDeliver s1 i chunk ab []

/-! ### fetch_curl_header -/

/-- Whitespace as the header scanner skips it. -/
def isHdrWs (c : Char) : Bool := c = ' ' ∨ c = '\t'

/-- Strip the trailing run of spaces, tabs, CR and LF. -/
def dropTrailingWs (cs : List Char) : List Char :=
  (cs.reverse.dropWhile
    (fun c => c = ' ' ∨ c = '\t' ∨ c = '\r' ∨ c = '\n')).reverse

/-- Decimal value of the leading digit run, as `atol` reads it. -/
def natPrefixValAux : List Char → Nat → Nat
  | [], acc => acc
  | c :: rest, acc =>
    if '0' ≤ c ∧ c ≤ '9' then
      natPrefixValAux rest (acc * 10 + (c.toNat - '0'.toNat))
    else acc

/-- `fetch_curl_header`, the libcurl header callback (lines 562-593):
captures `Location` (whitespace-trimmed), `Content-Length` (leading
digit run) and the `WWW-Authenticate` realm; every other line is
ignored.  Always reports the whole line consumed. -/
def parseHeaderLine (f : Fetch) (line : String) : Fetch :=
  let cs := line.data
  let size := cs.length
  if 12 < size ∧ strNCaseEq line "Location:" then
    let v := (cs.drop 9).dropWhile isHdrWs
    { f with location := some (String.mk (dropTrailingWs v)) }
  else if 15 < size ∧ strNCaseEq line "Content-Length:" then
    let v := (cs.drop 15).dropWhile isHdrWs
    match v with
    | c :: _ =>
      if '0' ≤ c ∧ c ≤ '9' then
        { f with content_length := natPrefixValAux v 0 }
      else f
    | [] => f
  else if 16 < size ∧ strNCaseEq line "WWW-Authenticate" then
    match (cs.drop 16).findIdx? (fun c => c = '=') with
    | some k =>
      let j := 16 + k
      { f with realm := some (String.mk ((cs.drop (j + 2)).take (size - j - 5))) }
    | none => f
  else f

/-! ### fetch_poll completion processing -/

/-- Result code of a finished transfer as `curl_multi_info_read` reports
it: `CURLE_OK`, the reserved `CURLE_WRITE_ERROR` produced when the write
callback consumed zero bytes, or any other failure with the diagnostic
text libcurl wrote into `f->error_buffer`. -/
inductive CurlRes where
  | ok
  | writeError
  | other (diag : String)
deriving DecidableEq, Repr

/-- Cleanup followed by the postponed FINISHED delivery (lines 514-519):
`fetch_abort` frees the fetch and starts any queued successor, and only
then is FETCH_FINISHED delivered using the saved callback and context. -/
def finishUp (s : FetchState) (i : Nat) (evs : List Ev) (ab : Bool) :
    Option (FetchState × List Ev) :=
  match fetch_abort s i with
  | none => none
  | some s1 =>
    match deliverEv s1 i .FINISHED .empty ab with
    | none => none
    | some (s2, ev) => some (s2, evs ++ [ev])

/-- Processing of one `CURLMSG_DONE` notice in `fetch_poll` (lines
489-521).  On `CURLE_OK` the completion is FINISHED unless status
resolution still has to run and rejects the transfer; on
`CURLE_WRITE_ERROR` (the intentional-abort sentinel) nothing is
reported; on any other failure an ERROR event carries the engine
diagnostic.  In every case `fetch_abort` then cleans the fetch up, and a
resolved FINISHED is delivered only after that cleanup. -/
def processDone (s : FetchState) (i : Nat) (res : CurlRes) (hdr : HdrInfo)
    (ab : Bool) : Option (FetchState × List Ev) :=
  match lookupF s.heap i with
  | none => none
  | some f0 =>
    match res with
    | .ok =>
      if f0.had_headers = false then
        match fetch_process_headers s i hdr ab with
        | none => none
        | some (s1, true, evs) =>
          (fetch_abort s1 i).map (fun s2 => (s2, evs))
        | some (s1, false, evs) => finishUp s1 i evs ab
      else finishUp s i [] ab
    | .writeError => (fetch_abort s i).map (fun s2 => (s2, []))
    | .other diag =>
      match deliverEv s i .ERROR (.errorBuffer diag) ab with
      | none => none
      | some (s1, ev) => (fetch_abort s1 i).map (fun s2 => (s2, [ev]))

/-! ### Traces of scheduler operations

A trace interleaves the client-driven entry points (`start`, `abort`)
with the engine-driven callback and completion deliveries that happen
inside `fetch_poll` (`header`, `data`, `done`) and the final step of
`fetch_poll` that clears `fetch_active` when the active list is empty
(`pollCheck`).  States between ops are exactly the observation points
outside of `start`/`abort`/`poll` execution. -/

inductive Op where
  | start (url : String) (referer : Option String) (only2xx : Bool)
  | abort (id : Nat)
  | header (id : Nat) (line : String)
  | data (id : Nat) (chunk : String) (hdr : HdrInfo) (ab : Bool)
  | done (id : Nat) (res : CurlRes) (hdr : HdrInfo) (ab : Bool)
  | pollCheck
deriving DecidableEq, Repr

/-- The engine only touches a fetch that exists and whose easy handle is
registered with the multi handle; returns that handle. -/
def engineCanTouch (s : FetchState) (i : Nat) : Option Nat :=
  match lookupF s.heap i with
  | none => none
  | some f =>
    match f.curl_handle with
    | none => none
    | some h => if h ∈ s.multi then some h else none

/-- One step of the scheduler.  Engine-driven ops whose precondition the
engine cannot produce (unregistered handle, further write callbacks or a
non-`WRITE_ERROR` completion on a transfer it aborted after the zero-
consumed report) leave the state unchanged.  `none` is an execution with
no defined result. -/
def applyOp (s : FetchState) (op : Op) : Option (FetchState × List Ev) :=
  match op with
  | .start url referer only2 => some ((fetch_start s url referer only2).1, [])
  | .abort i => (fetch_abort s i).map (fun s2 => (s2, []))
  | .header i line =>
    match engineCanTouch s i with
    | none => some (s, [])
    | some h =>
      if h ∈ s.dead then some (s, [])
      else some (modifyf s i (fun g => parseHeaderLine g line), [])
  | .data i chunk hdr ab =>
    match engineCanTouch s i with
    | none => some (s, [])
    | some h =>
      if h ∈ s.dead then some (s, [])
      else
        match fetch_curl_data s i chunk hdr ab with
        | none => none
        | some (s2, killed, evs) =>
          some ((if killed then { s2 with dead := h :: s2.dead } else s2), evs)
  | .done i res hdr ab =>
    match engineCanTouch s i with
    | none => some (s, [])
    | some h =>
      if h ∈ s.dead ∧ res ≠ .writeError then some (s, [])
      else processDone s i res hdr ab
  | .pollCheck =>
    some ({ s with
      fetch_active := if s.fetch_list = none then false else s.fetch_active },
      [])

/-- The scheduler state after `fetch_init`. -/
def initState : FetchState :=
  { heap := [], fetch_list := none, fetch_active := false, next_id := 0,
    next_handle := 0, multi := [], dead := [] }

/-- Run a trace, accumulating delivered events in order. -/
def runOps (s : FetchState) (ops : List Op) : Option (FetchState × List Ev) :=
  match ops with
  | [] => some (s, [])
  | op :: rest =>
    match applyOp s op with
    | none => none
    | some (s1, evs1) =>
      match runOps s1 rest with
      | none => none
      | some (s2, evs2) => some (s2, evs1 ++ evs2)

/-! ### Heap lemmas -/

theorem lookupF_cons (j : Nat) (f : Fetch) (t : List (Nat × Fetch)) (i : Nat) :
    lookupF ((j, f) :: t) i = if j = i then some f else lookupF t i := rfl

theorem lookupF_updateF (h : List (Nat × Fetch)) (p : Nat) (g : Fetch → Fetch)
    (i : Nat) :
    lookupF (updateF h p g) i =
      if i = p then (lookupF h p).map g else lookupF h i := by
  induction h with
  | nil => simp [lookupF, updateF]
  | cons a t ih =>
    obtain ⟨j, f⟩ := a
    by_cases hjp : j = p
    · subst hjp
      rw [updateF, if_pos rfl]
      by_cases hij : i = j
      · subst hij
        rw [lookupF_cons, if_pos rfl, if_pos rfl, lookupF_cons, if_pos rfl]
        rfl
      · rw [lookupF_cons, if_neg (fun hh => hij hh.symm), if_neg hij,
          lookupF_cons, if_neg (fun hh => hij hh.symm)]
    · rw [updateF, if_neg hjp]
      by_cases hij : j = i
      · subst hij
        rw [lookupF_cons, if_pos rfl, if_neg hjp, lookupF_cons, if_pos rfl]
      · rw [lookupF_cons, if_neg hij, ih, lookupF_cons, if_neg hjp,
          lookupF_cons, if_neg hij]

theorem lookupF_removeF (h : List (Nat × Fetch)) (p i : Nat) :
    lookupF (removeF h p) i = if i = p then none else lookupF h i := by
  induction h with
  | nil => simp [lookupF, removeF]
  | cons a t ih =>
    obtain ⟨j, f⟩ := a
    by_cases hjp : j = p
    · subst hjp
      have hrw : removeF ((j, f) :: t) j = removeF t j := by
        simp [removeF, List.filter]
      rw [hrw, ih]
      by_cases hij : i = j
      · simp [hij]
      · rw [if_neg hij, if_neg hij, lookupF_cons, if_neg (fun hh => hij hh.symm)]
    · have hrw : removeF ((j, f) :: t) p = (j, f) :: removeF t p := by
        simp [removeF, List.filter, hjp]
      rw [hrw, lookupF_cons, lookupF_cons]
      by_cases hij : j = i
      · subst hij
        rw [if_pos rfl, if_pos rfl, if_neg (fun hh => hjp hh)]
      · rw [if_neg hij, if_neg hij, ih]

/-! ### The inductive invariant

`PropI1` is the invariant documented at the top of `fetch.c`; the other
components are the auxiliary facts needed to push it through every
operation: allocation ids and easy-handle ids are bounded by their
allocation counters (so fresh allocations never collide with stored
links), a `queue_next` link is always answered by a matching
`queue_prev` back-link, and no two live fetches share an easy handle. -/

/-- Invariant I1 of the file header: a fetch has no queue predecessor
exactly when it holds the transfer (curl) handle. -/
def PropI1 (s : FetchState) : Prop :=
  ∀ i f, lookupF s.heap i = some f → (f.queue_prev = none ↔ f.curl_handle ≠ none)

/-- Every `queue_next` link is answered by the successor's `queue_prev`. -/
def PropBack (s : FetchState) : Prop :=
  ∀ i f j, lookupF s.heap i = some f → f.queue_next = some j →
    ∃ g, lookupF s.heap j = some g ∧ g.queue_prev = some i

/-- Live allocation ids are below the allocation counter. -/
def PropIdBound (s : FetchState) : Prop :=
  ∀ i f, lookupF s.heap i = some f → i < s.next_id

/-- `queue_next` targets are below the allocation counter. -/
def PropQnBound (s : FetchState) : Prop :=
  ∀ i f j, lookupF s.heap i = some f → f.queue_next = some j → j < s.next_id

/-- Easy-handle ids are below the handle counter. -/
def PropHBound (s : FetchState) : Prop :=
  ∀ i f h, lookupF s.heap i = some f → f.curl_handle = some h → h < s.next_handle

/-- No two live fetches own the same easy handle. -/
def PropHUniq (s : FetchState) : Prop :=
  ∀ i f j g h, lookupF s.heap i = some f → lookupF s.heap j = some g →
    f.curl_handle = some h → g.curl_handle = some h → i = j

/-- The full structural invariant. -/
def SInv (s : FetchState) : Prop :=
  PropIdBound s ∧ PropQnBound s ∧ PropHBound s ∧ PropHUniq s ∧
    PropI1 s ∧ PropBack s

theorem sinv_init : SInv initState := by
  refine ⟨?_, ?_, ?_, ?_, ?_, ?_⟩ <;> intro i f <;> simp [initState, lookupF]

/-- The invariant only looks at the heap and the two allocation
counters. -/
theorem sinv_ext {s t : FetchState} (hh : t.heap = s.heap)
    (hi : t.next_id = s.next_id) (hn : t.next_handle = s.next_handle)
    (hs : SInv s) : SInv t := by
  obtain ⟨h1, h2, h3, h4, h5, h6⟩ := hs
  refine ⟨?_, ?_, ?_, ?_, ?_, ?_⟩
  · intro i f hf; rw [hh] at hf; rw [hi]; exact h1 i f hf
  · intro i f j hf hj; rw [hh] at hf; rw [hi]; exact h2 i f j hf hj
  · intro i f h hf hc; rw [hh] at hf; rw [hn]; exact h3 i f h hf hc
  · intro i f j g h hf hg hc hc2; rw [hh] at hf hg; exact h4 i f j g h hf hg hc hc2
  · intro i f hf; rw [hh] at hf; exact h5 i f hf
  · intro i f j hf hj; rw [hh] at hf; rw [hh]; exact h6 i f j hf hj

/-- Field mutations that do not touch the queue links or the handle. -/
def qPres (g : Fetch → Fetch) : Prop :=
  ∀ x, (g x).queue_prev = x.queue_prev ∧ (g x).queue_next = x.queue_next ∧
    (g x).curl_handle = x.curl_handle

/-- A `qPres` in-place mutation preserves the whole invariant. -/
theorem sinv_modifyf {s : FetchState} {p : Nat} {g : Fetch → Fetch}
    (hg : qPres g) (hs : SInv s) : SInv (modifyf s p g) := by
  obtain ⟨h1, h2, h3, h4, h5, h6⟩ := hs
  have key : ∀ i, lookupF (modifyf s p g).heap i =
      if i = p then (lookupF s.heap p).map g else lookupF s.heap i := by
    intro i; exact lookupF_updateF s.heap p g i
  have getf : ∀ i f, lookupF (modifyf s p g).heap i = some f →
      ∃ f0, lookupF s.heap i = some f0 ∧
        f.queue_prev = f0.queue_prev ∧ f.queue_next = f0.queue_next ∧
        f.curl_handle = f0.curl_handle := by
    intro i f hf
    rw [key] at hf
    by_cases hip : i = p
    · subst hip
      rw [if_pos rfl] at hf
      obtain ⟨f0, hf0, rfl⟩ := Option.map_eq_some'.mp hf
      exact ⟨f0, hf0, (hg f0).1, (hg f0).2.1, (hg f0).2.2⟩
    · rw [if_neg hip] at hf
      exact ⟨f, hf, rfl, rfl, rfl⟩
  refine ⟨?_, ?_, ?_, ?_, ?_, ?_⟩
  · intro i f hf
    obtain ⟨f0, hf0, -, -, -⟩ := getf i f hf
    exact h1 i f0 hf0
  · intro i f j hf hj
    obtain ⟨f0, hf0, -, e2, -⟩ := getf i f hf
    exact h2 i f0 j hf0 (e2 ▸ hj)
  · intro i f h hf hc
    obtain ⟨f0, hf0, -, -, e3⟩ := getf i f hf
    exact h3 i f0 h hf0 (e3 ▸ hc)
  · intro i f j g2 h hf hg2 hc hc2
    obtain ⟨f0, hf0, -, -, e3⟩ := getf i f hf
    obtain ⟨g0, hg0, -, -, e4⟩ := getf j g2 hg2
    exact h4 i f0 j g0 h hf0 hg0 (e3 ▸ hc) (e4 ▸ hc2)
  · intro i f hf
    obtain ⟨f0, hf0, e1, -, e3⟩ := getf i f hf
    rw [e1, e3]
    exact h5 i f0 hf0
  · intro i f j hf hj
    obtain ⟨f0, hf0, -, e2, -⟩ := getf i f hf
    obtain ⟨g0, hg0, hq⟩ := h6 i f0 j hf0 (e2 ▸ hj)
    rw [key]
    by_cases hjp : j = p
    · subst hjp
      refine ⟨g (g0), ?_, ?_⟩
      · rw [if_pos rfl, hg0]; rfl
      · rw [(hg g0).1, hq]
    · exact ⟨g0, by rw [if_neg hjp]; exact hg0, hq⟩

/-! ### Effect of fetch_abort on the queue structure -/

/-- The queue-relevant projection of a dereferenced fetch:
(queue_prev, queue_next, curl_handle). -/
def qpOf : Option Fetch → Option (Option Nat × Option Nat × Option Nat) :=
  Option.map (fun f => (f.queue_prev, f.queue_next, f.curl_handle))

theorem qpOf_eq_some {o : Option Fetch} {t} : qpOf o = some t ↔
    ∃ f, o = some f ∧ t = (f.queue_prev, f.queue_next, f.curl_handle) := by
  cases o with
  | none => simp [qpOf]
  | some f =>
    simp only [qpOf, Option.map_some', Option.some_inj]
    constructor
    · intro hh; exact ⟨f, rfl, hh.symm⟩
    · rintro ⟨g, hg, ht⟩; cases hg; exact ht.symm

theorem qpOf_lookupF_updateF_qPres {g : Fetch → Fetch} (hg : qPres g)
    (A : List (Nat × Fetch)) (p x : Nat) :
    qpOf (lookupF (updateF A p g) x) = qpOf (lookupF A x) := by
  rw [lookupF_updateF]
  by_cases hxp : x = p
  · subst hxp
    rw [if_pos rfl]
    cases hA : lookupF A x with
    | none => rfl
    | some f =>
      simp [qpOf, (hg f).1, (hg f).2.1, (hg f).2.2]
  · rw [if_neg hxp]

theorem qpOf_modify_prev (s : FetchState) (p : Nat) (v : Option Nat) (x : Nat) :
    qpOf (lookupF (modifyf s p (fun g => { g with prev := v })).heap x) =
      qpOf (lookupF s.heap x) := by
  apply qpOf_lookupF_updateF_qPres
  intro y; exact ⟨rfl, rfl, rfl⟩

theorem qpOf_modify_next (s : FetchState) (p : Nat) (v : Option Nat) (x : Nat) :
    qpOf (lookupF (modifyf s p (fun g => { g with next := v })).heap x) =
      qpOf (lookupF s.heap x) := by
  apply qpOf_lookupF_updateF_qPres
  intro y; exact ⟨rfl, rfl, rfl⟩

theorem qpOf_unlink (s : FetchState) (f : Fetch) (x : Nat) :
    qpOf (lookupF (fetch_unlink_active s f).heap x) = qpOf (lookupF s.heap x) := by
  unfold fetch_unlink_active
  rcases f.prev with _ | p <;> rcases f.next with _ | n <;>
    simp only [qpOf_modify_next, qpOf_modify_prev]

@[simp] theorem unlink_next_id (s : FetchState) (f : Fetch) :
    (fetch_unlink_active s f).next_id = s.next_id := by
  unfold fetch_unlink_active
  cases f.prev <;> cases f.next <;> simp [modifyf]

@[simp] theorem unlink_next_handle (s : FetchState) (f : Fetch) :
    (fetch_unlink_active s f).next_handle = s.next_handle := by
  unfold fetch_unlink_active
  cases f.prev <;> cases f.next <;> simp [modifyf]

@[simp] theorem unlink_fetch_active (s : FetchState) (f : Fetch) :
    (fetch_unlink_active s f).fetch_active = s.fetch_active := by
  unfold fetch_unlink_active
  cases f.prev <;> cases f.next <;> simp [modifyf]

@[simp] theorem unlink_multi (s : FetchState) (f : Fetch) :
    (fetch_unlink_active s f).multi = s.multi := by
  unfold fetch_unlink_active
  cases f.prev <;> cases f.next <;> simp [modifyf]

@[simp] theorem unlink_dead (s : FetchState) (f : Fetch) :
    (fetch_unlink_active s f).dead = s.dead := by
  unfold fetch_unlink_active
  cases f.prev <;> cases f.next <;> simp [modifyf]

theorem abort_full_scalars (s : FetchState) (i : Nat) (f : Fetch) :
    (fetch_abort_full s i f).next_id = s.next_id ∧
    (fetch_abort_full s i f).next_handle = s.next_handle ∧
    (fetch_abort_full s i f).fetch_active = s.fetch_active := by
  simp only [fetch_abort_full, fetch_promote, fetch_splice_queue]
  rcases f.curl_handle with _ | h <;> rcases f.queue_next with _ | nid <;>
    rcases f.queue_prev with _ | qp <;>
    rcases hfl : (fetch_unlink_active s f).fetch_list with _ | oldHead <;>
    simp [modifyf, hfl]

/-- Queue-structure effect of the promotion branch of `fetch_abort`:
the dying fetch disappears and its successor takes over the handle with
no queue predecessor; nothing else changes. -/
theorem qpOf_abort_full_promo {s : FetchState} {i : Nat} {f : Fetch}
    {h nid : Nat} (hch : f.curl_handle = some h)
    (hqn : f.queue_next = some nid) (x : Nat) :
    qpOf (lookupF (fetch_abort_full s i f).heap x) =
      if x = i then none
      else (qpOf (lookupF s.heap x)).map
        (fun t => if x = nid then (none, t.2.1, some h) else t) := by
  have hqPrev : qPres (fun g : Fetch => { g with prev := some nid }) := by
    intro y; exact ⟨rfl, rfl, rfl⟩
  have core : ∀ (A : List (Nat × Fetch)) (nv : Option Nat),
      (∀ y, qpOf (lookupF A y) = qpOf (lookupF s.heap y)) →
      qpOf (lookupF (updateF A nid (fun g =>
        { g with prev := none, next := nv,
                 queue_prev := none, curl_handle := some h })) x) =
      (qpOf (lookupF s.heap x)).map
        (fun t => if x = nid then (none, t.2.1, some h) else t) := by
    intro A nv hA
    rw [lookupF_updateF]
    by_cases hxn : x = nid
    · subst hxn
      rw [if_pos rfl]
      have hq := hA x
      cases hu : lookupF A x with
      | none =>
        rw [hu] at hq
        cases hs2 : lookupF s.heap x with
        | none => simp [qpOf]
        | some g0 => rw [hs2] at hq; simp [qpOf] at hq
      | some g =>
        rw [hu] at hq
        cases hs2 : lookupF s.heap x with
        | none => rw [hs2] at hq; simp [qpOf] at hq
        | some g0 =>
          rw [hs2] at hq
          simp only [qpOf, Option.map_some', Option.some_inj,
            Prod.mk.injEq] at hq
          simp [qpOf, hq.2.1]
    · rw [if_neg hxn, hA x]
      cases hs2 : lookupF s.heap x with
      | none => simp [qpOf]
      | some g0 => simp [qpOf, hxn]
  unfold fetch_abort_full
  rw [hch, hqn]
  simp only
  unfold fetch_promote
  rcases hfl : (fetch_unlink_active s f).fetch_list with _ | oldHead
  · simp only [modifyf, hfl, lookupF_removeF]
    by_cases hxi : x = i
    · simp [hxi, qpOf]
    · rw [if_neg hxi, if_neg hxi]
      exact core _ none (qpOf_unlink s f)
  · simp only [modifyf, hfl, lookupF_removeF]
    by_cases hxi : x = i
    · simp [hxi, qpOf]
    · rw [if_neg hxi, if_neg hxi, qpOf_lookupF_updateF_qPres hqPrev]
      exact core _ (some oldHead) (qpOf_unlink s f)

theorem qpOf_modify_queue_next (s : FetchState) (p : Nat) (v : Option Nat)
    (x : Nat) :
    qpOf (lookupF (modifyf s p (fun g => { g with queue_next := v })).heap x) =
      if x = p then (qpOf (lookupF s.heap p)).map (fun t => (t.1, v, t.2.2))
      else qpOf (lookupF s.heap x) := by
  show qpOf (lookupF (updateF s.heap p _) x) = _
  rw [lookupF_updateF]
  by_cases hxp : x = p
  · subst hxp
    rw [if_pos rfl, if_pos rfl]
    cases lookupF s.heap x <;> simp [qpOf]
  · rw [if_neg hxp, if_neg hxp]

theorem qpOf_modify_queue_prev (s : FetchState) (p : Nat) (v : Option Nat)
    (x : Nat) :
    qpOf (lookupF (modifyf s p (fun g => { g with queue_prev := v })).heap x) =
      if x = p then (qpOf (lookupF s.heap p)).map (fun t => (v, t.2.1, t.2.2))
      else qpOf (lookupF s.heap x) := by
  show qpOf (lookupF (updateF s.heap p _) x) = _
  rw [lookupF_updateF]
  by_cases hxp : x = p
  · subst hxp
    rw [if_pos rfl, if_pos rfl]
    cases lookupF s.heap x <;> simp [qpOf]
  · rw [if_neg hxp, if_neg hxp]

/-- Queue-structure effect of the non-promotion branch of `fetch_abort`:
the dying fetch disappears, its queue predecessor's `queue_next` and its
queue successor's `queue_prev` are spliced around it, and nothing else
changes. -/
theorem qpOf_abort_full_splice {s : FetchState} {i : Nat} {f : Fetch}
    (hn : f.curl_handle = none ∨ f.queue_next = none) (x : Nat) :
    qpOf (lookupF (fetch_abort_full s i f).heap x) =
      if x = i then none
      else (qpOf (lookupF s.heap x)).map (fun t =>
        (if f.queue_next = some x then f.queue_prev else t.1,
         if f.queue_prev = some x then f.queue_next else t.2.1,
         t.2.2)) := by
  have hsplice : ∀ t : FetchState,
      (∀ y, qpOf (lookupF t.heap y) = qpOf (lookupF s.heap y)) →
      qpOf (lookupF (fetch_splice_queue t f).heap x) =
      (qpOf (lookupF s.heap x)).map (fun t =>
        (if f.queue_next = some x then f.queue_prev else t.1,
         if f.queue_prev = some x then f.queue_next else t.2.1,
         t.2.2)) := by
    intro t hbase
    unfold fetch_splice_queue
    rcases hqp : f.queue_prev with _ | qp <;> rcases hqn : f.queue_next with _ | qn
    · simp only [hbase x]
      cases qpOf (lookupF s.heap x) <;> simp
    · rw [qpOf_modify_queue_prev]
      by_cases hx2 : x = qn
      · subst hx2
        rw [if_pos rfl, hbase x]
        cases qpOf (lookupF s.heap x) <;> simp
      · have hx2' : qn ≠ x := fun hh => hx2 hh.symm
        rw [if_neg hx2, hbase x]
        cases qpOf (lookupF s.heap x) <;> simp [hx2']
    · rw [qpOf_modify_queue_next]
      by_cases hx1 : x = qp
      · subst hx1
        rw [if_pos rfl, hbase x]
        cases qpOf (lookupF s.heap x) <;> simp
      · have hx1' : qp ≠ x := fun hh => hx1 hh.symm
        rw [if_neg hx1, hbase x]
        cases qpOf (lookupF s.heap x) <;> simp [hx1']
    · rw [qpOf_modify_queue_prev]
      by_cases hx2 : x = qn
      · subst hx2
        rw [if_pos rfl, qpOf_modify_queue_next]
        by_cases hx1 : x = qp
        · subst hx1
          rw [if_pos rfl, hbase x]
          cases qpOf (lookupF s.heap x) <;> simp
        · have hx1' : qp ≠ x := fun hh => hx1 hh.symm
          rw [if_neg hx1, hbase x]
          cases qpOf (lookupF s.heap x) <;> simp [hx1']
      · have hx2' : qn ≠ x := fun hh => hx2 hh.symm
        rw [if_neg hx2, qpOf_modify_queue_next]
        by_cases hx1 : x = qp
        · subst hx1
          rw [if_pos rfl, hbase x]
          cases qpOf (lookupF s.heap x) <;> simp [hx2']
        · have hx1' : qp ≠ x := fun hh => hx1 hh.symm
          rw [if_neg hx1, hbase x]
          cases qpOf (lookupF s.heap x) <;> simp [hx2', hx1']
  unfold fetch_abort_full
  rcases hch : f.curl_handle with _ | h <;> rcases hqn2 : f.queue_next with _ | qn2
  · simp only [lookupF_removeF]
    by_cases hxi : x = i
    · simp [hxi, qpOf]
    · rw [if_neg hxi, if_neg hxi]
      refine (hsplice _ ?_).trans ?_
      · intro y
        exact qpOf_unlink s f y
      · rw [hqn2]
  · simp only [lookupF_removeF]
    by_cases hxi : x = i
    · simp [hxi, qpOf]
    · rw [if_neg hxi, if_neg hxi]
      refine (hsplice _ ?_).trans ?_
      · intro y
        exact qpOf_unlink s f y
      · rw [hqn2]
  · simp only [lookupF_removeF]
    by_cases hxi : x = i
    · simp [hxi, qpOf]
    · rw [if_neg hxi, if_neg hxi]
      refine (hsplice _ ?_).trans ?_
      · intro y
        exact qpOf_unlink s f y
      · rw [hqn2]
  · rcases hn with h1 | h1
    · rw [hch] at h1; cases h1
    · rw [hqn2] at h1; cases h1

theorem lookupF_det {h : List (Nat × Fetch)} {i : Nat} {f g : Fetch}
    (h1 : lookupF h i = some f) (h2 : lookupF h i = some g) : f = g := by
  rw [h1] at h2; exact Option.some.inj h2

/-- The full abort path preserves the structural invariant. -/
theorem sinv_abort_full {s : FetchState} {i : Nat} {f : Fetch}
    (hs : SInv s) (hi : lookupF s.heap i = some f) :
    SInv (fetch_abort_full s i f) := by
  obtain ⟨hA, hB, hC, hF, hI, hBk⟩ := hs
  obtain ⟨sc1, sc2, -⟩ := abort_full_scalars s i f
  rcases hch : f.curl_handle with _ | h <;> rcases hqn : f.queue_next with _ | nid
  case some.some =>
    -- promotion branch
    have hfqp : f.queue_prev = none := (hI i f hi).mpr (by simp [hch])
    have char := fun x => qpOf_abort_full_promo (s := s) (i := i) hch hqn x
    have ext : ∀ x f', lookupF (fetch_abort_full s i f).heap x = some f' →
        x ≠ i ∧ ∃ f0, lookupF s.heap x = some f0 ∧
          (f'.queue_prev, f'.queue_next, f'.curl_handle) =
            (if x = nid then (none, f0.queue_next, some h)
             else (f0.queue_prev, f0.queue_next, f0.curl_handle)) := by
      intro x f' hx
      have hc := char x
      rw [hx] at hc
      by_cases hxi : x = i
      · rw [if_pos hxi] at hc; simp [qpOf] at hc
      · rw [if_neg hxi] at hc
        refine ⟨hxi, ?_⟩
        cases h0 : lookupF s.heap x with
        | none => rw [h0] at hc; simp [qpOf] at hc
        | some f0 =>
          rw [h0] at hc
          simp only [qpOf, Option.map_some', Option.some_inj] at hc
          refine ⟨f0, rfl, ?_⟩
          by_cases hxn : x = nid
          · rw [if_pos hxn]; rw [if_pos hxn] at hc; exact hc
          · rw [if_neg hxn]; rw [if_neg hxn] at hc; exact hc
    have hnid_ne : nid ≠ i := by
      intro e
      obtain ⟨g, hg, hgq⟩ := hBk i f nid hi hqn
      rw [e] at hg
      have := lookupF_det hi hg
      rw [← this] at hgq
      rw [hfqp] at hgq
      cases hgq
    refine ⟨?_, ?_, ?_, ?_, ?_, ?_⟩
    · intro x f' hx
      obtain ⟨hxi, f0, h0, -⟩ := ext x f' hx
      rw [sc1]; exact hA x f0 h0
    · intro x f' j hx hj
      obtain ⟨hxi, f0, h0, htr⟩ := ext x f' hx
      rw [sc1]
      have hqe : f'.queue_next = f0.queue_next := by
        by_cases hxn : x = nid <;> simp [hxn] at htr <;> exact htr.2.1
      exact hB x f0 j h0 (hqe ▸ hj)
    · intro x f' hv hx hcv
      obtain ⟨hxi, f0, h0, htr⟩ := ext x f' hx
      rw [sc2]
      by_cases hxn : x = nid
      · simp [hxn] at htr
        rw [htr.2.2] at hcv
        exact hC i f hv hi (hch.trans (by rw [Option.some_inj.mpr (Option.some.inj hcv)]))
      · simp [hxn] at htr
        exact hC x f0 hv h0 (htr.2.2 ▸ hcv)
    · intro x f' y g' hv hx hy hcx hcy
      obtain ⟨hxi, f0, h0, htr⟩ := ext x f' hx
      obtain ⟨hyi, g0, h1, htr2⟩ := ext y g' hy
      by_cases hxn : x = nid <;> by_cases hyn : y = nid
      · rw [hxn, hyn]
      · simp [hxn] at htr
        simp [hyn] at htr2
        rw [htr.2.2] at hcx
        have hhv : hv = h := (Option.some.inj hcx).symm
        have : y = i := hF y g0 i f hv h1 hi (htr2.2.2 ▸ hcy) (hhv ▸ hch)
        exact absurd this hyi
      · simp [hxn] at htr
        simp [hyn] at htr2
        rw [htr2.2.2] at hcy
        have hhv : hv = h := (Option.some.inj hcy).symm
        have : x = i := hF x f0 i f hv h0 hi (htr.2.2 ▸ hcx) (hhv ▸ hch)
        exact absurd this hxi
      · simp [hxn] at htr
        simp [hyn] at htr2
        exact hF x f0 y g0 hv h0 h1 (htr.2.2 ▸ hcx) (htr2.2.2 ▸ hcy)
    · intro x f' hx
      obtain ⟨hxi, f0, h0, htr⟩ := ext x f' hx
      by_cases hxn : x = nid
      · simp [hxn] at htr
        rw [htr.1, htr.2.2]
        simp
      · simp [hxn] at htr
        rw [htr.1, htr.2.2]
        exact hI x f0 h0
    · intro x f' j hx hj
      obtain ⟨hxi, f0, h0, htr⟩ := ext x f' hx
      have hqe : f'.queue_next = f0.queue_next := by
        by_cases hxn : x = nid <;> simp [hxn] at htr <;> exact htr.2.1
      obtain ⟨g0, hg0, hg0q⟩ := hBk x f0 j h0 (hqe ▸ hj)
      have hji : j ≠ i := by
        intro e
        rw [e] at hg0
        have := lookupF_det hi hg0
        rw [← this, hfqp] at hg0q
        cases hg0q
      have hjn : j ≠ nid := by
        intro e
        obtain ⟨gn, hgn, hgnq⟩ := hBk i f nid hi hqn
        rw [e] at hg0
        have := lookupF_det hgn hg0
        rw [← this, hgnq] at hg0q
        exact hxi (Option.some.inj hg0q).symm
      have hcj2 : qpOf (lookupF (fetch_abort_full s i f).heap j) =
          some (g0.queue_prev, g0.queue_next, g0.curl_handle) := by
        rw [char j, if_neg hji, hg0]
        simp [qpOf, hjn]
      obtain ⟨g', hg', htr'⟩ := qpOf_eq_some.mp hcj2
      simp only [Prod.mk.injEq] at htr'
      refine ⟨g', hg', ?_⟩
      rw [← htr'.1, hg0q]
  all_goals {
    -- splice branch
    first
    | (have hn : f.curl_handle = none ∨ f.queue_next = none := Or.inl hch)
    | (have hn : f.curl_handle = none ∨ f.queue_next = none := Or.inr hqn)
    have char := fun x => qpOf_abort_full_splice (s := s) (i := i) (f := f) hn x
    have ext : ∀ x f', lookupF (fetch_abort_full s i f).heap x = some f' →
        x ≠ i ∧ ∃ f0, lookupF s.heap x = some f0 ∧
          f'.queue_prev =
            (if f.queue_next = some x then f.queue_prev else f0.queue_prev) ∧
          f'.queue_next =
            (if f.queue_prev = some x then f.queue_next else f0.queue_next) ∧
          f'.curl_handle = f0.curl_handle := by
      intro x f' hx
      have hc := char x
      rw [hx] at hc
      by_cases hxi : x = i
      · rw [if_pos hxi] at hc; simp [qpOf] at hc
      · rw [if_neg hxi] at hc
        refine ⟨hxi, ?_⟩
        cases h0 : lookupF s.heap x with
        | none => rw [h0] at hc; simp [qpOf] at hc
        | some f0 =>
          rw [h0] at hc
          simp only [qpOf, Option.map_some', Option.some_inj,
            Prod.mk.injEq] at hc
          exact ⟨f0, rfl, hc.1, hc.2.1, hc.2.2⟩
    refine ⟨?_, ?_, ?_, ?_, ?_, ?_⟩
    · intro x f' hx
      obtain ⟨hxi, f0, h0, -⟩ := ext x f' hx
      rw [sc1]; exact hA x f0 h0
    · intro x f' j hx hj
      obtain ⟨hxi, f0, h0, -, e2, -⟩ := ext x f' hx
      rw [sc1]
      rw [e2] at hj
      by_cases hpx : f.queue_prev = some x
      · rw [if_pos hpx] at hj
        exact hB i f j hi hj
      · rw [if_neg hpx] at hj
        exact hB x f0 j h0 hj
    · intro x f' hv hx hcv
      obtain ⟨hxi, f0, h0, -, -, e3⟩ := ext x f' hx
      rw [sc2]
      exact hC x f0 hv h0 (e3 ▸ hcv)
    · intro x f' y g' hv hx hy hcx hcy
      obtain ⟨hxi, f0, h0, -, -, e3⟩ := ext x f' hx
      obtain ⟨hyi, g0, h1, -, -, e4⟩ := ext y g' hy
      exact hF x f0 y g0 hv h0 h1 (e3 ▸ hcx) (e4 ▸ hcy)
    · intro x f' hx
      obtain ⟨hxi, f0, h0, e1, -, e3⟩ := ext x f' hx
      rw [e1, e3]
      by_cases hnx : f.queue_next = some x
      · rw [if_pos hnx]
        obtain ⟨g0, hg0, hg0q⟩ := hBk i f x hi hnx
        have := lookupF_det h0 hg0
        subst this
        have hf0ch : f0.curl_handle = none := by
          by_contra hne
          rw [(hI x f0 h0).mpr hne] at hg0q
          cases hg0q
        rw [hf0ch]
        have hfqp2 : f.queue_prev ≠ none := by
          have hiff := hI i f hi
          intro e
          have := hiff.mp e
          rw [hch] at this
          first
          | exact this rfl
          | (rw [hqn] at hnx; cases hnx)
        simp
        intro e
        exact hfqp2 e
      · rw [if_neg hnx]
        exact hI x f0 h0
    · intro x f' j hx hj
      obtain ⟨hxi, f0, h0, -, e2, -⟩ := ext x f' hx
      rw [e2] at hj
      by_cases hpx : f.queue_prev = some x
      · rw [if_pos hpx] at hj
        obtain ⟨g0, hg0, hg0q⟩ := hBk i f j hi hj
        have hji : j ≠ i := by
          intro e
          rw [e] at hg0
          have := lookupF_det hi hg0
          rw [← this] at hg0q
          rw [hg0q] at hpx
          exact hxi (Option.some.inj hpx).symm
        have hcj2 : qpOf (lookupF (fetch_abort_full s i f).heap j) =
            some (f.queue_prev,
              (if f.queue_prev = some j then f.queue_next else g0.queue_next),
              g0.curl_handle) := by
          rw [char j, if_neg hji, hg0]
          simp [qpOf, hj]
        obtain ⟨g', hg', htr'⟩ := qpOf_eq_some.mp hcj2
        simp only [Prod.mk.injEq] at htr'
        refine ⟨g', hg', ?_⟩
        rw [← htr'.1]
        exact hpx
      · rw [if_neg hpx] at hj
        obtain ⟨g0, hg0, hg0q⟩ := hBk x f0 j h0 hj
        have hji : j ≠ i := by
          intro e
          rw [e] at hg0
          have := lookupF_det hi hg0
          rw [← this] at hg0q
          rw [hg0q] at hpx
          exact hpx rfl
        have hnj : f.queue_next ≠ some j := by
          intro e
          obtain ⟨gn, hgn, hgnq⟩ := hBk i f j hi e
          have := lookupF_det hgn hg0
          rw [← this] at hg0q
          rw [hgnq] at hg0q
          exact hxi (Option.some.inj hg0q).symm
        have hcj2 : qpOf (lookupF (fetch_abort_full s i f).heap j) =
            some (g0.queue_prev,
              (if f.queue_prev = some j then f.queue_next else g0.queue_next),
              g0.curl_handle) := by
          rw [char j, if_neg hji, hg0]
          simp [qpOf, hnj]
        obtain ⟨g', hg', htr'⟩ := qpOf_eq_some.mp hcj2
        simp only [Prod.mk.injEq] at htr'
        refine ⟨g', hg', ?_⟩
        rw [← htr'.1]
        exact hg0q
  }

theorem fetch_abort_eq_none {s : FetchState} {i : Nat}
    (hlf : lookupF s.heap i = none) : fetch_abort s i = none := by
  unfold fetch_abort; rw [hlf]

theorem fetch_abort_eq_cb {s : FetchState} {i : Nat} {f : Fetch}
    (hlf : lookupF s.heap i = some f) (hcb : f.in_callback = true) :
    fetch_abort s i =
      some (modifyf s i (fun g => { g with aborting := true })) := by
  unfold fetch_abort; rw [hlf]; simp [hcb]

theorem fetch_abort_eq_full {s : FetchState} {i : Nat} {f : Fetch}
    (hlf : lookupF s.heap i = some f) (hcb : f.in_callback = false) :
    fetch_abort s i = some (fetch_abort_full s i f) := by
  unfold fetch_abort; rw [hlf]; simp [hcb]

/-- `fetch_abort` preserves the structural invariant whenever it has a
defined result. -/
theorem sinv_fetch_abort {s s2 : FetchState} {i : Nat} (hs : SInv s)
    (hab : fetch_abort s i = some s2) : SInv s2 := by
  cases hlf : lookupF s.heap i with
  | none => rw [fetch_abort_eq_none hlf] at hab; cases hab
  | some f =>
    cases hcb : f.in_callback with
    | true =>
      rw [fetch_abort_eq_cb hlf hcb] at hab
      have := Option.some.inj hab
      subst this
      exact sinv_modifyf (fun y => ⟨rfl, rfl, rfl⟩) hs
    | false =>
      rw [fetch_abort_eq_full hlf hcb] at hab
      have := Option.some.inj hab
      subst this
      exact sinv_abort_full hs hlf

theorem queueTail_lt {s : FetchState} (_hA : PropIdBound s) (hB : PropQnBound s) :
    ∀ (fuel : Nat) (i : Nat), i < s.next_id →
      queueTail s.heap i fuel < s.next_id := by
  intro fuel
  induction fuel with
  | zero => intro i hi; exact hi
  | succ n ih =>
    intro i hi
    cases hlf : lookupF s.heap i with
    | none => simpa [queueTail, hlf] using hi
    | some f =>
      cases hqn : f.queue_next with
      | none => simpa [queueTail, hlf, hqn] using hi
      | some j => simpa [queueTail, hlf, hqn] using ih j (hB i f j hlf hqn)

theorem findHostFetch_mem {heap : List (Nat × Fetch)} {host : String}
    {hid : Nat} :
    ∀ {cur : Option Nat} {fuel : Nat},
      findHostFetch heap cur host fuel = some hid →
      ∃ f, lookupF heap hid = some f := by
  intro cur fuel
  induction fuel generalizing cur with
  | zero => intro hh; cases hh
  | succ n ih =>
    intro hh
    cases cur with
    | none => simp [findHostFetch] at hh
    | some i =>
      cases hlf : lookupF heap i with
      | none => simp [findHostFetch, hlf] at hh
      | some f =>
        cases hho : f.host with
        | none =>
          simp only [findHostFetch, hlf, hho] at hh
          exact ih hh
        | some h2 =>
          by_cases heq : strCaseEq h2 host = true
          · simp only [findHostFetch, hlf, hho, heq, if_true] at hh
            have hi : i = hid := Option.some.inj hh
            subst hi
            exact ⟨f, hlf⟩
          · simp only [findHostFetch, hlf, hho, heq, if_false] at hh
            exact ih hh

/-- Activation of a fresh fetch preserves the structural invariant. -/
theorem sinv_activate {s : FetchState} {f : Fetch} (hs : SInv s)
    (hqp : f.queue_prev = none) (hqn : f.queue_next = none) :
    SInv (fetch_start_activate s f s.next_id).1 := by
  obtain ⟨hA, hB, hC, hF, hI, hBk⟩ := hs
  have char : ∀ x, qpOf (lookupF (fetch_start_activate s f s.next_id).1.heap x) =
      if x = s.next_id then some (none, none, some s.next_handle)
      else qpOf (lookupF s.heap x) := by
    intro x
    unfold fetch_start_activate
    cases hfl : s.fetch_list with
    | none =>
      simp only [lookupF_cons]
      by_cases hx : x = s.next_id
      · rw [if_pos hx, if_pos hx.symm]
        simp [qpOf, hqp, hqn]
      · rw [if_neg hx, if_neg (fun hh => hx hh.symm)]
    | some oldHead =>
      simp only [lookupF_cons]
      by_cases hx : x = s.next_id
      · rw [if_pos hx, if_pos hx.symm]
        simp [qpOf, hqp, hqn]
      · rw [if_neg hx, if_neg (fun hh => hx hh.symm)]
        exact qpOf_modify_prev s oldHead (some s.next_id) x
  have ext : ∀ x f', lookupF (fetch_start_activate s f s.next_id).1.heap x = some f' →
      (x = s.next_id ∧ f'.queue_prev = none ∧ f'.queue_next = none ∧
        f'.curl_handle = some s.next_handle) ∨
      (x ≠ s.next_id ∧ ∃ f0, lookupF s.heap x = some f0 ∧
        f'.queue_prev = f0.queue_prev ∧ f'.queue_next = f0.queue_next ∧
        f'.curl_handle = f0.curl_handle) := by
    intro x f' hx
    have hc := char x
    rw [hx] at hc
    by_cases hxn : x = s.next_id
    · rw [if_pos hxn] at hc
      simp only [qpOf, Option.map_some', Option.some_inj, Prod.mk.injEq] at hc
      exact Or.inl ⟨hxn, hc.1, hc.2.1, hc.2.2⟩
    · rw [if_neg hxn] at hc
      cases h0 : lookupF s.heap x with
      | none => rw [h0] at hc; simp [qpOf] at hc
      | some f0 =>
        rw [h0] at hc
        simp only [qpOf, Option.map_some', Option.some_inj, Prod.mk.injEq] at hc
        exact Or.inr ⟨hxn, f0, rfl, hc.1, hc.2.1, hc.2.2⟩
  have hni : (fetch_start_activate s f s.next_id).1.next_id = s.next_id + 1 := by
    unfold fetch_start_activate
    cases s.fetch_list <;> rfl
  have hnh : (fetch_start_activate s f s.next_id).1.next_handle =
      s.next_handle + 1 := by
    unfold fetch_start_activate
    cases s.fetch_list <;> rfl
  refine ⟨?_, ?_, ?_, ?_, ?_, ?_⟩
  · intro x f' hx
    rw [hni]
    rcases ext x f' hx with ⟨he, -⟩ | ⟨-, f0, h0, -⟩
    · rw [he]; exact Nat.lt_succ_self _
    · exact Nat.lt_succ_of_lt (hA x f0 h0)
  · intro x f' j hx hj
    rw [hni]
    rcases ext x f' hx with ⟨-, -, he, -⟩ | ⟨-, f0, h0, -, e2, -⟩
    · rw [he] at hj; cases hj
    · exact Nat.lt_succ_of_lt (hB x f0 j h0 (e2 ▸ hj))
  · intro x f' hv hx hcv
    rw [hnh]
    rcases ext x f' hx with ⟨-, -, -, he⟩ | ⟨-, f0, h0, -, -, e3⟩
    · rw [he] at hcv
      rw [← Option.some.inj hcv]
      exact Nat.lt_succ_self _
    · exact Nat.lt_succ_of_lt (hC x f0 hv h0 (e3 ▸ hcv))
  · intro x f' y g' hv hx hy hcx hcy
    rcases ext x f' hx with ⟨ex, -, -, e3⟩ | ⟨ex, f0, h0, -, -, e3⟩ <;>
      rcases ext y g' hy with ⟨ey, -, -, e4⟩ | ⟨ey, g0, h1, -, -, e4⟩
    · rw [ex, ey]
    · rw [e3] at hcx
      rw [e4] at hcy
      have := hC y g0 hv h1 hcy
      rw [← Option.some.inj hcx] at this
      exact absurd this (Nat.lt_irrefl _)
    · rw [e4] at hcy
      rw [e3] at hcx
      have := hC x f0 hv h0 hcx
      rw [← Option.some.inj hcy] at this
      exact absurd this (Nat.lt_irrefl _)
    · exact hF x f0 y g0 hv h0 h1 (e3 ▸ hcx) (e4 ▸ hcy)
  · intro x f' hx
    rcases ext x f' hx with ⟨-, e1, -, e3⟩ | ⟨-, f0, h0, e1, -, e3⟩
    · rw [e1, e3]; simp
    · rw [e1, e3]; exact hI x f0 h0
  · intro x f' j hx hj
    rcases ext x f' hx with ⟨-, -, e2, -⟩ | ⟨hxn, f0, h0, -, e2, -⟩
    · rw [e2] at hj; cases hj
    · rw [e2] at hj
      obtain ⟨g0, hg0, hg0q⟩ := hBk x f0 j h0 hj
      have hjn : j ≠ s.next_id := by
        intro e
        have := hB x f0 j h0 hj
        rw [e] at this
        exact Nat.lt_irrefl _ this
      have hcj : qpOf (lookupF (fetch_start_activate s f s.next_id).1.heap j) =
          some (g0.queue_prev, g0.queue_next, g0.curl_handle) := by
        rw [char j, if_neg hjn, hg0]; rfl
      obtain ⟨g', hg', htr'⟩ := qpOf_eq_some.mp hcj
      simp only [Prod.mk.injEq] at htr'
      refine ⟨g', hg', ?_⟩
      rw [← htr'.1, hg0q]

/-- Appending a fresh fetch to the tail of a host queue preserves the
structural invariant. -/
theorem sinv_queue_insert {s : FetchState} (hs : SInv s) (fq : Fetch)
    (tid : Nat) (htid_lt : tid < s.next_id)
    (hfqp : fq.queue_prev = some tid) (hfqn : fq.queue_next = none)
    (hfch : fq.curl_handle = none) :
    SInv { s with
      heap := (s.next_id, fq) ::
        updateF s.heap tid (fun t => { t with queue_next := some s.next_id }),
      next_id := s.next_id + 1 } := by
  obtain ⟨hA, hB, hC, hF, hI, hBk⟩ := hs
  have htid_ne : tid ≠ s.next_id := Nat.ne_of_lt htid_lt
  set H2 := (s.next_id, fq) ::
    updateF s.heap tid (fun t => { t with queue_next := some s.next_id })
    with hH2
  have char : ∀ x, qpOf (lookupF H2 x) =
      if x = s.next_id then some (some tid, none, none)
      else if x = tid then
        (qpOf (lookupF s.heap tid)).map (fun t => (t.1, some s.next_id, t.2.2))
      else qpOf (lookupF s.heap x) := by
    intro x
    rw [hH2, lookupF_cons]
    by_cases hx : x = s.next_id
    · rw [if_pos hx.symm, if_pos hx]
      simp [qpOf, hfqp, hfqn, hfch]
    · rw [if_neg (fun hh2 => hx hh2.symm), if_neg hx, lookupF_updateF]
      by_cases hxt : x = tid
      · rw [if_pos hxt, if_pos hxt]
        cases lookupF s.heap tid <;> simp [qpOf]
      · rw [if_neg hxt, if_neg hxt]
  have ext : ∀ x f', lookupF H2 x = some f' →
      (x = s.next_id ∧ f'.queue_prev = some tid ∧ f'.queue_next = none ∧
        f'.curl_handle = none) ∨
      (x = tid ∧ x ≠ s.next_id ∧ ∃ f0, lookupF s.heap x = some f0 ∧
        f'.queue_prev = f0.queue_prev ∧ f'.queue_next = some s.next_id ∧
        f'.curl_handle = f0.curl_handle) ∨
      (x ≠ tid ∧ x ≠ s.next_id ∧ ∃ f0, lookupF s.heap x = some f0 ∧
        f'.queue_prev = f0.queue_prev ∧ f'.queue_next = f0.queue_next ∧
        f'.curl_handle = f0.curl_handle) := by
    intro x f' hx
    have hc := char x
    rw [hx] at hc
    by_cases hxn : x = s.next_id
    · rw [if_pos hxn] at hc
      simp only [qpOf, Option.map_some', Option.some_inj, Prod.mk.injEq] at hc
      exact Or.inl ⟨hxn, hc.1, hc.2.1, hc.2.2⟩
    · rw [if_neg hxn] at hc
      by_cases hxt : x = tid
      · rw [if_pos hxt] at hc
        cases h0 : lookupF s.heap tid with
        | none => rw [h0] at hc; simp [qpOf] at hc
        | some f0 =>
          rw [h0] at hc
          simp only [qpOf, Option.map_some', Option.some_inj,
            Prod.mk.injEq] at hc
          exact Or.inr (Or.inl ⟨hxt, hxn, f0, hxt.symm ▸ h0, hc.1, hc.2.1, hc.2.2⟩)
      · rw [if_neg hxt] at hc
        cases h0 : lookupF s.heap x with
        | none => rw [h0] at hc; simp [qpOf] at hc
        | some f0 =>
          rw [h0] at hc
          simp only [qpOf, Option.map_some', Option.some_inj,
            Prod.mk.injEq] at hc
          exact Or.inr (Or.inr ⟨hxt, hxn, f0, rfl, hc.1, hc.2.1, hc.2.2⟩)
  refine ⟨?_, ?_, ?_, ?_, ?_, ?_⟩
  · intro x f' hx
    rcases ext x f' hx with ⟨he, -⟩ | ⟨-, -, f0, h0, -⟩ | ⟨-, -, f0, h0, -⟩
    · rw [he]; exact Nat.lt_succ_self _
    · exact Nat.lt_succ_of_lt (hA x f0 h0)
    · exact Nat.lt_succ_of_lt (hA x f0 h0)
  · intro x f' j hx hj
    rcases ext x f' hx with ⟨-, -, e2, -⟩ | ⟨-, -, f0, h0, -, e2, -⟩ |
      ⟨-, -, f0, h0, -, e2, -⟩
    · rw [e2] at hj; cases hj
    · rw [e2] at hj
      rw [← Option.some.inj hj]
      exact Nat.lt_succ_self _
    · rw [e2] at hj
      exact Nat.lt_succ_of_lt (hB x f0 j h0 hj)
  · intro x f' hv hx hcv
    rcases ext x f' hx with ⟨-, -, -, e3⟩ | ⟨-, -, f0, h0, -, -, e3⟩ |
      ⟨-, -, f0, h0, -, -, e3⟩
    · rw [e3] at hcv; cases hcv
    · exact hC x f0 hv h0 (e3 ▸ hcv)
    · exact hC x f0 hv h0 (e3 ▸ hcv)
  · intro x f' y g' hv hx hy hcx hcy
    rcases ext x f' hx with ⟨-, -, -, e3⟩ | ⟨-, -, f0, h0, -, -, e3⟩ |
      ⟨-, -, f0, h0, -, -, e3⟩
    · rw [e3] at hcx; cases hcx
    · rcases ext y g' hy with ⟨-, -, -, e4⟩ | ⟨-, -, g0, h1, -, -, e4⟩ |
        ⟨-, -, g0, h1, -, -, e4⟩
      · rw [e4] at hcy; cases hcy
      · exact hF x f0 y g0 hv h0 h1 (e3 ▸ hcx) (e4 ▸ hcy)
      · exact hF x f0 y g0 hv h0 h1 (e3 ▸ hcx) (e4 ▸ hcy)
    · rcases ext y g' hy with ⟨-, -, -, e4⟩ | ⟨-, -, g0, h1, -, -, e4⟩ |
        ⟨-, -, g0, h1, -, -, e4⟩
      · rw [e4] at hcy; cases hcy
      · exact hF x f0 y g0 hv h0 h1 (e3 ▸ hcx) (e4 ▸ hcy)
      · exact hF x f0 y g0 hv h0 h1 (e3 ▸ hcx) (e4 ▸ hcy)
  · intro x f' hx
    rcases ext x f' hx with ⟨-, e1, -, e3⟩ | ⟨-, -, f0, h0, e1, -, e3⟩ |
      ⟨-, -, f0, h0, e1, -, e3⟩
    · rw [e1, e3]; simp
    · rw [e1, e3]; exact hI x f0 h0
    · rw [e1, e3]; exact hI x f0 h0
  · intro x f' j hx hj
    rcases ext x f' hx with ⟨-, -, e2, -⟩ | ⟨hxt, hxn, f0, h0, -, e2, -⟩ |
      ⟨hxt, hxn, f0, h0, -, e2, -⟩
    · rw [e2] at hj; cases hj
    · rw [e2] at hj
      have hji : j = s.next_id := (Option.some.inj hj).symm
      have hcj : qpOf (lookupF H2 j) = some (some tid, none, none) := by
        rw [char j, if_pos hji]
      obtain ⟨g', hg', htr'⟩ := qpOf_eq_some.mp hcj
      simp only [Prod.mk.injEq] at htr'
      refine ⟨g', hg', ?_⟩
      rw [← htr'.1, hxt]
    · rw [e2] at hj
      obtain ⟨g0, hg0, hg0q⟩ := hBk x f0 j h0 hj
      have hjn : j ≠ s.next_id := by
        intro e
        have := hB x f0 j h0 hj
        rw [e] at this
        exact Nat.lt_irrefl _ this
      by_cases hjt : j = tid
      · have hcj : qpOf (lookupF H2 j) =
            some (g0.queue_prev, some s.next_id, g0.curl_handle) := by
          rw [char j, if_neg hjn, if_pos hjt, ← hjt, hg0]
          rfl
        obtain ⟨g', hg', htr'⟩ := qpOf_eq_some.mp hcj
        simp only [Prod.mk.injEq] at htr'
        refine ⟨g', hg', ?_⟩
        rw [← htr'.1, hg0q]
      · have hcj : qpOf (lookupF H2 j) =
            some (g0.queue_prev, g0.queue_next, g0.curl_handle) := by
          rw [char j, if_neg hjn, if_neg hjt, hg0]
          rfl
        obtain ⟨g', hg', htr'⟩ := qpOf_eq_some.mp hcj
        simp only [Prod.mk.injEq] at htr'
        refine ⟨g', hg', ?_⟩
        rw [← htr'.1, hg0q]

/-- `fetch_start` preserves the structural invariant. -/
theorem sinv_fetch_start {s : FetchState} (hs : SInv s) (url : String)
    (ref : Option String) (o2 : Bool) :
    SInv (fetch_start s url ref o2).1 := by
  unfold fetch_start
  cases hh : url_host url with
  | none => exact sinv_activate hs rfl rfl
  | some hostv =>
    simp only
    cases hfind : findHostFetch s.heap s.fetch_list hostv (s.heap.length + 1) with
    | none => exact sinv_activate hs rfl rfl
    | some hid =>
      simp only
      obtain ⟨fh, hfh⟩ := findHostFetch_mem hfind
      have htid_lt : queueTail s.heap hid (s.heap.length + 1) < s.next_id :=
        queueTail_lt hs.1 hs.2.1 _ hid (hs.1 hid fh hfh)
      exact sinv_queue_insert hs _ _ htid_lt rfl rfl rfl

/-! ### The invariant through the callback and completion paths -/

theorem sinv_deliverEv {s s2 : FetchState} {i : Nat} {m : FetchMsg}
    {d : EvData} {ab : Bool} {ev : Ev} (hs : SInv s)
    (hd : deliverEv s i m d ab = some (s2, ev)) : SInv s2 := by
  unfold deliverEv at hd
  cases ab with
  | false =>
    simp only [Bool.false_eq_true, if_false, Option.some_inj, Prod.mk.injEq] at hd
    rw [← hd.1]
    exact hs
  | true =>
    simp only [if_true] at hd
    obtain ⟨s3, hs3, he⟩ := Option.map_eq_some'.mp hd
    simp only [Prod.mk.injEq] at he
    rw [← he.1]
    exact sinv_fetch_abort hs hs3

theorem sinv_fph_rest {s s2 : FetchState} {i : Nat} {hdr : HdrInfo}
    {ab : Bool} {f0 : Fetch} {rej : Bool} {evs : List Ev} (hs : SInv s)
    (h : fph_rest s i hdr ab f0 = some (s2, rej, evs)) : SInv s2 := by
  unfold fph_rest at h
  split at h
  · cases hd : deliverEv s i .AUTH (.realm f0.realm) ab with
    | none => rw [hd] at h; cases h
    | some p =>
      obtain ⟨s3, ev⟩ := p
      rw [hd] at h
      simp only [Option.some_inj, Prod.mk.injEq] at h
      rw [← h.1]
      exact sinv_deliverEv hs hd
  · split at h
    · cases hd : deliverEv s i .ERROR (.message "Not2xx") ab with
      | none => rw [hd] at h; cases h
      | some p =>
        obtain ⟨s3, ev⟩ := p
        rw [hd] at h
        simp only [Option.some_inj, Prod.mk.injEq] at h
        rw [← h.1]
        exact sinv_deliverEv hs hd
    · dsimp only at h
      cases hd : deliverEv s i .TYPE
          (.mime (resolveMime f0.url hdr.content_type) f0.content_length) ab with
      | none => rw [hd] at h; cases h
      | some p =>
        obtain ⟨s3, ev⟩ := p
        rw [hd] at h
        dsimp only at h
        cases hl : lookupF s3.heap i with
        | none => rw [hl] at h; cases h
        | some g =>
          rw [hl] at h
          simp only [Option.some_inj, Prod.mk.injEq] at h
          rw [← h.1]
          exact sinv_deliverEv hs hd

theorem sinv_process_headers {s s2 : FetchState} {i : Nat} {hdr : HdrInfo}
    {ab : Bool} {rej : Bool} {evs : List Ev} (hs : SInv s)
    (h : fetch_process_headers s i hdr ab = some (s2, rej, evs)) : SInv s2 := by
  unfold fetch_process_headers at h
  cases hlf : lookupF s.heap i with
  | none => rw [hlf] at h; cases h
  | some f0 =>
    rw [hlf] at h
    simp only at h
    have hs1 : SInv (modifyf s i (fun g => { g with had_headers := true })) :=
      sinv_modifyf (fun y => ⟨rfl, rfl, rfl⟩) hs
    cases hlo : f0.location with
    | none =>
      rw [hlo] at h
      dsimp only at h
      exact sinv_fph_rest hs1 h
    | some l =>
      rw [hlo] at h
      dsimp only at h
      split at h
      · set sl := modifyf (modifyf s i (fun g => { g with had_headers := true }))
          i (fun g => { g with location := some (curl_unescape l) }) with hsl
        have hs2 : SInv sl := sinv_modifyf (fun y => ⟨rfl, rfl, rfl⟩) hs1
        cases hd : deliverEv sl i .REDIRECT (.loc (curl_unescape l)) ab with
        | none => rw [hd] at h; cases h
        | some p =>
          obtain ⟨s3, ev⟩ := p
          rw [hd] at h
          simp only [Option.some_inj, Prod.mk.injEq] at h
          rw [← h.1]
          exact sinv_deliverEv hs2 hd
      · exact sinv_fph_rest hs1 h

theorem sinv_dataDeliver {s s2 : FetchState} {i : Nat} {chunk : String}
    {ab killed : Bool} {evs evs2 : List Ev} (hs : SInv s)
    (h : dataDeliver s i chunk ab evs = some (s2, killed, evs2)) : SInv s2 := by
  unfold dataDeliver at h
  cases hd : deliverEv s i .DATA (.chunk chunk) ab with
  | none => rw [hd] at h; cases h
  | some p =>
    obtain ⟨s3, ev⟩ := p
    rw [hd] at h
    dsimp only at h
    cases hl : lookupF s3.heap i with
    | none => rw [hl] at h; cases h
    | some g =>
      rw [hl] at h
      simp only [Option.some_inj, Prod.mk.injEq] at h
      rw [← h.1]
      exact sinv_modifyf (fun y => ⟨rfl, rfl, rfl⟩) (sinv_deliverEv hs hd)

theorem sinv_fetch_curl_data {s s2 : FetchState} {i : Nat} {chunk : String}
    {hdr : HdrInfo} {ab killed : Bool} {evs : List Ev} (hs : SInv s)
    (h : fetch_curl_data s i chunk hdr ab = some (s2, killed, evs)) :
    SInv s2 := by
  unfold fetch_curl_data at h
  cases hlf : lookupF s.heap i with
  | none => rw [hlf] at h; cases h
  | some f0 =>
    rw [hlf] at h
    simp only at h
    have hs1 : SInv (modifyf s i (fun g => { g with in_callback := true })) :=
      sinv_modifyf (fun y => ⟨rfl, rfl, rfl⟩) hs
    split at h
    · cases hp : fetch_process_headers
          (modifyf s i (fun g => { g with in_callback := true })) i hdr ab with
      | none => rw [hp] at h; cases h
      | some q =>
        obtain ⟨s3, rej, evs3⟩ := q
        rw [hp] at h
        have hs3 : SInv s3 := sinv_process_headers hs1 hp
        cases rej with
        | true =>
          dsimp only at h
          cases hl : lookupF s3.heap i with
          | none => rw [hl] at h; cases h
          | some g =>
            rw [hl] at h
            simp only [Option.some_inj, Prod.mk.injEq] at h
            rw [← h.1]
            exact sinv_modifyf (fun y => ⟨rfl, rfl, rfl⟩) hs3
        | false =>
          dsimp only at h
          exact sinv_dataDeliver hs3 h
    · exact sinv_dataDeliver hs1 h

theorem sinv_finishUp {s s2 : FetchState} {i : Nat} {evs evs2 : List Ev}
    {ab : Bool} (hs : SInv s)
    (h : finishUp s i evs ab = some (s2, evs2)) : SInv s2 := by
  unfold finishUp at h
  cases ha : fetch_abort s i with
  | none => rw [ha] at h; cases h
  | some s1 =>
    rw [ha] at h
    dsimp only at h
    have hs1 : SInv s1 := sinv_fetch_abort hs ha
    cases hd : deliverEv s1 i .FINISHED .empty ab with
    | none => rw [hd] at h; cases h
    | some p =>
      obtain ⟨s3, ev⟩ := p
      rw [hd] at h
      simp only [Option.some_inj, Prod.mk.injEq] at h
      rw [← h.1]
      exact sinv_deliverEv hs1 hd

theorem sinv_processDone {s s2 : FetchState} {i : Nat} {res : CurlRes}
    {hdr : HdrInfo} {ab : Bool} {evs : List Ev} (hs : SInv s)
    (h : processDone s i res hdr ab = some (s2, evs)) : SInv s2 := by
  unfold processDone at h
  cases hlf : lookupF s.heap i with
  | none => rw [hlf] at h; cases h
  | some f0 =>
    rw [hlf] at h
    cases res with
    | ok =>
      simp only at h
      split at h
      · cases hp : fetch_process_headers s i hdr ab with
        | none => rw [hp] at h; cases h
        | some q =>
          obtain ⟨s1, rej, evs1⟩ := q
          rw [hp] at h
          have hs1 : SInv s1 := sinv_process_headers hs hp
          cases rej with
          | true =>
            obtain ⟨s3, hs3, he⟩ := Option.map_eq_some'.mp h
            simp only [Prod.mk.injEq] at he
            rw [← he.1]
            exact sinv_fetch_abort hs1 hs3
          | false =>
            exact sinv_finishUp hs1 h
      · exact sinv_finishUp hs h
    | writeError =>
      obtain ⟨s3, hs3, he⟩ := Option.map_eq_some'.mp h
      simp only [Prod.mk.injEq] at he
      rw [← he.1]
      exact sinv_fetch_abort hs hs3
    | other diag =>
      simp only at h
      cases hd : deliverEv s i .ERROR (.errorBuffer diag) ab with
      | none => rw [hd] at h; cases h
      | some p =>
        obtain ⟨s1, ev⟩ := p
        rw [hd] at h
        obtain ⟨s3, hs3, he⟩ := Option.map_eq_some'.mp h
        simp only [Prod.mk.injEq] at he
        rw [← he.1]
        exact sinv_fetch_abort (sinv_deliverEv hs hd) hs3

theorem parseHeaderLine_q (f : Fetch) (line : String) :
    (parseHeaderLine f line).queue_prev = f.queue_prev ∧
    (parseHeaderLine f line).queue_next = f.queue_next ∧
    (parseHeaderLine f line).curl_handle = f.curl_handle := by
  refine ⟨?_, ?_, ?_⟩ <;>
  · unfold parseHeaderLine
    dsimp only
    split_ifs <;> try rfl
    all_goals split <;> try rfl
    all_goals split_ifs <;> rfl

theorem parseHeaderLine_had (f : Fetch) (line : String) :
    (parseHeaderLine f line).had_headers = f.had_headers := by
  unfold parseHeaderLine
  dsimp only
  split_ifs <;> try rfl
  all_goals split <;> try rfl
  all_goals split_ifs <;> rfl

theorem applyOp_start (s : FetchState) (url : String) (ref : Option String)
    (o2 : Bool) :
    applyOp s (.start url ref o2) = some ((fetch_start s url ref o2).1, []) :=
  rfl

theorem applyOp_abort (s : FetchState) (i : Nat) :
    applyOp s (.abort i) = (fetch_abort s i).map (fun s2 => (s2, [])) := rfl

theorem applyOp_header (s : FetchState) (i : Nat) (line : String) :
    applyOp s (.header i line) =
      match engineCanTouch s i with
      | none => some (s, [])
      | some h =>
        if h ∈ s.dead then some (s, [])
        else some (modifyf s i (fun g => parseHeaderLine g line), []) := rfl

theorem applyOp_data (s : FetchState) (i : Nat) (chunk : String)
    (hdr : HdrInfo) (ab : Bool) :
    applyOp s (.data i chunk hdr ab) =
      match engineCanTouch s i with
      | none => some (s, [])
      | some h =>
        if h ∈ s.dead then some (s, [])
        else
          match fetch_curl_data s i chunk hdr ab with
          | none => none
          | some (s2, killed, evs) =>
            some ((if killed then { s2 with dead := h :: s2.dead } else s2),
              evs) := rfl

theorem applyOp_done (s : FetchState) (i : Nat) (res : CurlRes)
    (hdr : HdrInfo) (ab : Bool) :
    applyOp s (.done i res hdr ab) =
      match engineCanTouch s i with
      | none => some (s, [])
      | some h =>
        if h ∈ s.dead ∧ res ≠ .writeError then some (s, [])
        else processDone s i res hdr ab := rfl

theorem applyOp_pollCheck (s : FetchState) :
    applyOp s .pollCheck =
      some ({ s with
        fetch_active := if s.fetch_list = none then false else s.fetch_active },
        []) := rfl

theorem sinv_applyOp {s s2 : FetchState} {op : Op} {evs : List Ev}
    (hs : SInv s) (h : applyOp s op = some (s2, evs)) : SInv s2 := by
  cases op with
  | start url referer only2 =>
    rw [applyOp_start] at h
    simp only [Option.some_inj, Prod.mk.injEq] at h
    rw [← h.1]
    exact sinv_fetch_start hs url referer only2
  | abort i =>
    rw [applyOp_abort] at h
    obtain ⟨s3, hs3, he⟩ := Option.map_eq_some'.mp h
    simp only [Prod.mk.injEq] at he
    rw [← he.1]
    exact sinv_fetch_abort hs hs3
  | header i line =>
    rw [applyOp_header] at h
    cases he : engineCanTouch s i with
    | none =>
      rw [he] at h
      simp only [Option.some_inj, Prod.mk.injEq] at h
      rw [← h.1]
      exact hs
    | some hv =>
      rw [he] at h
      dsimp only at h
      split at h
      · simp only [Option.some_inj, Prod.mk.injEq] at h
        rw [← h.1]
        exact hs
      · simp only [Option.some_inj, Prod.mk.injEq] at h
        rw [← h.1]
        exact sinv_modifyf (fun y => parseHeaderLine_q y line) hs
  | data i chunk hdr ab =>
    rw [applyOp_data] at h
    cases he : engineCanTouch s i with
    | none =>
      rw [he] at h
      simp only [Option.some_inj, Prod.mk.injEq] at h
      rw [← h.1]
      exact hs
    | some hv =>
      rw [he] at h
      dsimp only at h
      split at h
      · simp only [Option.some_inj, Prod.mk.injEq] at h
        rw [← h.1]
        exact hs
      · cases hc : fetch_curl_data s i chunk hdr ab with
        | none => rw [hc] at h; cases h
        | some q =>
          obtain ⟨s3, killed, evs3⟩ := q
          rw [hc] at h
          simp only [Option.some_inj, Prod.mk.injEq] at h
          have hs3 : SInv s3 := sinv_fetch_curl_data hs hc
          rw [← h.1]
          cases killed with
          | true => exact sinv_ext rfl rfl rfl hs3
          | false => exact sinv_ext rfl rfl rfl hs3
  | done i res hdr ab =>
    rw [applyOp_done] at h
    cases he : engineCanTouch s i with
    | none =>
      rw [he] at h
      simp only [Option.some_inj, Prod.mk.injEq] at h
      rw [← h.1]
      exact hs
    | some hv =>
      rw [he] at h
      dsimp only at h
      split at h
      · simp only [Option.some_inj, Prod.mk.injEq] at h
        rw [← h.1]
        exact hs
      · exact sinv_processDone hs h
  | pollCheck =>
    rw [applyOp_pollCheck] at h
    simp only [Option.some_inj, Prod.mk.injEq] at h
    rw [← h.1]
    exact sinv_ext rfl rfl rfl hs

theorem sinv_runOps {s s2 : FetchState} {ops : List Op} {evs : List Ev}
    (hs : SInv s) (h : runOps s ops = some (s2, evs)) : SInv s2 := by
  induction ops generalizing s s2 evs with
  | nil =>
    unfold runOps at h
    simp only [Option.some_inj, Prod.mk.injEq] at h
    rw [← h.1]
    exact hs
  | cons op rest ih =>
    unfold runOps at h
    cases ha : applyOp s op with
    | none => rw [ha] at h; cases h
    | some p =>
      obtain ⟨s1, evs1⟩ := p
      rw [ha] at h
      dsimp only at h
      cases hr : runOps s1 rest with
      | none => rw [hr] at h; cases h
      | some q =>
        obtain ⟨s3, evs3⟩ := q
        rw [hr] at h
        simp only [Option.some_inj, Prod.mk.injEq] at h
        rw [← h.1]
        exact ih (sinv_applyOp hs ha) hr

/-! ### Claim C2: invariant I1 -/

theorem sinv_initState : SInv initState := by
  refine ⟨?_, ?_, ?_, ?_, ?_, ?_⟩ <;> intro i f <;> simp [initState, lookupF]

/-- Claim C2: for every fetch that exists at an observation point outside
the execution of `start`, `abort` and `poll` (i.e. in any state reachable
by a trace of scheduler operations), `queue_prev = none` holds exactly
when the fetch holds a transfer (curl) handle: only the head of a host's
queue is actively transferring and every non-head fetch has no handle. -/
theorem spec_c2_I1_invariant (ops : List Op) (s2 : FetchState) (evs : List Ev)
    (h : runOps initState ops = some (s2, evs)) :
    ∀ i f, lookupF s2.heap i = some f →
      (f.queue_prev = none ↔ f.curl_handle ≠ none) := by
  intro i f hf
  exact (sinv_runOps sinv_initState h).2.2.2.2.1 i f hf

theorem spec_c2_witness :
    ∃ p : FetchState × List Ev,
      runOps initState [Op.start "http://x/a" none false,
        Op.start "http://x/b" none false] = some p ∧
      ∀ i f, lookupF p.1.heap i = some f →
        (f.queue_prev = none ↔ f.curl_handle ≠ none) :=
  ⟨_, rfl, spec_c2_I1_invariant
    [Op.start "http://x/a" none false, Op.start "http://x/b" none false]
    _ _ rfl⟩

/-! ### Claim C5: start on an unparseable URL -/

/-- Claim C5 (divergence witness): `fetch_start` has no failure path.  On
a URL from which no scheme/host can be parsed (`url_host` gives none) the
C doc comment promises a 0 return, but the code still allocates the
request, inserts it at the head of the active registry, allocates an easy
handle and registers it with the engine, and sets `fetch_active`. -/
theorem spec_c5_start_invalid_url_eval :
    url_host "bogus" = none ∧
    (fetch_start initState "bogus" none false).2 = 0 ∧
    (fetch_start initState "bogus" none false).1.fetch_list = some 0 ∧
    (fetch_start initState "bogus" none false).1.multi = [0] ∧
    (fetch_start initState "bogus" none false).1.fetch_active = true ∧
    (lookupF (fetch_start initState "bogus" none false).1.heap 0).map
      (fun f => (f.curl_handle, f.host)) = some (some 0, none) :=
  ⟨rfl, rfl, rfl, rfl, rfl, rfl⟩

/-! ### Claim C9: aborting a queued fetch -/

/-- The trace for claims C9 and C4: start `A` (activated, handle 0),
start `B` on the same host (queued behind `A`), abort `B`. -/
def c9ops : List Op :=
  [Op.start "http://x/a" none false, Op.start "http://x/b" none false,
   Op.abort 1]

/-- Claim C9 (divergence witness): aborting the queued fetch `B` (id 1,
no handle) splices it out of the host queue and frees it as claimed, but
the unconditional active-list unlink executes `fetch_list = B->next`,
i.e. sets the registry head to null while the transferring fetch `A`
(id 0) is still live and registered with the engine. -/
theorem spec_c9_abort_queued_wipes_registry :
    ∃ p : FetchState × List Ev, runOps initState c9ops = some p ∧
      p.1.fetch_list = none ∧
      lookupF p.1.heap 1 = none ∧
      p.1.multi = [0] ∧
      (lookupF p.1.heap 0).map
        (fun f => (f.curl_handle, f.queue_next, f.host)) =
        some (some 0, none, some "x") := by
  refine ⟨_, rfl, ?_, ?_, ?_, ?_⟩ <;> rfl

/-! ### Claim C4: same-host start must queue -/

/-- The trace for claim C4: after `c9ops`, start `C` on the same host. -/
def c4ops : List Op := c9ops ++ [Op.start "http://x/c" none false]

/-- Claim C4 (divergence witness): after the queued fetch `B` was
aborted, `fetch_list` is null, so starting `C` with a host equal to the
still-transferring fetch `A`'s host activates `C` immediately: `C` gets
its own easy handle (1) registered with the engine and `queue_prev =
none`, while `A` is still live and transferring on the same host — two
in-progress transfers for one host, instead of queueing `C`. -/
theorem spec_c4_same_host_start_not_queued :
    ∃ p : FetchState × List Ev, runOps initState c4ops = some p ∧
      (lookupF p.1.heap 0).map (fun f => (f.curl_handle, f.host)) =
        some (some 0, some "x") ∧
      (lookupF p.1.heap 2).map
        (fun f => (f.curl_handle, f.queue_prev, f.host)) =
        some (some 1, none, some "x") ∧
      p.1.multi = [1, 0] ∧ p.1.fetch_list = some 2 := by
  refine ⟨_, rfl, ?_, ?_, ?_, ?_⟩ <;> rfl

/-! ### Claim C8: abort on an already-completed handle -/

/-- The trace for claim C8: a fetch completes with an engine failure and
`fetch_poll` cleans it up (freeing the `struct fetch`). -/
def c8ops : List Op :=
  [Op.start "http://x/" none false,
   Op.done 0 (.other "connect error") ⟨0, none⟩ false]

/-- Claim C8 (divergence witness): after the completion has been
processed, the handle's `struct fetch` is freed; a second `fetch_abort`
on that handle dereferences freed memory (`f->in_callback` at line 351)
— undefined behaviour, not a no-op. -/
theorem spec_c8_second_abort_undefined :
    ∃ p : FetchState × List Ev, runOps initState c8ops = some p ∧
      lookupF p.1.heap 0 = none ∧
      fetch_abort p.1 0 = none := by
  refine ⟨_, rfl, ?_, ?_⟩
  · rfl
  · rfl

/-! ### Claim C1: abort from inside the request's own callback -/

/-- The state for claim C1: a single started fetch. -/
def c1s : FetchState := (fetch_start initState "http://x/" none false).1

/-- Claim C1 (divergence witness): when `fetch_poll` delivers the ERROR
event for a failed transfer, the fetch's `in_callback` flag is false (it
is only ever set inside `fetch_curl_data`), so an abort issued from
inside that callback does not set the abort-pending flag: it frees the
fetch on the spot, and the `fetch_abort(f)` cleanup that `fetch_poll`
runs right after the callback then dereferences the freed fetch.  The
whole operation with a client that aborts from inside the callback has
no defined result. -/
theorem spec_c1_abort_inside_poll_callback_frees :
    (∃ q : FetchState × List Ev,
      processDone c1s 0 (.other "connect error") ⟨0, none⟩ false =
        some q ∧
      q.2.map (fun ev => (ev.fid, ev.msg,
        (lookupF ev.snap.heap 0).map (fun f => f.in_callback),
        (fetch_abort ev.snap 0).map
          (fun s2 => (lookupF s2.heap 0, fetch_abort s2 0)))) =
        [(0, FetchMsg.ERROR, some false, some (none, none))]) ∧
    applyOp c1s (.done 0 (.other "connect error") ⟨0, none⟩ true) = none := by
  refine ⟨⟨_, rfl, ?_⟩, ?_⟩ <;> rfl

/-! ### Small-step decomposition of the callback paths

Every state change performed inside `fetch_curl_data`,
`fetch_process_headers` and the completion processing of `fetch_poll` is
either an in-place field mutation of one fetch that leaves the queue
links and the handle alone and never clears `had_headers`, or a call to
`fetch_abort`, or the engine marking a handle dead after the write
callback consumed zero bytes.  `CbStep` closes these under composition;
all frame lemmas about the callback paths follow from it. -/

/-- In-place mutations used by the callback paths: they touch neither
the queue links nor the handle, and never reset `had_headers`. -/
def cbPres (g : Fetch → Fetch) : Prop :=
  qPres g ∧ ∀ x, ((g x).had_headers = x.had_headers ∨ (g x).had_headers = true)

inductive CbStep : FetchState → FetchState → Prop where
  | refl (s : FetchState) : CbStep s s
  | modify {s t : FetchState} (i : Nat) (g : Fetch → Fetch) (hg : cbPres g)
      (h : CbStep s t) : CbStep s (modifyf t i g)
  | abort {s t t2 : FetchState} (i : Nat) (h : CbStep s t)
      (ha : fetch_abort t i = some t2) : CbStep s t2
  | markDead {s t : FetchState} (hv : Nat) (h : CbStep s t) :
      CbStep s { t with dead := hv :: t.dead }

theorem CbStep.trans2 {s t u : FetchState} (h1 : CbStep s t)
    (h2 : CbStep t u) : CbStep s u := by
  induction h2 with
  | refl => exact h1
  | modify i g hg h ih => exact CbStep.modify i g hg ih
  | abort i h ha ih => exact CbStep.abort i ih ha
  | markDead hv h ih => exact CbStep.markDead hv ih

theorem cbstep_sinv {s t : FetchState} (h : CbStep s t) (hs : SInv s) :
    SInv t := by
  induction h with
  | refl => exact hs
  | modify i g hg h ih => exact sinv_modifyf hg.1 ih
  | abort i h ha ih => exact sinv_fetch_abort ih ha
  | markDead hv h ih => exact sinv_ext rfl rfl rfl ih

theorem fetch_abort_frame {s s2 : FetchState} {i : Nat}
    (h : fetch_abort s i = some s2) :
    s2.fetch_active = s.fetch_active ∧ s2.next_id = s.next_id ∧
      s2.next_handle = s.next_handle := by
  cases hlf : lookupF s.heap i with
  | none => rw [fetch_abort_eq_none hlf] at h; cases h
  | some f =>
    cases hcb : f.in_callback with
    | true =>
      rw [fetch_abort_eq_cb hlf hcb] at h
      have := Option.some.inj h
      subst this
      exact ⟨rfl, rfl, rfl⟩
    | false =>
      rw [fetch_abort_eq_full hlf hcb] at h
      have := Option.some.inj h
      subst this
      obtain ⟨h1, h2, h3⟩ := abort_full_scalars s i f
      exact ⟨h3, h1, h2⟩

theorem cbstep_frame {s t : FetchState} (h : CbStep s t) :
    t.fetch_active = s.fetch_active ∧ t.next_id = s.next_id ∧
      t.next_handle = s.next_handle := by
  induction h with
  | refl => exact ⟨rfl, rfl, rfl⟩
  | modify i g hg h ih => exact ih
  | abort i h ha ih =>
    obtain ⟨a1, a2, a3⟩ := fetch_abort_frame ha
    exact ⟨a1.trans ih.1, a2.trans ih.2.1, a3.trans ih.2.2⟩
  | markDead hv h ih => exact ih

theorem deliverEv_cbstep {s s2 : FetchState} {i : Nat} {m : FetchMsg}
    {d : EvData} {ab : Bool} {ev : Ev}
    (hd : deliverEv s i m d ab = some (s2, ev)) : CbStep s s2 := by
  unfold deliverEv at hd
  cases ab with
  | false =>
    simp only [Bool.false_eq_true, if_false, Option.some_inj, Prod.mk.injEq] at hd
    rw [← hd.1]
    exact CbStep.refl s
  | true =>
    simp only [if_true] at hd
    obtain ⟨s3, hs3, he⟩ := Option.map_eq_some'.mp hd
    simp only [Prod.mk.injEq] at he
    rw [← he.1]
    exact CbStep.abort i (CbStep.refl s) hs3

theorem fph_rest_cbstep {s s2 : FetchState} {i : Nat} {hdr : HdrInfo}
    {ab : Bool} {f0 : Fetch} {rej : Bool} {evs : List Ev}
    (h : fph_rest s i hdr ab f0 = some (s2, rej, evs)) : CbStep s s2 := by
  unfold fph_rest at h
  split at h
  · cases hd : deliverEv s i .AUTH (.realm f0.realm) ab with
    | none => rw [hd] at h; cases h
    | some p =>
      obtain ⟨s3, ev⟩ := p
      rw [hd] at h
      simp only [Option.some_inj, Prod.mk.injEq] at h
      rw [← h.1]
      exact deliverEv_cbstep hd
  · split at h
    · cases hd : deliverEv s i .ERROR (.message "Not2xx") ab with
      | none => rw [hd] at h; cases h
      | some p =>
        obtain ⟨s3, ev⟩ := p
        rw [hd] at h
        simp only [Option.some_inj, Prod.mk.injEq] at h
        rw [← h.1]
        exact deliverEv_cbstep hd
    · dsimp only at h
      cases hd : deliverEv s i .TYPE
          (.mime (resolveMime f0.url hdr.content_type) f0.content_length) ab with
      | none => rw [hd] at h; cases h
      | some p =>
        obtain ⟨s3, ev⟩ := p
        rw [hd] at h
        dsimp only at h
        cases hl : lookupF s3.heap i with
        | none => rw [hl] at h; cases h
        | some g =>
          rw [hl] at h
          simp only [Option.some_inj, Prod.mk.injEq] at h
          rw [← h.1]
          exact deliverEv_cbstep hd

theorem process_headers_cbstep {s s2 : FetchState} {i : Nat} {hdr : HdrInfo}
    {ab : Bool} {rej : Bool} {evs : List Ev}
    (h : fetch_process_headers s i hdr ab = some (s2, rej, evs)) :
    CbStep s s2 := by
  unfold fetch_process_headers at h
  cases hlf : lookupF s.heap i with
  | none => rw [hlf] at h; cases h
  | some f0 =>
    rw [hlf] at h
    simp only at h
    have step1 : CbStep s (modifyf s i (fun g => { g with had_headers := true })) :=
      CbStep.modify i _ ⟨fun y => ⟨rfl, rfl, rfl⟩, fun y => Or.inr rfl⟩
        (CbStep.refl s)
    cases hlo : f0.location with
    | none =>
      rw [hlo] at h
      dsimp only at h
      exact CbStep.trans2 step1 (fph_rest_cbstep h)
    | some l =>
      rw [hlo] at h
      dsimp only at h
      split at h
      · cases hd : deliverEv
            (modifyf (modifyf s i (fun g => { g with had_headers := true })) i
              (fun g => { g with location := some (curl_unescape l) }))
            i .REDIRECT (.loc (curl_unescape l)) ab with
        | none => rw [hd] at h; cases h
        | some p =>
          obtain ⟨s3, ev⟩ := p
          rw [hd] at h
          simp only [Option.some_inj, Prod.mk.injEq] at h
          rw [← h.1]
          refine CbStep.trans2 ?_ (deliverEv_cbstep hd)
          exact CbStep.modify i _ ⟨fun y => ⟨rfl, rfl, rfl⟩, fun y => Or.inl rfl⟩
            step1
      · exact CbStep.trans2 step1 (fph_rest_cbstep h)

theorem dataDeliver_cbstep {s s2 : FetchState} {i : Nat} {chunk : String}
    {ab killed : Bool} {evs evs2 : List Ev}
    (h : dataDeliver s i chunk ab evs = some (s2, killed, evs2)) :
    CbStep s s2 := by
  unfold dataDeliver at h
  cases hd : deliverEv s i .DATA (.chunk chunk) ab with
  | none => rw [hd] at h; cases h
  | some p =>
    obtain ⟨s3, ev⟩ := p
    rw [hd] at h
    dsimp only at h
    cases hl : lookupF s3.heap i with
    | none => rw [hl] at h; cases h
    | some g =>
      rw [hl] at h
      simp only [Option.some_inj, Prod.mk.injEq] at h
      rw [← h.1]
      exact CbStep.modify i _ ⟨fun y => ⟨rfl, rfl, rfl⟩, fun y => Or.inl rfl⟩
        (deliverEv_cbstep hd)

theorem curl_data_cbstep {s s2 : FetchState} {i : Nat} {chunk : String}
    {hdr : HdrInfo} {ab killed : Bool} {evs : List Ev}
    (h : fetch_curl_data s i chunk hdr ab = some (s2, killed, evs)) :
    CbStep s s2 := by
  unfold fetch_curl_data at h
  cases hlf : lookupF s.heap i with
  | none => rw [hlf] at h; cases h
  | some f0 =>
    rw [hlf] at h
    simp only at h
    have step1 : CbStep s (modifyf s i (fun g => { g with in_callback := true })) :=
      CbStep.modify i _ ⟨fun y => ⟨rfl, rfl, rfl⟩, fun y => Or.inl rfl⟩
        (CbStep.refl s)
    split at h
    · cases hp : fetch_process_headers
          (modifyf s i (fun g => { g with in_callback := true })) i hdr ab with
      | none => rw [hp] at h; cases h
      | some q =>
        obtain ⟨s3, rej, evs3⟩ := q
        rw [hp] at h
        have step2 : CbStep s s3 :=
          CbStep.trans2 step1 (process_headers_cbstep hp)
        cases rej with
        | true =>
          dsimp only at h
          cases hl : lookupF s3.heap i with
          | none => rw [hl] at h; cases h
          | some g =>
            rw [hl] at h
            simp only [Option.some_inj, Prod.mk.injEq] at h
            rw [← h.1]
            exact CbStep.modify i _
              ⟨fun y => ⟨rfl, rfl, rfl⟩, fun y => Or.inl rfl⟩ step2
        | false =>
          dsimp only at h
          exact CbStep.trans2 step2 (dataDeliver_cbstep h)
    · exact CbStep.trans2 step1 (dataDeliver_cbstep h)

theorem finishUp_cbstep {s s2 : FetchState} {i : Nat} {evs evs2 : List Ev}
    {ab : Bool} (h : finishUp s i evs ab = some (s2, evs2)) : CbStep s s2 := by
  unfold finishUp at h
  cases ha : fetch_abort s i with
  | none => rw [ha] at h; cases h
  | some s1 =>
    rw [ha] at h
    dsimp only at h
    have step1 : CbStep s s1 := CbStep.abort i (CbStep.refl s) ha
    cases hd : deliverEv s1 i .FINISHED .empty ab with
    | none => rw [hd] at h; cases h
    | some p =>
      obtain ⟨s3, ev⟩ := p
      rw [hd] at h
      simp only [Option.some_inj, Prod.mk.injEq] at h
      rw [← h.1]
      exact CbStep.trans2 step1 (deliverEv_cbstep hd)

theorem processDone_cbstep {s s2 : FetchState} {i : Nat} {res : CurlRes}
    {hdr : HdrInfo} {ab : Bool} {evs : List Ev}
    (h : processDone s i res hdr ab = some (s2, evs)) : CbStep s s2 := by
  unfold processDone at h
  cases hlf : lookupF s.heap i with
  | none => rw [hlf] at h; cases h
  | some f0 =>
    rw [hlf] at h
    cases res with
    | ok =>
      simp only at h
      split at h
      · cases hp : fetch_process_headers s i hdr ab with
        | none => rw [hp] at h; cases h
        | some q =>
          obtain ⟨s1, rej, evs1⟩ := q
          rw [hp] at h
          have step1 : CbStep s s1 := process_headers_cbstep hp
          cases rej with
          | true =>
            dsimp only at h
            obtain ⟨s3, hs3, he⟩ := Option.map_eq_some'.mp h
            simp only [Prod.mk.injEq] at he
            rw [← he.1]
            exact CbStep.abort i step1 hs3
          | false =>
            dsimp only at h
            exact CbStep.trans2 step1 (finishUp_cbstep h)
      · exact finishUp_cbstep h
    | writeError =>
      obtain ⟨s3, hs3, he⟩ := Option.map_eq_some'.mp h
      simp only [Prod.mk.injEq] at he
      rw [← he.1]
      exact CbStep.abort i (CbStep.refl s) hs3
    | other diag =>
      simp only at h
      cases hd : deliverEv s i .ERROR (.errorBuffer diag) ab with
      | none => rw [hd] at h; cases h
      | some p =>
        obtain ⟨s1, ev⟩ := p
        rw [hd] at h
        dsimp only at h
        obtain ⟨s3, hs3, he⟩ := Option.map_eq_some'.mp h
        simp only [Prod.mk.injEq] at he
        rw [← he.1]
        exact CbStep.abort i (deliverEv_cbstep hd) hs3

/-- Every scheduler operation other than `start` and the final
`fetch_active` check of `fetch_poll` is a `CbStep`. -/
theorem applyOp_cbstep {s s2 : FetchState} {op : Op} {evs : List Ev}
    (h : applyOp s op = some (s2, evs))
    (hop : (∀ url ref o2, op ≠ .start url ref o2) ∧ op ≠ .pollCheck) :
    CbStep s s2 := by
  cases op with
  | start url referer only2 => exact absurd rfl (hop.1 url referer only2)
  | pollCheck => exact absurd rfl hop.2
  | abort i =>
    rw [applyOp_abort] at h
    obtain ⟨s3, hs3, he⟩ := Option.map_eq_some'.mp h
    simp only [Prod.mk.injEq] at he
    rw [← he.1]
    exact CbStep.abort i (CbStep.refl s) hs3
  | header i line =>
    rw [applyOp_header] at h
    cases he : engineCanTouch s i with
    | none =>
      rw [he] at h
      simp only [Option.some_inj, Prod.mk.injEq] at h
      rw [← h.1]
      exact CbStep.refl s
    | some hv =>
      rw [he] at h
      dsimp only at h
      split at h
      · simp only [Option.some_inj, Prod.mk.injEq] at h
        rw [← h.1]
        exact CbStep.refl s
      · simp only [Option.some_inj, Prod.mk.injEq] at h
        rw [← h.1]
        refine CbStep.modify i _ ⟨fun y => parseHeaderLine_q y line, fun y => ?_⟩
          (CbStep.refl s)
        exact Or.inl (parseHeaderLine_had y line)
  | data i chunk hdr ab =>
    rw [applyOp_data] at h
    cases he : engineCanTouch s i with
    | none =>
      rw [he] at h
      simp only [Option.some_inj, Prod.mk.injEq] at h
      rw [← h.1]
      exact CbStep.refl s
    | some hv =>
      rw [he] at h
      dsimp only at h
      split at h
      · simp only [Option.some_inj, Prod.mk.injEq] at h
        rw [← h.1]
        exact CbStep.refl s
      · cases hc : fetch_curl_data s i chunk hdr ab with
        | none => rw [hc] at h; cases h
        | some q =>
          obtain ⟨s3, killed, evs3⟩ := q
          rw [hc] at h
          simp only [Option.some_inj, Prod.mk.injEq] at h
          rw [← h.1]
          cases killed with
          | true => exact CbStep.markDead hv (curl_data_cbstep hc)
          | false => exact curl_data_cbstep hc
  | done i res hdr ab =>
    rw [applyOp_done] at h
    cases he : engineCanTouch s i with
    | none =>
      rw [he] at h
      simp only [Option.some_inj, Prod.mk.injEq] at h
      rw [← h.1]
      exact CbStep.refl s
    | some hv =>
      rw [he] at h
      dsimp only at h
      split at h
      · simp only [Option.some_inj, Prod.mk.injEq] at h
        rw [← h.1]
        exact CbStep.refl s
      · exact processDone_cbstep h

/-! ### Claim C10: the global fetch_active flag -/

theorem fetch_start_active (s : FetchState) (url : String)
    (ref : Option String) (o2 : Bool) :
    (fetch_start s url ref o2).1.fetch_active = s.fetch_active ∨
    (fetch_start s url ref o2).1.fetch_active = true := by
  unfold fetch_start
  cases hh : url_host url with
  | none =>
    unfold fetch_start_activate
    cases s.fetch_list <;> exact Or.inr rfl
  | some hostv =>
    simp only
    cases hfind : findHostFetch s.heap s.fetch_list hostv (s.heap.length + 1) with
    | none =>
      unfold fetch_start_activate
      cases s.fetch_list <;> exact Or.inr rfl
    | some hid => exact Or.inl rfl

/-- Claim C10: `fetch_abort` never modifies the global `fetch_active`
flag (so after aborting the last remaining fetch it is still set); the
flag is cleared exactly by the final step of `fetch_poll` when it
observes an empty `fetch_list`; and no operation other than that final
poll step ever changes the flag from true to false. -/
theorem spec_c10_active_flag (s s2 : FetchState) (op : Op) (evs : List Ev)
    (h : applyOp s op = some (s2, evs)) :
    ((∃ i, op = Op.abort i) → s2.fetch_active = s.fetch_active) ∧
    (op = Op.pollCheck →
      (s2.fetch_active = false ↔
        (s.fetch_list = none ∨ s.fetch_active = false))) ∧
    (s.fetch_active = true → s2.fetch_active = false → op = Op.pollCheck) := by
  refine ⟨?_, ?_, ?_⟩
  · rintro ⟨i, rfl⟩
    exact (cbstep_frame (applyOp_cbstep h
      ⟨fun u r o hh => Op.noConfusion hh, fun hh => Op.noConfusion hh⟩)).1
  · rintro rfl
    rw [applyOp_pollCheck] at h
    simp only [Option.some_inj, Prod.mk.injEq] at h
    rw [← h.1]
    cases hfl : s.fetch_list <;> cases hfa : s.fetch_active <;> simp
  · intro hT hF
    cases op with
    | pollCheck => rfl
    | start url referer only2 =>
      rw [applyOp_start] at h
      simp only [Option.some_inj, Prod.mk.injEq] at h
      rcases fetch_start_active s url referer only2 with ha | ha <;>
        rw [← h.1] at hF <;> rw [hF] at ha
      · rw [hT] at ha; cases ha
      · cases ha
    | abort i =>
      have := (cbstep_frame (applyOp_cbstep h
        ⟨fun u r o hh => Op.noConfusion hh, fun hh => Op.noConfusion hh⟩)).1
      rw [hF, hT] at this
      cases this
    | header i line =>
      have := (cbstep_frame (applyOp_cbstep h
        ⟨fun u r o hh => Op.noConfusion hh, fun hh => Op.noConfusion hh⟩)).1
      rw [hF, hT] at this
      cases this
    | data i chunk hdr ab =>
      have := (cbstep_frame (applyOp_cbstep h
        ⟨fun u r o hh => Op.noConfusion hh, fun hh => Op.noConfusion hh⟩)).1
      rw [hF, hT] at this
      cases this
    | done i res hdr ab =>
      have := (cbstep_frame (applyOp_cbstep h
        ⟨fun u r o hh => Op.noConfusion hh, fun hh => Op.noConfusion hh⟩)).1
      rw [hF, hT] at this
      cases this

/-- The state for the C10 witness: one started fetch. -/
def c10s : FetchState := (fetch_start initState "http://x/w" none false).1

theorem spec_c10_witness :
    ∃ s2, applyOp c10s (.abort 0) = some (s2, []) ∧
      s2.fetch_active = c10s.fetch_active ∧ s2.fetch_active = true ∧
      s2.fetch_list = none ∧
      ∃ s3, applyOp s2 .pollCheck = some (s3, []) ∧
        (s3.fetch_active = false ↔
          (s2.fetch_list = none ∨ s2.fetch_active = false)) ∧
        s3.fetch_active = false := by
  refine ⟨_, rfl, ?_, rfl, rfl, _, rfl, ?_, rfl⟩
  · exact (spec_c10_active_flag c10s _ (.abort 0) [] rfl).1 ⟨0, rfl⟩
  · exact (spec_c10_active_flag _ _ .pollCheck [] rfl).2.1 rfl

/-! ### Event characterisations of the callback paths -/

theorem deliverEv_ev {s s2 : FetchState} {i : Nat} {m : FetchMsg}
    {d : EvData} {ab : Bool} {ev : Ev}
    (hd : deliverEv s i m d ab = some (s2, ev)) : ev = ⟨i, m, d, s⟩ := by
  unfold deliverEv at hd
  cases ab with
  | false =>
    simp only [Bool.false_eq_true, if_false, Option.some_inj, Prod.mk.injEq] at hd
    exact hd.2.symm
  | true =>
    simp only [if_true] at hd
    obtain ⟨s3, hs3, he⟩ := Option.map_eq_some'.mp hd
    simp only [Prod.mk.injEq] at he
    exact he.2.symm

/-- `fetch_process_headers` delivers exactly one event, for the resolved
fetch, and it is REDIRECT, AUTH, the canned Not2xx ERROR, or TYPE. -/
theorem process_headers_events {s s1 : FetchState} {i : Nat} {hdr : HdrInfo}
    {ab rej : Bool} {evs : List Ev}
    (h : fetch_process_headers s i hdr ab = some (s1, rej, evs)) :
    ∃ ev0, evs = [ev0] ∧ ev0.fid = i ∧
      (ev0.msg = .REDIRECT ∨ ev0.msg = .AUTH ∨
       (ev0.msg = .ERROR ∧ ev0.data = .message "Not2xx") ∨
       ev0.msg = .TYPE) := by
  unfold fetch_process_headers at h
  cases hlf : lookupF s.heap i with
  | none => rw [hlf] at h; cases h
  | some f0 =>
    rw [hlf] at h
    simp only at h
    have hrest : ∀ {t : FetchState},
        fph_rest t i hdr ab f0 = some (s1, rej, evs) →
        ∃ ev0, evs = [ev0] ∧ ev0.fid = i ∧
          (ev0.msg = .REDIRECT ∨ ev0.msg = .AUTH ∨
           (ev0.msg = .ERROR ∧ ev0.data = .message "Not2xx") ∨
           ev0.msg = .TYPE) := by
      intro t h
      unfold fph_rest at h
      split at h
      · cases hd : deliverEv t i .AUTH (.realm f0.realm) ab with
        | none => rw [hd] at h; cases h
        | some p =>
          obtain ⟨s3, ev⟩ := p
          rw [hd] at h
          simp only [Option.some_inj, Prod.mk.injEq] at h
          refine ⟨ev, h.2.2.symm, ?_, Or.inr (Or.inl ?_)⟩ <;>
            rw [deliverEv_ev hd]
      · split at h
        · cases hd : deliverEv t i .ERROR (.message "Not2xx") ab with
          | none => rw [hd] at h; cases h
          | some p =>
            obtain ⟨s3, ev⟩ := p
            rw [hd] at h
            simp only [Option.some_inj, Prod.mk.injEq] at h
            refine ⟨ev, h.2.2.symm, ?_, Or.inr (Or.inr (Or.inl ⟨?_, ?_⟩))⟩ <;>
              rw [deliverEv_ev hd]
        · dsimp only at h
          cases hd : deliverEv t i .TYPE
              (.mime (resolveMime f0.url hdr.content_type) f0.content_length)
              ab with
          | none => rw [hd] at h; cases h
          | some p =>
            obtain ⟨s3, ev⟩ := p
            rw [hd] at h
            dsimp only at h
            cases hl : lookupF s3.heap i with
            | none => rw [hl] at h; cases h
            | some g =>
              rw [hl] at h
              simp only [Option.some_inj, Prod.mk.injEq] at h
              refine ⟨ev, h.2.2.symm, ?_, Or.inr (Or.inr (Or.inr ?_))⟩ <;>
                rw [deliverEv_ev hd]
    cases hlo : f0.location with
    | none =>
      rw [hlo] at h
      dsimp only at h
      exact hrest h
    | some l =>
      rw [hlo] at h
      dsimp only at h
      split at h
      · cases hd : deliverEv
            (modifyf (modifyf s i (fun g => { g with had_headers := true })) i
              (fun g => { g with location := some (curl_unescape l) }))
            i .REDIRECT (.loc (curl_unescape l)) ab with
        | none => rw [hd] at h; cases h
        | some p =>
          obtain ⟨s3, ev⟩ := p
          rw [hd] at h
          simp only [Option.some_inj, Prod.mk.injEq] at h
          refine ⟨ev, h.2.2.symm, ?_, Or.inl ?_⟩ <;> rw [deliverEv_ev hd]
      · exact hrest h

/-- `finishUp` appends exactly one FINISHED event for the cleaned-up
fetch after all the passed-through events. -/
theorem finishUp_events {s s2 : FetchState} {i : Nat} {evs evs2 : List Ev}
    {ab : Bool} (h : finishUp s i evs ab = some (s2, evs2)) :
    ∃ st, evs2 = evs ++ [⟨i, .FINISHED, .empty, st⟩] := by
  unfold finishUp at h
  cases ha : fetch_abort s i with
  | none => rw [ha] at h; cases h
  | some s1 =>
    rw [ha] at h
    dsimp only at h
    cases hd : deliverEv s1 i .FINISHED .empty ab with
    | none => rw [hd] at h; cases h
    | some p =>
      obtain ⟨s3, ev⟩ := p
      rw [hd] at h
      simp only [Option.some_inj, Prod.mk.injEq] at h
      refine ⟨s1, ?_⟩
      rw [← h.2, deliverEv_ev hd]

/-! ### Claim C6: ERROR exactly for non-sentinel engine failures -/

/-- Claim C6: during completion processing, an ERROR event carrying the
engine's diagnostic text (`f->error_buffer`) is emitted if and only if
the engine reported a failure other than the reserved
`CURLE_WRITE_ERROR` sentinel (the write error produced by the data
callback reporting zero bytes consumed after status resolution rejected
the transfer); a completion carrying the sentinel produces no ERROR
event at all. -/
theorem spec_c6_error_iff_not_sentinel (s s' : FetchState) (i : Nat)
    (res : CurlRes) (hdr : HdrInfo) (ab : Bool) (evs : List Ev)
    (hdone : processDone s i res hdr ab = some (s', evs)) :
    ((∃ d ev, ev ∈ evs ∧ ev.fid = i ∧ ev.msg = .ERROR ∧
        ev.data = .errorBuffer d) ↔ (∃ d, res = .other d)) ∧
    (res = .writeError → ∀ ev ∈ evs, ev.msg ≠ .ERROR) := by
  unfold processDone at hdone
  cases hlf : lookupF s.heap i with
  | none => rw [hlf] at hdone; cases hdone
  | some f0 =>
    rw [hlf] at hdone
    cases res with
    | writeError =>
      obtain ⟨s3, hs3, he⟩ := Option.map_eq_some'.mp hdone
      simp only [Prod.mk.injEq] at he
      rw [← he.2]
      constructor
      · constructor
        · rintro ⟨d, ev, hmem, -⟩; cases hmem
        · rintro ⟨d, hd⟩; cases hd
      · rintro - ev hmem; cases hmem
    | other diag =>
      simp only at hdone
      cases hd : deliverEv s i .ERROR (.errorBuffer diag) ab with
      | none => rw [hd] at hdone; cases hdone
      | some p =>
        obtain ⟨s1, ev⟩ := p
        rw [hd] at hdone
        dsimp only at hdone
        obtain ⟨s3, hs3, he⟩ := Option.map_eq_some'.mp hdone
        simp only [Prod.mk.injEq] at he
        rw [← he.2]
        constructor
        · constructor
          · rintro -; exact ⟨diag, rfl⟩
          · rintro ⟨d, -⟩
            refine ⟨diag, ev, List.mem_singleton.mpr rfl, ?_, ?_, ?_⟩ <;>
              rw [deliverEv_ev hd]
        · rintro hx; cases hx
    | ok =>
      simp only at hdone
      have hno : ∀ (evsA : List Ev),
          (∀ ev ∈ evsA, ev.msg ≠ .ERROR ∨ ev.data = .message "Not2xx") →
          ((∃ d ev, ev ∈ evsA ∧ ev.fid = i ∧ ev.msg = .ERROR ∧
              ev.data = .errorBuffer d) ↔ (∃ d, CurlRes.ok = .other d)) ∧
          (CurlRes.ok = .writeError → ∀ ev ∈ evsA, ev.msg ≠ .ERROR) := by
        intro evsA hA
        constructor
        · constructor
          · rintro ⟨d, ev, hmem, -, hmsg, hdata⟩
            rcases hA ev hmem with hx | hx
            · exact absurd hmsg hx
            · rw [hx] at hdata; cases hdata
          · rintro ⟨d, hd⟩; cases hd
        · rintro hx; cases hx
      split at hdone
      · cases hp : fetch_process_headers s i hdr ab with
        | none => rw [hp] at hdone; cases hdone
        | some q =>
          obtain ⟨s1, rej, evs1⟩ := q
          rw [hp] at hdone
          obtain ⟨ev0, hevs1, -, hkind⟩ := process_headers_events hp
          have hev0 : ∀ ev ∈ evs1, ev.msg ≠ .ERROR ∨ ev.data = .message "Not2xx" := by
            intro ev hmem
            rw [hevs1] at hmem
            rw [List.mem_singleton.mp hmem]
            rcases hkind with hk | hk | ⟨hk1, hk2⟩ | hk
            · exact Or.inl (by rw [hk]; intro hx; cases hx)
            · exact Or.inl (by rw [hk]; intro hx; cases hx)
            · exact Or.inr hk2
            · exact Or.inl (by rw [hk]; intro hx; cases hx)
          cases rej with
          | true =>
            dsimp only at hdone
            obtain ⟨s3, hs3, he⟩ := Option.map_eq_some'.mp hdone
            simp only [Prod.mk.injEq] at he
            rw [← he.2]
            exact hno evs1 hev0
          | false =>
            dsimp only at hdone
            obtain ⟨st, hevs2⟩ := finishUp_events hdone
            rw [hevs2]
            refine hno _ ?_
            intro ev hmem
            rcases List.mem_append.mp hmem with hx | hx
            · exact hev0 ev hx
            · rw [List.mem_singleton.mp hx]
              exact Or.inl (by intro hx2; cases hx2)
      · obtain ⟨st, hevs2⟩ := finishUp_events hdone
        rw [hevs2]
        refine hno _ ?_
        intro ev hmem
        rcases List.mem_append.mp hmem with hx | hx
        · cases hx
        · rw [List.mem_singleton.mp hx]
          exact Or.inl (by intro hx2; cases hx2)

/-- The state for the C6 witness: one started fetch. -/
def c6s : FetchState := (fetch_start initState "http://x/c6" none false).1

theorem spec_c6_witness :
    ∃ q : FetchState × List Ev,
      processDone c6s 0 (.other "connection refused") ⟨0, none⟩ false =
        some q ∧
      ((∃ d ev, ev ∈ q.2 ∧ ev.fid = 0 ∧ ev.msg = .ERROR ∧
          ev.data = .errorBuffer d) ↔
        (∃ d, CurlRes.other "connection refused" = .other d)) :=
  ⟨_, rfl, (spec_c6_error_iff_not_sentinel c6s _ 0
    (.other "connection refused") ⟨0, none⟩ false _ rfl).1⟩

/-! ### Claim C3: cleanup and queue promotion precede FINISHED -/

/-- With no re-entrant abort requested, event delivery returns the
emission state unchanged. -/
theorem deliverEv_false (s : FetchState) (i : Nat) (m : FetchMsg)
    (d : EvData) : deliverEv s i m d false = some (s, ⟨i, m, d, s⟩) := rfl

/-- If `fph_rest` accepts the transfer (reject flag false) and the
client aborts nothing, the state is returned unchanged. -/
theorem fph_rest_accept {s : FetchState} {i : Nat} {hdr : HdrInfo}
    {f0 : Fetch} {s1 : FetchState} {evs : List Ev}
    (hp : fph_rest s i hdr false f0 = some (s1, false, evs)) :
    s1 = s := by
  unfold fph_rest at hp
  split_ifs at hp
  · rw [deliverEv_false] at hp
    dsimp only at hp
    simp only [Option.some_inj, Prod.mk.injEq] at hp
    cases hp.2.1
  · rw [deliverEv_false] at hp
    dsimp only at hp
    simp only [Option.some_inj, Prod.mk.injEq] at hp
    cases hp.2.1
  · simp only [deliverEv_false] at hp
    cases hl : lookupF s.heap i with
    | none => rw [hl] at hp; cases hp
    | some g =>
      rw [hl] at hp
      simp only [Option.some_inj, Prod.mk.injEq] at hp
      exact hp.1.symm

/-- If status resolution accepts the transfer and the client aborts
nothing, the only state change is setting `had_headers`. -/
theorem process_headers_accept {s : FetchState} {i : Nat} {hdr : HdrInfo}
    {s1 : FetchState} {evs : List Ev}
    (hp : fetch_process_headers s i hdr false = some (s1, false, evs)) :
    s1 = modifyf s i (fun g => { g with had_headers := true }) := by
  unfold fetch_process_headers at hp
  cases hl : lookupF s.heap i with
  | none => rw [hl] at hp; cases hp
  | some f0 =>
    rw [hl] at hp
    dsimp only at hp
    cases hloc : f0.location with
    | none => rw [hloc] at hp; exact fph_rest_accept hp
    | some l =>
      rw [hloc] at hp
      dsimp only at hp
      split_ifs at hp
      · rw [deliverEv_false] at hp
        dsimp only at hp
        simp only [Option.some_inj, Prod.mk.injEq] at hp
        cases hp.2.1
      · exact fph_rest_accept hp

/-- Multi-handle contents after the promotion branch of the full abort:
the freed easy handle is re-registered (for the promoted successor). -/
theorem abort_full_multi_promo (s : FetchState) (i : Nat) (f : Fetch)
    (h nid : Nat) (hch : f.curl_handle = some h)
    (hqn : f.queue_next = some nid) :
    (fetch_abort_full s i f).multi =
      h :: s.multi.filter (fun x => x ≠ h) := by
  unfold fetch_abort_full
  rw [hch, hqn]
  simp only
  unfold fetch_promote
  rcases hfl : (fetch_unlink_active s f).fetch_list with _ | oldHead <;>
    simp [modifyf, hfl]

/-- The postponed-FINISHED step on a fetch with a registered handle and a
queued successor: the cleanup (with queue promotion) runs first, and the
single FINISHED event records the post-cleanup state, in which the dying
fetch is gone and the successor owns the re-registered handle. -/
theorem finishUp_promo {s s2 : FetchState} {i : Nat} {f : Fetch}
    {h b : Nat} {evs evs2 : List Ev}
    (hs : SInv s) (hf : lookupF s.heap i = some f)
    (hcb : f.in_callback = false) (hch : f.curl_handle = some h)
    (hqn : f.queue_next = some b)
    (hfin : finishUp s i evs false = some (s2, evs2)) :
    evs2 = evs ++ [⟨i, .FINISHED, .empty, s2⟩] ∧
    lookupF s2.heap i = none ∧
    (∃ g, lookupF s2.heap b = some g ∧ g.curl_handle = some h) ∧
    h ∈ s2.multi := by
  have hbi : b ≠ i := by
    intro hbi
    obtain ⟨g, hg, hgq⟩ := hs.2.2.2.2.2 i f b hf hqn
    rw [hbi] at hg
    have hfg := lookupF_det hf hg
    have hI1 : f.queue_prev = none :=
      (hs.2.2.2.2.1 i f hf).mpr (by rw [hch]; exact fun hc => Option.noConfusion hc)
    rw [← hfg, hI1] at hgq
    cases hgq
  unfold finishUp at hfin
  rw [fetch_abort_eq_full hf hcb] at hfin
  dsimp only at hfin
  rw [deliverEv_false] at hfin
  dsimp only at hfin
  simp only [Option.some_inj, Prod.mk.injEq] at hfin
  obtain ⟨hs2, hevs2⟩ := hfin
  subst hs2
  refine ⟨hevs2.symm, ?_, ?_, ?_⟩
  · have hq := qpOf_abort_full_promo (s := s) (i := i) hch hqn i
    rw [if_pos rfl] at hq
    exact Option.map_eq_none'.mp hq
  · obtain ⟨g0, hg0, hg0q⟩ := hs.2.2.2.2.2 i f b hf hqn
    have hq := qpOf_abort_full_promo (s := s) (i := i) hch hqn b
    have hq2 : qpOf (lookupF (fetch_abort_full s i f).heap b) =
        some (none, g0.queue_next, some h) := by
      rw [hq, if_neg hbi, hg0]
      simp [qpOf]
    obtain ⟨g, hgl, ht⟩ := qpOf_eq_some.mp hq2
    simp only [Prod.mk.injEq] at ht
    exact ⟨g, hgl, ht.2.2.symm⟩
  · rw [abort_full_multi_promo s i f h b hch hqn]
    exact List.mem_cons_self _ _

/-- Claim C3: when `fetch_poll` processes a completion whose resolved
outcome is FINISHED, for a fetch holding easy handle `h` with a queued
successor `b` (and with no callback of its own on the stack and no
re-entrant abort), the full cleanup — freeing the fetch, promoting `b`,
handing it the released handle `h` and re-registering `h` with the multi
handle — happens first, and only then is the single FINISHED event
delivered: that event's observation state is exactly the final state, in
which the fetch is already freed and the successor already transfers on
`h`. -/
theorem spec_c3_promotion_before_finished {s s2 : FetchState} {i : Nat}
    {f : Fetch} {h b : Nat} {res : CurlRes} {hdr : HdrInfo} {evs : List Ev}
    (hs : SInv s) (hf : lookupF s.heap i = some f)
    (hcb : f.in_callback = false) (hch : f.curl_handle = some h)
    (hqn : f.queue_next = some b)
    (hdone : processDone s i res hdr false = some (s2, evs))
    {ev : Ev} (hev : ev ∈ evs) (hmsg : ev.msg = .FINISHED) :
    ev.snap = s2 ∧ lookupF s2.heap i = none ∧
    (∃ g, lookupF s2.heap b = some g ∧ g.curl_handle = some h) ∧
    h ∈ s2.multi := by
  unfold processDone at hdone
  rw [hf] at hdone
  cases res with
  | writeError =>
    obtain ⟨s3, hs3, he⟩ := Option.map_eq_some'.mp hdone
    simp only [Prod.mk.injEq] at he
    rw [← he.2] at hev
    cases hev
  | other diag =>
    simp only at hdone
    rw [deliverEv_false] at hdone
    dsimp only at hdone
    obtain ⟨s3, hs3, he⟩ := Option.map_eq_some'.mp hdone
    simp only [Prod.mk.injEq] at he
    rw [← he.2] at hev
    rw [List.mem_singleton.mp hev] at hmsg
    cases hmsg
  | ok =>
    simp only at hdone
    split at hdone
    · cases hp : fetch_process_headers s i hdr false with
      | none => rw [hp] at hdone; cases hdone
      | some q =>
        obtain ⟨s1, rej, evs1⟩ := q
        rw [hp] at hdone
        obtain ⟨ev0, hevs1, -, hkind⟩ := process_headers_events hp
        have hnotfin : ∀ e ∈ evs1, e.msg ≠ FetchMsg.FINISHED := by
          intro e he
          rw [hevs1] at he
          rw [List.mem_singleton.mp he]
          rcases hkind with hk | hk | ⟨hk, -⟩ | hk <;> rw [hk] <;>
            exact fun hx => FetchMsg.noConfusion hx
        cases rej with
        | true =>
          dsimp only at hdone
          obtain ⟨s3, hs3, he⟩ := Option.map_eq_some'.mp hdone
          simp only [Prod.mk.injEq] at he
          rw [← he.2] at hev
          exact absurd hmsg (hnotfin ev hev)
        | false =>
          dsimp only at hdone
          have hstate := process_headers_accept hp
          have hs1 : SInv s1 := by
            rw [hstate]
            exact sinv_modifyf (fun x => ⟨rfl, rfl, rfl⟩) hs
          have hf1 : lookupF s1.heap i =
              some { f with had_headers := true } := by
            rw [hstate]
            simp [modifyf, lookupF_updateF, hf]
          obtain ⟨hevs, hnone, hsucc, hmulti⟩ :=
            finishUp_promo hs1 hf1 hcb hch hqn hdone
          refine ⟨?_, hnone, hsucc, hmulti⟩
          rw [hevs] at hev
          rcases List.mem_append.mp hev with hx | hx
          · exact absurd hmsg (hnotfin ev hx)
          · rw [List.mem_singleton.mp hx]
    · obtain ⟨hevs, hnone, hsucc, hmulti⟩ :=
        finishUp_promo hs hf hcb hch hqn hdone
      refine ⟨?_, hnone, hsucc, hmulti⟩
      rw [hevs] at hev
      rcases List.mem_append.mp hev with hx | hx
      · cases hx
      · rw [List.mem_singleton.mp hx]

/-- The C3 witness trace: `A` transferring on host `x` with headers
resolved, `B` queued behind it. -/
def c3ops : List Op :=
  [.start "http://x/a" none false, .start "http://x/b" none false,
   .data 0 "hi" ⟨200, none⟩ false]

/-- The state reached by the C3 witness trace. -/
def c3s : FetchState :=
  ((runOps initState c3ops).map Prod.fst).getD initState

theorem spec_c3_witness :
    ∃ q : FetchState × List Ev,
      processDone c3s 0 .ok ⟨200, none⟩ false = some q ∧
      ∃ ev, ev ∈ q.2 ∧ ev.msg = FetchMsg.FINISHED ∧
        (ev.snap = q.1 ∧ lookupF q.1.heap 0 = none ∧
          (∃ g, lookupF q.1.heap 1 = some g ∧ g.curl_handle = some 0) ∧
          0 ∈ q.1.multi) := by
  refine ⟨_, rfl, _, List.mem_singleton.mpr rfl, rfl, ?_⟩
  exact @spec_c3_promotion_before_finished c3s _ 0 _ 0 1 CurlRes.ok
    ⟨200, none⟩ _
    (@sinv_runOps initState c3s c3ops _ sinv_initState rfl) rfl rfl rfl rfl rfl
    _ (List.mem_singleton.mpr rfl) rfl

/-! ### Claim C7 infrastructure: flag projections and teardown frames -/

/-- Projection of a fetch onto its `in_callback` and `had_headers`
flags, which no teardown or link mutation ever touches. -/
def chOf (f : Fetch) : Bool × Bool := (f.in_callback, f.had_headers)

theorem map_lookupF_updateF {α : Type} (π : Fetch → α) {g : Fetch → Fetch}
    (hg : ∀ x, π (g x) = π x) (A : List (Nat × Fetch)) (p x : Nat) :
    (lookupF (updateF A p g) x).map π = (lookupF A x).map π := by
  rw [lookupF_updateF]
  by_cases hxp : x = p
  · subst hxp
    rw [if_pos rfl]
    cases lookupF A x with
    | none => rfl
    | some f => simp [hg f]
  · rw [if_neg hxp]

theorem chOf_modifyf {g : Fetch → Fetch} (hg : ∀ y, chOf (g y) = chOf y)
    (s : FetchState) (p x : Nat) :
    (lookupF (modifyf s p g).heap x).map chOf =
      (lookupF s.heap x).map chOf :=
  map_lookupF_updateF chOf hg s.heap p x

theorem chOf_unlink (s : FetchState) (f : Fetch) (x : Nat) :
    (lookupF (fetch_unlink_active s f).heap x).map chOf =
      (lookupF s.heap x).map chOf := by
  unfold fetch_unlink_active
  rcases f.prev with _ | p <;> rcases f.next with _ | n
  · rfl
  · exact chOf_modifyf (g := fun y => { y with prev := none })
      (fun y => rfl) _ n x
  · exact chOf_modifyf (g := fun y => { y with next := none })
      (fun y => rfl) s p x
  · exact (chOf_modifyf (g := fun y => { y with prev := some p })
      (fun y => rfl) _ n x).trans
      (chOf_modifyf (g := fun y => { y with next := some n })
        (fun y => rfl) s p x)

theorem chOf_splice (t : FetchState) (f : Fetch) (x : Nat) :
    (lookupF (fetch_splice_queue t f).heap x).map chOf =
      (lookupF t.heap x).map chOf := by
  unfold fetch_splice_queue
  rcases f.queue_prev with _ | qp <;> rcases f.queue_next with _ | qn
  · rfl
  · exact chOf_modifyf (g := fun y => { y with queue_prev := none })
      (fun y => rfl) t qn x
  · exact chOf_modifyf (g := fun y => { y with queue_next := none })
      (fun y => rfl) t qp x
  · exact (chOf_modifyf (g := fun y => { y with queue_prev := some qp })
      (fun y => rfl) _ qn x).trans
      (chOf_modifyf (g := fun y => { y with queue_next := some qn })
        (fun y => rfl) t qp x)

theorem chOf_promote (t : FetchState) (h nid : Nat) (x : Nat) :
    (lookupF (fetch_promote t h nid).heap x).map chOf =
      (lookupF t.heap x).map chOf := by
  unfold fetch_promote
  rcases hfl : t.fetch_list with _ | oldHead <;> simp only [hfl]
  · exact chOf_modifyf
      (g := fun y =>
        { y with prev := none, next := none, queue_prev := none,
                 curl_handle := some h })
      (fun y => rfl) t nid x
  · exact (chOf_modifyf (g := fun y => { y with prev := some nid })
      (fun y => rfl) _ oldHead x).trans
      (chOf_modifyf
        (g := fun y =>
          { y with prev := none, next := some oldHead, queue_prev := none,
                   curl_handle := some h })
        (fun y => rfl) t nid x)

/-- The teardown frees exactly the dying fetch and never touches the
`in_callback`/`had_headers` flags of any other fetch. -/
theorem chOf_abort_full (s : FetchState) (i : Nat) (f : Fetch) (x : Nat) :
    (lookupF (fetch_abort_full s i f).heap x).map chOf =
      if x = i then none else (lookupF s.heap x).map chOf := by
  unfold fetch_abort_full
  rcases f.curl_handle with _ | hm <;> rcases f.queue_next with _ | nid <;>
    simp only [lookupF_removeF] <;> by_cases hxi : x = i <;>
    (try (simp [hxi]; done)) <;> rw [if_neg hxi, if_neg hxi]
  · exact (chOf_splice _ f x).trans (chOf_unlink s f x)
  · exact (chOf_splice _ f x).trans (chOf_unlink s f x)
  · exact (chOf_splice _ f x).trans (chOf_unlink s f x)
  · exact (chOf_promote _ hm nid x).trans (chOf_unlink s f x)

/-- Dead-handle registry after a full teardown: the dying fetch's own
easy handle (if any) is dropped, nothing else changes. -/
theorem abort_full_dead (s : FetchState) (i : Nat) (f : Fetch) :
    (fetch_abort_full s i f).dead =
      match f.curl_handle with
      | none => s.dead
      | some hm => s.dead.filter (fun x => x ≠ hm) := by
  unfold fetch_abort_full fetch_promote fetch_splice_queue
  rcases f.curl_handle with _ | hm <;> rcases f.queue_next with _ | nid <;>
    rcases f.queue_prev with _ | qp <;>
    rcases hfl : (fetch_unlink_active s f).fetch_list with _ | oldHead <;>
    simp [modifyf, hfl]

theorem abort_full_lookup_self (s : FetchState) (i : Nat) (f : Fetch) :
    lookupF (fetch_abort_full s i f).heap i = none := by
  have hc := chOf_abort_full s i f i
  rw [if_pos rfl] at hc
  exact Option.map_eq_none'.mp hc

/-! ### Claim C7 infrastructure: callback-window characterisations -/

/-- `t` differs from `s` at most in the record of fetch `i`. -/
def UpdOnly (i : Nat) (s t : FetchState) : Prop :=
  t.fetch_list = s.fetch_list ∧ t.fetch_active = s.fetch_active ∧
  t.next_id = s.next_id ∧ t.next_handle = s.next_handle ∧
  t.multi = s.multi ∧ t.dead = s.dead ∧
  ∀ x, x ≠ i → lookupF t.heap x = lookupF s.heap x

theorem updOnly_refl (i : Nat) (s : FetchState) : UpdOnly i s s :=
  ⟨rfl, rfl, rfl, rfl, rfl, rfl, fun _ _ => rfl⟩

theorem updOnly_trans {i : Nat} {s t u : FetchState} (h1 : UpdOnly i s t)
    (h2 : UpdOnly i t u) : UpdOnly i s u :=
  ⟨h2.1.trans h1.1, h2.2.1.trans h1.2.1, h2.2.2.1.trans h1.2.2.1,
   h2.2.2.2.1.trans h1.2.2.2.1, h2.2.2.2.2.1.trans h1.2.2.2.2.1,
   h2.2.2.2.2.2.1.trans h1.2.2.2.2.2.1,
   fun x hx => (h2.2.2.2.2.2.2 x hx).trans (h1.2.2.2.2.2.2 x hx)⟩

theorem updOnly_modifyf (i : Nat) (s : FetchState) (g : Fetch → Fetch) :
    UpdOnly i s (modifyf s i g) := by
  refine ⟨rfl, rfl, rfl, rfl, rfl, rfl, fun x hx => ?_⟩
  show lookupF (updateF s.heap i g) x = _
  rw [lookupF_updateF, if_neg hx]

theorem lookupF_modifyf_self {s : FetchState} {i : Nat} {f : Fetch}
    (g : Fetch → Fetch) (hf : lookupF s.heap i = some f) :
    lookupF (modifyf s i g).heap i = some (g f) := by
  show lookupF (updateF s.heap i g) i = _
  rw [lookupF_updateF, if_pos rfl, hf]
  rfl

/-- Delivering an event to a fetch whose callback is on the stack can at
most record an abort request: every field except `aborting` survives and
nothing outside the fetch changes. -/
theorem deliverEv_incb {t t2 : FetchState} {i : Nat} {m : FetchMsg}
    {d : EvData} {ab : Bool} {ev : Ev} {ft : Fetch}
    (hft : lookupF t.heap i = some ft) (hcb : ft.in_callback = true)
    (hd : deliverEv t i m d ab = some (t2, ev)) :
    UpdOnly i t t2 ∧ ∃ f2, lookupF t2.heap i = some f2 ∧
      f2.in_callback = ft.in_callback ∧ f2.had_headers = ft.had_headers ∧
      f2.curl_handle = ft.curl_handle := by
  unfold deliverEv at hd
  cases ab with
  | false =>
    simp only [Bool.false_eq_true, if_false, Option.some_inj,
      Prod.mk.injEq] at hd
    rw [← hd.1]
    exact ⟨updOnly_refl i t, ft, hft, rfl, rfl, rfl⟩
  | true =>
    simp only [if_true] at hd
    obtain ⟨s3, hs3, he⟩ := Option.map_eq_some'.mp hd
    simp only [Prod.mk.injEq] at he
    rw [← he.1]
    rw [fetch_abort_eq_cb hft hcb] at hs3
    have hs3' := Option.some.inj hs3
    rw [← hs3']
    refine ⟨updOnly_modifyf i t _, { ft with aborting := true }, ?_,
      rfl, rfl, rfl⟩
    exact lookupF_modifyf_self _ hft

/-- Delivering an event to a fetch with no callback on the stack either
leaves the state untouched (no re-entrant abort) or frees the fetch. -/
theorem deliverEv_nocb {t t2 : FetchState} {i : Nat} {m : FetchMsg}
    {d : EvData} {ab : Bool} {ev : Ev} {ft : Fetch}
    (hft : lookupF t.heap i = some ft) (hcb : ft.in_callback = false)
    (hd : deliverEv t i m d ab = some (t2, ev)) :
    t2 = t ∨ lookupF t2.heap i = none := by
  unfold deliverEv at hd
  cases ab with
  | false =>
    simp only [Bool.false_eq_true, if_false, Option.some_inj,
      Prod.mk.injEq] at hd
    exact Or.inl hd.1.symm
  | true =>
    simp only [if_true] at hd
    obtain ⟨s3, hs3, he⟩ := Option.map_eq_some'.mp hd
    simp only [Prod.mk.injEq] at he
    rw [← he.1]
    rw [fetch_abort_eq_full hft hcb] at hs3
    have hs3' := Option.some.inj hs3
    rw [← hs3']
    exact Or.inr (abort_full_lookup_self t i ft)

theorem fph_rest_incb {s s1 : FetchState} {i : Nat} {hdr : HdrInfo}
    {ab : Bool} {f0 : Fetch} {rej : Bool} {evs : List Ev} {fI : Fetch}
    (hfI : lookupF s.heap i = some fI) (hcb : fI.in_callback = true)
    (hp : fph_rest s i hdr ab f0 = some (s1, rej, evs)) :
    UpdOnly i s s1 ∧ ∃ f1, lookupF s1.heap i = some f1 ∧
      f1.in_callback = true ∧ f1.had_headers = fI.had_headers ∧
      f1.curl_handle = fI.curl_handle := by
  unfold fph_rest at hp
  split_ifs at hp
  · cases hd : deliverEv s i .AUTH (.realm f0.realm) ab with
    | none => rw [hd] at hp; cases hp
    | some p =>
      obtain ⟨s2, ev⟩ := p
      rw [hd] at hp
      simp only [Option.some_inj, Prod.mk.injEq] at hp
      obtain ⟨hU, f2, hf2, hc2, hh2, hch2⟩ := deliverEv_incb hfI hcb hd
      rw [← hp.1]
      exact ⟨hU, f2, hf2, hc2.trans hcb, hh2, hch2⟩
  · cases hd : deliverEv s i .ERROR (.message "Not2xx") ab with
    | none => rw [hd] at hp; cases hp
    | some p =>
      obtain ⟨s2, ev⟩ := p
      rw [hd] at hp
      simp only [Option.some_inj, Prod.mk.injEq] at hp
      obtain ⟨hU, f2, hf2, hc2, hh2, hch2⟩ := deliverEv_incb hfI hcb hd
      rw [← hp.1]
      exact ⟨hU, f2, hf2, hc2.trans hcb, hh2, hch2⟩
  · dsimp only at hp
    cases hd : deliverEv s i .TYPE
        (.mime (resolveMime f0.url hdr.content_type) f0.content_length) ab with
    | none => rw [hd] at hp; cases hp
    | some p =>
      obtain ⟨s2, ev⟩ := p
      rw [hd] at hp
      dsimp only at hp
      obtain ⟨hU, f2, hf2, hc2, hh2, hch2⟩ := deliverEv_incb hfI hcb hd
      rw [hf2] at hp
      simp only [Option.some_inj, Prod.mk.injEq] at hp
      rw [← hp.1]
      exact ⟨hU, f2, hf2, hc2.trans hcb, hh2, hch2⟩

theorem fph_rest_nocb {s s1 : FetchState} {i : Nat} {hdr : HdrInfo}
    {ab : Bool} {f0 : Fetch} {rej : Bool} {evs : List Ev} {fI : Fetch}
    (hfI : lookupF s.heap i = some fI) (hcb : fI.in_callback = false)
    (hp : fph_rest s i hdr ab f0 = some (s1, rej, evs)) :
    (lookupF s1.heap i = none ∧ rej = true) ∨ s1 = s := by
  unfold fph_rest at hp
  split_ifs at hp
  · cases hd : deliverEv s i .AUTH (.realm f0.realm) ab with
    | none => rw [hd] at hp; cases hp
    | some p =>
      obtain ⟨s2, ev⟩ := p
      rw [hd] at hp
      simp only [Option.some_inj, Prod.mk.injEq] at hp
      rcases deliverEv_nocb hfI hcb hd with hx | hx
      · exact Or.inr (hp.1.symm.trans hx)
      · exact Or.inl ⟨hp.1 ▸ hx, hp.2.1.symm⟩
  · cases hd : deliverEv s i .ERROR (.message "Not2xx") ab with
    | none => rw [hd] at hp; cases hp
    | some p =>
      obtain ⟨s2, ev⟩ := p
      rw [hd] at hp
      simp only [Option.some_inj, Prod.mk.injEq] at hp
      rcases deliverEv_nocb hfI hcb hd with hx | hx
      · exact Or.inr (hp.1.symm.trans hx)
      · exact Or.inl ⟨hp.1 ▸ hx, hp.2.1.symm⟩
  · dsimp only at hp
    cases hd : deliverEv s i .TYPE
        (.mime (resolveMime f0.url hdr.content_type) f0.content_length) ab with
    | none => rw [hd] at hp; cases hp
    | some p =>
      obtain ⟨s2, ev⟩ := p
      rw [hd] at hp
      dsimp only at hp
      rcases deliverEv_nocb hfI hcb hd with hx | hx
      · subst hx
        rw [hfI] at hp
        simp only [Option.some_inj, Prod.mk.injEq] at hp
        exact Or.inr hp.1.symm
      · rw [hx] at hp
        cases hp

theorem process_headers_incb {s s1 : FetchState} {i : Nat} {hdr : HdrInfo}
    {ab : Bool} {rej : Bool} {evs : List Ev} {fI : Fetch}
    (hfI : lookupF s.heap i = some fI) (hcb : fI.in_callback = true)
    (hp : fetch_process_headers s i hdr ab = some (s1, rej, evs)) :
    UpdOnly i s s1 ∧ ∃ f1, lookupF s1.heap i = some f1 ∧
      f1.in_callback = true ∧ f1.had_headers = true ∧
      f1.curl_handle = fI.curl_handle := by
  unfold fetch_process_headers at hp
  rw [hfI] at hp
  dsimp only at hp
  have hU0 : UpdOnly i s
      (modifyf s i (fun g => { g with had_headers := true })) :=
    updOnly_modifyf i s _
  have hfA : lookupF
      (modifyf s i (fun g => { g with had_headers := true })).heap i =
      some { fI with had_headers := true } :=
    lookupF_modifyf_self _ hfI
  cases hlo : fI.location with
  | none =>
    rw [hlo] at hp
    obtain ⟨hU, f1, hf1, hc1, hh1, hch1⟩ := fph_rest_incb hfA hcb hp
    exact ⟨updOnly_trans hU0 hU, f1, hf1, hc1, hh1, hch1⟩
  | some l =>
    rw [hlo] at hp
    dsimp only at hp
    split_ifs at hp
    · have hfB : lookupF
          (modifyf
            (modifyf s i (fun g => { g with had_headers := true })) i
            (fun g => { g with location := some (curl_unescape l) })).heap i =
          some { fI with had_headers := true,
                         location := some (curl_unescape l) } :=
        lookupF_modifyf_self _ hfA
      cases hd : deliverEv
          (modifyf
            (modifyf s i (fun g => { g with had_headers := true })) i
            (fun g => { g with location := some (curl_unescape l) })) i
          .REDIRECT (.loc (curl_unescape l)) ab with
      | none => rw [hd] at hp; cases hp
      | some p =>
        obtain ⟨s3, ev⟩ := p
        rw [hd] at hp
        simp only [Option.some_inj, Prod.mk.injEq] at hp
        obtain ⟨hU, f2, hf2, hc2, hh2, hch2⟩ := deliverEv_incb hfB hcb hd
        rw [← hp.1]
        exact ⟨updOnly_trans hU0 (updOnly_trans (updOnly_modifyf i _ _) hU),
          f2, hf2, hc2.trans hcb, hh2, hch2⟩
    · obtain ⟨hU, f1, hf1, hc1, hh1, hch1⟩ := fph_rest_incb hfA hcb hp
      exact ⟨updOnly_trans hU0 hU, f1, hf1, hc1, hh1, hch1⟩

theorem process_headers_nocb {s s1 : FetchState} {i : Nat} {hdr : HdrInfo}
    {ab : Bool} {rej : Bool} {evs : List Ev} {fI : Fetch}
    (hfI : lookupF s.heap i = some fI) (hcb : fI.in_callback = false)
    (hp : fetch_process_headers s i hdr ab = some (s1, rej, evs)) :
    (lookupF s1.heap i = none ∧ rej = true) ∨
    (UpdOnly i s s1 ∧ ∃ f1, lookupF s1.heap i = some f1 ∧
      f1.in_callback = false ∧ f1.had_headers = true ∧
      f1.curl_handle = fI.curl_handle) := by
  unfold fetch_process_headers at hp
  rw [hfI] at hp
  dsimp only at hp
  have hU0 : UpdOnly i s
      (modifyf s i (fun g => { g with had_headers := true })) :=
    updOnly_modifyf i s _
  have hfA : lookupF
      (modifyf s i (fun g => { g with had_headers := true })).heap i =
      some { fI with had_headers := true } :=
    lookupF_modifyf_self _ hfI
  cases hlo : fI.location with
  | none =>
    rw [hlo] at hp
    rcases fph_rest_nocb hfA hcb hp with hx | hx
    · exact Or.inl hx
    · subst hx
      exact Or.inr ⟨hU0, { fI with had_headers := true }, hfA, hcb, rfl, rfl⟩
  | some l =>
    rw [hlo] at hp
    dsimp only at hp
    split_ifs at hp
    · have hfB : lookupF
          (modifyf
            (modifyf s i (fun g => { g with had_headers := true })) i
            (fun g => { g with location := some (curl_unescape l) })).heap i =
          some { fI with had_headers := true,
                         location := some (curl_unescape l) } :=
        lookupF_modifyf_self _ hfA
      cases hd : deliverEv
          (modifyf
            (modifyf s i (fun g => { g with had_headers := true })) i
            (fun g => { g with location := some (curl_unescape l) })) i
          .REDIRECT (.loc (curl_unescape l)) ab with
      | none => rw [hd] at hp; cases hp
      | some p =>
        obtain ⟨s3, ev⟩ := p
        rw [hd] at hp
        simp only [Option.some_inj, Prod.mk.injEq] at hp
        rcases deliverEv_nocb hfB hcb hd with hx | hx
        · refine Or.inr ⟨?_,
            { fI with had_headers := true,
                      location := some (curl_unescape l) },
            ?_, hcb, rfl, rfl⟩
          · rw [← hp.1, hx]
            exact updOnly_trans hU0 (updOnly_modifyf i _ _)
          · rw [← hp.1, hx]
            exact hfB
        · exact Or.inl ⟨hp.1 ▸ hx, hp.2.1.symm⟩
    · rcases fph_rest_nocb hfA hcb hp with hx | hx
      · exact Or.inl hx
      · subst hx
        exact Or.inr ⟨hU0, { fI with had_headers := true }, hfA, hcb, rfl, rfl⟩

theorem fph_rest_accept_kind {s s1 : FetchState} {i : Nat} {hdr : HdrInfo}
    {ab : Bool} {f0 : Fetch} {evs : List Ev}
    (hp : fph_rest s i hdr ab f0 = some (s1, false, evs)) :
    ∀ ev ∈ evs, ev.msg = .TYPE := by
  unfold fph_rest at hp
  split_ifs at hp
  · cases hd : deliverEv s i .AUTH (.realm f0.realm) ab with
    | none => rw [hd] at hp; cases hp
    | some p =>
      obtain ⟨s2, ev⟩ := p
      rw [hd] at hp
      simp only [Option.some_inj, Prod.mk.injEq] at hp
      cases hp.2.1
  · cases hd : deliverEv s i .ERROR (.message "Not2xx") ab with
    | none => rw [hd] at hp; cases hp
    | some p =>
      obtain ⟨s2, ev⟩ := p
      rw [hd] at hp
      simp only [Option.some_inj, Prod.mk.injEq] at hp
      cases hp.2.1
  · dsimp only at hp
    cases hd : deliverEv s i .TYPE
        (.mime (resolveMime f0.url hdr.content_type) f0.content_length) ab with
    | none => rw [hd] at hp; cases hp
    | some p =>
      obtain ⟨s2, ev⟩ := p
      rw [hd] at hp
      dsimp only at hp
      cases hl : lookupF s2.heap i with
      | none => rw [hl] at hp; cases hp
      | some g =>
        rw [hl] at hp
        simp only [Option.some_inj, Prod.mk.injEq] at hp
        intro e he
        rw [← hp.2.2] at he
        rw [List.mem_singleton.mp he, deliverEv_ev hd]

/-- Only the TYPE branch of status resolution can accept the transfer,
so an accepting run emits TYPE events only. -/
theorem process_headers_accept_kind {s s1 : FetchState} {i : Nat}
    {hdr : HdrInfo} {ab : Bool} {evs : List Ev}
    (hp : fetch_process_headers s i hdr ab = some (s1, false, evs)) :
    ∀ ev ∈ evs, ev.msg = .TYPE := by
  unfold fetch_process_headers at hp
  cases hl : lookupF s.heap i with
  | none => rw [hl] at hp; cases hp
  | some f0 =>
    rw [hl] at hp
    dsimp only at hp
    cases hlo : f0.location with
    | none => rw [hlo] at hp; exact fph_rest_accept_kind hp
    | some l =>
      rw [hlo] at hp
      dsimp only at hp
      split_ifs at hp
      · cases hd : deliverEv
            (modifyf
              (modifyf s i (fun g => { g with had_headers := true })) i
              (fun g => { g with location := some (curl_unescape l) })) i
            .REDIRECT (.loc (curl_unescape l)) ab with
        | none => rw [hd] at hp; cases hp
        | some p =>
          obtain ⟨s3, ev⟩ := p
          rw [hd] at hp
          simp only [Option.some_inj, Prod.mk.injEq] at hp
          cases hp.2.1
      · exact fph_rest_accept_kind hp

/-- Frame of the full teardown of fetch `i` on any other fetch `x`: its
flags survive unchanged and, if it owned a registered handle already on
the dead list, both the ownership and the dead marking survive. -/
theorem abort_full_frame_x {s : FetchState} {i : Nat} {f : Fetch}
    (hs : SInv s) (hf : lookupF s.heap i = some f) (x : Nat) (hxi : x ≠ i) :
    (lookupF (fetch_abort_full s i f).heap x).map chOf =
      (lookupF s.heap x).map chOf ∧
    (∀ hx g, lookupF s.heap x = some g → g.curl_handle = some hx →
      hx ∈ s.dead →
      ∃ g2, lookupF (fetch_abort_full s i f).heap x = some g2 ∧
        g2.curl_handle = some hx ∧ hx ∈ (fetch_abort_full s i f).dead) := by
  constructor
  · rw [chOf_abort_full, if_neg hxi]
  · intro hx g hg hgch hdead
    by_cases hpromo : ∃ hm nid, f.curl_handle = some hm ∧ f.queue_next = some nid
    · obtain ⟨hm, nid, hch, hqn⟩ := hpromo
      have hxnid : x ≠ nid := by
        intro hxe
        subst hxe
        obtain ⟨gn, hgn, hgnq⟩ := hs.2.2.2.2.2 i f x hf hqn
        have hgg := lookupF_det hg hgn
        have hqp : g.queue_prev = none :=
          (hs.2.2.2.2.1 x g hg).mpr
            (by rw [hgch]; exact fun hc => Option.noConfusion hc)
        rw [← hgg, hqp] at hgnq
        cases hgnq
      have hq := qpOf_abort_full_promo (s := s) (i := i) hch hqn x
      rw [if_neg hxi, hg] at hq
      simp only [qpOf, Option.map_some'] at hq
      rw [if_neg hxnid] at hq
      obtain ⟨g2, hg2, ht⟩ := qpOf_eq_some.mp hq
      have h22 := congrArg (fun t : Option Nat × Option Nat × Option Nat =>
        t.2.2) ht
      dsimp only at h22
      refine ⟨g2, hg2, by rw [← h22, hgch], ?_⟩
      have hxm : hx ≠ hm := by
        intro he
        subst he
        exact hxi (hs.2.2.2.1 x g i f hx hg hf hgch hch)
      rw [abort_full_dead, hch]
      simp [List.mem_filter, hdead, hxm]
    · have hn : f.curl_handle = none ∨ f.queue_next = none := by
        rcases hc1 : f.curl_handle with _ | hm
        · exact Or.inl rfl
        · rcases hq1 : f.queue_next with _ | nid
          · exact Or.inr rfl
          · exact absurd ⟨hm, nid, hc1, hq1⟩ hpromo
      have hq := qpOf_abort_full_splice (s := s) (i := i) (f := f) hn x
      rw [if_neg hxi, hg] at hq
      simp only [qpOf, Option.map_some'] at hq
      obtain ⟨g2, hg2, ht⟩ := qpOf_eq_some.mp hq
      have h22 := congrArg (fun t : Option Nat × Option Nat × Option Nat =>
        t.2.2) ht
      dsimp only at h22
      refine ⟨g2, hg2, by rw [← h22, hgch], ?_⟩
      rw [abort_full_dead]
      rcases hc1 : f.curl_handle with _ | hm
      · exact hdead
      · have hxm : hx ≠ hm := by
          intro he
          refine hxi (hs.2.2.2.1 x g i f hx hg hf hgch ?_)
          rw [hc1, he]
        simp [List.mem_filter, hdead, hxm]

/-- Full characterisation of the write callback for the C7 argument:
only fetch `i` is touched, it survives with `had_headers` set and its
handle intact, every event is addressed to it, and a REDIRECT delivery
is the single event of a zero-consumed (transfer-killing) call on a
fetch whose headers were unresolved. -/
theorem curl_data_char {s s2 : FetchState} {i : Nat} {chunk : String}
    {hdr : HdrInfo} {ab killed : Bool} {evsOp : List Ev} {f0 : Fetch}
    (hf0 : lookupF s.heap i = some f0)
    (hd : fetch_curl_data s i chunk hdr ab = some (s2, killed, evsOp)) :
    UpdOnly i s s2 ∧
    (∃ f1, lookupF s2.heap i = some f1 ∧ f1.had_headers = true ∧
      f1.in_callback = false ∧ f1.curl_handle = f0.curl_handle) ∧
    (∀ ev ∈ evsOp, ev.fid = i) ∧
    ((∃ ev ∈ evsOp, ev.msg = .REDIRECT) →
      (∃ rev, evsOp = [rev] ∧ rev.msg = .REDIRECT) ∧ killed = true ∧
        f0.had_headers = false) := by
  unfold fetch_curl_data at hd
  rw [hf0] at hd
  simp only at hd
  have hU0 : UpdOnly i s
      (modifyf s i (fun g => { g with in_callback := true })) :=
    updOnly_modifyf i s _
  have hfA : lookupF
      (modifyf s i (fun g => { g with in_callback := true })).heap i =
      some { f0 with in_callback := true } :=
    lookupF_modifyf_self _ hf0
  have hdata : ∀ (t : FetchState) (evs0 : List Ev) (fB : Fetch),
      UpdOnly i s t →
      lookupF t.heap i = some fB →
      fB.in_callback = true →
      fB.curl_handle = f0.curl_handle →
      (∀ ev ∈ evs0, ev.fid = i ∧ ev.msg ≠ FetchMsg.REDIRECT) →
      dataDeliver t i chunk ab evs0 = some (s2, killed, evsOp) →
      UpdOnly i s s2 ∧
      (∃ f1, lookupF s2.heap i = some f1 ∧
        f1.had_headers = fB.had_headers ∧
        f1.in_callback = false ∧ f1.curl_handle = f0.curl_handle) ∧
      (∀ ev ∈ evsOp, ev.fid = i) ∧
      ¬(∃ ev ∈ evsOp, ev.msg = FetchMsg.REDIRECT) := by
    intro t evs0 fB hUt hfB hcbB hchB hevs0 hdd
    unfold dataDeliver at hdd
    cases hdel : deliverEv t i .DATA (.chunk chunk) ab with
    | none => rw [hdel] at hdd; cases hdd
    | some p =>
      obtain ⟨sC, dev⟩ := p
      rw [hdel] at hdd
      dsimp only at hdd
      obtain ⟨hUC, fC, hfC, hcC, hhC, hchC⟩ := deliverEv_incb hfB hcbB hdel
      rw [hfC] at hdd
      simp only [Option.some_inj, Prod.mk.injEq] at hdd
      obtain ⟨hds, hdk, hde⟩ := hdd
      refine ⟨?_, ?_, ?_, ?_⟩
      · rw [← hds]
        exact updOnly_trans hUt (updOnly_trans hUC (updOnly_modifyf i _ _))
      · rw [← hds]
        exact ⟨{ fC with in_callback := false },
          lookupF_modifyf_self _ hfC, hhC, rfl, hchC.trans hchB⟩
      · intro ev hev
        rw [← hde] at hev
        rcases List.mem_append.mp hev with hx | hx
        · exact (hevs0 ev hx).1
        · rw [List.mem_singleton.mp hx, deliverEv_ev hdel]
      · rintro ⟨ev, hev, hmsg⟩
        rw [← hde] at hev
        rcases List.mem_append.mp hev with hx | hx
        · exact (hevs0 ev hx).2 hmsg
        · rw [List.mem_singleton.mp hx] at hmsg
          simp [deliverEv_ev hdel] at hmsg
  split at hd
  · rename_i hhad
    cases hp : fetch_process_headers
        (modifyf s i (fun g => { g with in_callback := true })) i hdr ab with
    | none => rw [hp] at hd; cases hd
    | some q =>
      obtain ⟨sB, rej, evs1⟩ := q
      rw [hp] at hd
      obtain ⟨hUB, fB, hfB, hcB, hhB, hchB⟩ := process_headers_incb hfA rfl hp
      obtain ⟨ev0, hevs1, hfid0, hkind0⟩ := process_headers_events hp
      cases rej with
      | true =>
        dsimp only at hd
        rw [hfB] at hd
        simp only [Option.some_inj, Prod.mk.injEq] at hd
        obtain ⟨hds, hdk, hde⟩ := hd
        refine ⟨?_, ?_, ?_, ?_⟩
        · rw [← hds]
          exact updOnly_trans hU0 (updOnly_trans hUB (updOnly_modifyf i _ _))
        · rw [← hds]
          exact ⟨{ fB with in_callback := false },
            lookupF_modifyf_self _ hfB, hhB, rfl, hchB⟩
        · intro ev hev
          rw [← hde, hevs1] at hev
          rw [List.mem_singleton.mp hev]
          exact hfid0
        · intro hredir
          refine ⟨⟨ev0, ?_, ?_⟩, hdk.symm, hhad⟩
          · rw [← hde, hevs1]
          · obtain ⟨ev, hev, hmsg⟩ := hredir
            rw [← hde, hevs1] at hev
            rw [← List.mem_singleton.mp hev]
            exact hmsg
      | false =>
        dsimp only at hd
        have hkinds := process_headers_accept_kind hp
        have hres := hdata sB evs1 fB (updOnly_trans hU0 hUB) hfB hcB hchB
          (fun ev hev =>
            ⟨by rw [hevs1] at hev
                rw [List.mem_singleton.mp hev]
                exact hfid0,
             by intro hmsg
                rw [hkinds ev hev] at hmsg
                cases hmsg⟩)
          hd
        obtain ⟨hA, ⟨f1, hf1, hh1, hc1, hch1⟩, hB, hC⟩ := hres
        exact ⟨hA, ⟨f1, hf1, hh1.trans hhB, hc1, hch1⟩, hB,
          fun hr => absurd hr hC⟩
  · rename_i hhad
    have hhadT : f0.had_headers = true := by
      cases hht : f0.had_headers
      · exact absurd hht hhad
      · rfl
    have hres := hdata
      (modifyf s i (fun g => { g with in_callback := true })) []
      { f0 with in_callback := true } hU0 hfA rfl rfl
      (fun ev hev => absurd hev (List.not_mem_nil ev)) hd
    obtain ⟨hA, ⟨f1, hf1, hh1, hc1, hch1⟩, hB, hC⟩ := hres
    exact ⟨hA, ⟨f1, hf1, hh1.trans hhadT, hc1, hch1⟩, hB,
      fun hr => absurd hr hC⟩

/-- Full characterisation of completion processing for the C7 argument:
the fetch is always freed, all events are addressed to it, a REDIRECT is
the single event of a completion whose headers were unresolved, the
sentinel result yields no events, and other fetches keep their flags,
handles and dead markings. -/
theorem processDone_char {s s2 : FetchState} {i : Nat} {res : CurlRes}
    {hdr : HdrInfo} {ab : Bool} {evsOp : List Ev}
    (hs : SInv s)
    (hcb : ∀ f, lookupF s.heap i = some f → f.in_callback = false)
    (hd : processDone s i res hdr ab = some (s2, evsOp)) :
    lookupF s2.heap i = none ∧
    s2.next_id = s.next_id ∧
    (∀ ev ∈ evsOp, ev.fid = i) ∧
    ((∃ ev ∈ evsOp, ev.msg = .REDIRECT) →
      (∃ rev, evsOp = [rev] ∧ rev.msg = .REDIRECT) ∧
      (∀ g, lookupF s.heap i = some g → g.had_headers = false)) ∧
    (res = .writeError → evsOp = []) ∧
    (∀ x, x ≠ i →
      (lookupF s2.heap x).map chOf = (lookupF s.heap x).map chOf) ∧
    (∀ x hx g, x ≠ i → lookupF s.heap x = some g →
      g.curl_handle = some hx → hx ∈ s.dead →
      ∃ g2, lookupF s2.heap x = some g2 ∧ g2.curl_handle = some hx ∧
        hx ∈ s2.dead) := by
  unfold processDone at hd
  cases hlf : lookupF s.heap i with
  | none => rw [hlf] at hd; cases hd
  | some f0 =>
    rw [hlf] at hd
    have hcb0 := hcb f0 hlf
    cases res with
    | writeError =>
      simp only at hd
      rw [fetch_abort_eq_full hlf hcb0] at hd
      simp only [Option.map_some', Option.some_inj, Prod.mk.injEq] at hd
      obtain ⟨hds, hde⟩ := hd
      rw [← hds, ← hde]
      refine ⟨abort_full_lookup_self s i f0, (abort_full_scalars s i f0).1,
        ?_, ?_, ?_, ?_, ?_⟩
      · intro ev hev; cases hev
      · rintro ⟨ev, hev, -⟩; cases hev
      · intro; rfl
      · intro x hxi
        exact (abort_full_frame_x hs hlf x hxi).1
      · intro x hx2 g hxi hg hgch hdd
        exact (abort_full_frame_x hs hlf x hxi).2 hx2 g hg hgch hdd
    | other diag =>
      simp only at hd
      cases hde : deliverEv s i .ERROR (.errorBuffer diag) ab with
      | none => rw [hde] at hd; cases hd
      | some p =>
        obtain ⟨s1, ev⟩ := p
        rw [hde] at hd
        dsimp only at hd
        rcases deliverEv_nocb hlf hcb0 hde with hx | hx
        · rw [hx] at hd
          rw [fetch_abort_eq_full hlf hcb0] at hd
          simp only [Option.map_some', Option.some_inj, Prod.mk.injEq] at hd
          obtain ⟨hds, hdev⟩ := hd
          rw [← hds, ← hdev]
          refine ⟨abort_full_lookup_self s i f0, (abort_full_scalars s i f0).1,
            ?_, ?_, ?_, ?_, ?_⟩
          · intro e he
            rw [List.mem_singleton.mp he, deliverEv_ev hde]
          · rintro ⟨e, he, hmsg⟩
            rw [List.mem_singleton.mp he] at hmsg
            simp [deliverEv_ev hde] at hmsg
          · intro hwe; cases hwe
          · intro x hxi
            exact (abort_full_frame_x hs hlf x hxi).1
          · intro x hx2 g hxi hg hgch hdd
            exact (abort_full_frame_x hs hlf x hxi).2 hx2 g hg hgch hdd
        · rw [fetch_abort_eq_none hx] at hd
          cases hd
    | ok =>
      simp only at hd
      split at hd
      · rename_i hhad
        cases hp : fetch_process_headers s i hdr ab with
        | none => rw [hp] at hd; cases hd
        | some q =>
          obtain ⟨s1, rej, evs1⟩ := q
          rw [hp] at hd
          have hsinv1 : SInv s1 := sinv_process_headers hs hp
          obtain ⟨ev0, hevs1, hfid0, hkind0⟩ := process_headers_events hp
          rcases process_headers_nocb hlf hcb0 hp with ⟨hnone, hrejT⟩ |
            ⟨hU1, f1, hf1, hc1, hh1, hch1⟩
          · subst hrejT
            dsimp only at hd
            rw [fetch_abort_eq_none hnone] at hd
            cases hd
          · cases rej with
            | true =>
              dsimp only at hd
              rw [fetch_abort_eq_full hf1 hc1] at hd
              simp only [Option.map_some', Option.some_inj,
                Prod.mk.injEq] at hd
              obtain ⟨hds, hdev⟩ := hd
              rw [← hds, ← hdev]
              refine ⟨abort_full_lookup_self s1 i f1,
                (abort_full_scalars s1 i f1).1.trans hU1.2.2.1,
                ?_, ?_, ?_, ?_, ?_⟩
              · intro e he
                rw [hevs1] at he
                rw [List.mem_singleton.mp he]
                exact hfid0
              · intro hredir
                refine ⟨⟨ev0, hevs1, ?_⟩, ?_⟩
                · obtain ⟨e, he, hmsg⟩ := hredir
                  rw [hevs1] at he
                  rw [← List.mem_singleton.mp he]
                  exact hmsg
                · intro g hg
                  rw [← Option.some.inj hg]
                  exact hhad
              · intro hwe; cases hwe
              · intro x hxi
                exact ((abort_full_frame_x hsinv1 hf1 x hxi).1).trans
                  (by rw [hU1.2.2.2.2.2.2 x hxi])
              · intro x hx2 g hxi hg hgch hdd
                have hg2 : lookupF s1.heap x = some g := by
                  rw [hU1.2.2.2.2.2.2 x hxi]; exact hg
                have hdd2 : hx2 ∈ s1.dead := by
                  rw [hU1.2.2.2.2.2.1]; exact hdd
                obtain ⟨g2, hg3, hg4, hg5⟩ :=
                  (abort_full_frame_x hsinv1 hf1 x hxi).2 hx2 g hg2 hgch hdd2
                exact ⟨g2, hg3, hg4, hg5⟩
            | false =>
              dsimp only at hd
              unfold finishUp at hd
              rw [fetch_abort_eq_full hf1 hc1] at hd
              dsimp only at hd
              cases ab with
              | true =>
                have hnone2 : deliverEv (fetch_abort_full s1 i f1) i
                    .FINISHED .empty true = none := by
                  unfold deliverEv
                  simp only [if_true]
                  rw [fetch_abort_eq_none (abort_full_lookup_self s1 i f1)]
                  rfl
                rw [hnone2] at hd
                cases hd
              | false =>
                rw [deliverEv_false] at hd
                dsimp only at hd
                simp only [Option.some_inj, Prod.mk.injEq] at hd
                obtain ⟨hds, hdev⟩ := hd
                rw [← hds, ← hdev]
                have hTY := process_headers_accept_kind hp
                refine ⟨abort_full_lookup_self s1 i f1,
                  (abort_full_scalars s1 i f1).1.trans hU1.2.2.1,
                  ?_, ?_, ?_, ?_, ?_⟩
                · intro e he
                  rcases List.mem_append.mp he with hx | hx
                  · rw [hevs1] at hx
                    rw [List.mem_singleton.mp hx]
                    exact hfid0
                  · rw [List.mem_singleton.mp hx]
                · rintro ⟨e, he, hmsg⟩
                  rcases List.mem_append.mp he with hx | hx
                  · rw [hTY e hx] at hmsg; cases hmsg
                  · rw [List.mem_singleton.mp hx] at hmsg
                    simp at hmsg
                · intro hwe; cases hwe
                · intro x hxi
                  exact ((abort_full_frame_x hsinv1 hf1 x hxi).1).trans
                    (by rw [hU1.2.2.2.2.2.2 x hxi])
                · intro x hx2 g hxi hg hgch hdd
                  have hg2 : lookupF s1.heap x = some g := by
                    rw [hU1.2.2.2.2.2.2 x hxi]; exact hg
                  have hdd2 : hx2 ∈ s1.dead := by
                    rw [hU1.2.2.2.2.2.1]; exact hdd
                  exact (abort_full_frame_x hsinv1 hf1 x hxi).2
                    hx2 g hg2 hgch hdd2
      · unfold finishUp at hd
        rw [fetch_abort_eq_full hlf hcb0] at hd
        dsimp only at hd
        cases ab with
        | true =>
          have hnone2 : deliverEv (fetch_abort_full s i f0) i
              .FINISHED .empty true = none := by
            unfold deliverEv
            simp only [if_true]
            rw [fetch_abort_eq_none (abort_full_lookup_self s i f0)]
            rfl
          rw [hnone2] at hd
          cases hd
        | false =>
          rw [deliverEv_false] at hd
          dsimp only at hd
          simp only [Option.some_inj, Prod.mk.injEq] at hd
          obtain ⟨hds, hdev⟩ := hd
          rw [← hds, ← hdev]
          refine ⟨abort_full_lookup_self s i f0, (abort_full_scalars s i f0).1,
            ?_, ?_, ?_, ?_, ?_⟩
          · intro e he
            rw [List.mem_singleton.mp he]
          · rintro ⟨e, he, hmsg⟩
            rw [List.mem_singleton.mp he] at hmsg
            simp at hmsg
          · intro hwe; cases hwe
          · intro x hxi
            exact (abort_full_frame_x hs hlf x hxi).1
          · intro x hx2 g hxi hg hgch hdd
            exact (abort_full_frame_x hs hlf x hxi).2 hx2 g hg hgch hdd

/-! ### Claim C7: the redirect-exclusivity trace invariant -/

/-- Some REDIRECT event for fetch id `i` occurs in `evs`. -/
def HasRed (evs : List Ev) (i : Nat) : Prop :=
  ∃ ev ∈ evs, ev.fid = i ∧ ev.msg = FetchMsg.REDIRECT

/-- Some TYPE, DATA or FINISHED event for fetch id `i` occurs in `evs`. -/
def HasTDF (evs : List Ev) (i : Nat) : Prop :=
  ∃ ev ∈ evs, ev.fid = i ∧
    (ev.msg = FetchMsg.TYPE ∨ ev.msg = FetchMsg.DATA ∨
      ev.msg = FetchMsg.FINISHED)

def isRedirectFor (i : Nat) (ev : Ev) : Bool :=
  decide (ev.fid = i ∧ ev.msg = FetchMsg.REDIRECT)

/-- Number of REDIRECT events delivered to fetch id `i`. -/
def redCount (evs : List Ev) (i : Nat) : Nat :=
  (evs.filter (isRedirectFor i)).length

/-- State of a fetch id after its REDIRECT was delivered: the id is
spent, and the fetch is either freed or still allocated with resolved
headers and its transfer handle on the engine's aborted (dead) list. -/
def RedSt (s : FetchState) (i : Nat) : Prop :=
  i < s.next_id ∧
  (lookupF s.heap i = none ∨
    ∃ f, lookupF s.heap i = some f ∧ f.had_headers = true ∧
      ∃ h, f.curl_handle = some h ∧ h ∈ s.dead)

/-- State of a fetch id after any TYPE/DATA/FINISHED delivery: the id is
spent and the fetch, if still allocated, has resolved headers. -/
def HadSt (s : FetchState) (i : Nat) : Prop :=
  i < s.next_id ∧
  (lookupF s.heap i = none ∨
    ∃ f, lookupF s.heap i = some f ∧ f.had_headers = true)

/-- Between scheduler operations no callback is on the stack. -/
def CBFalse (s : FetchState) : Prop :=
  ∀ j f, lookupF s.heap j = some f → f.in_callback = false

/-- The C7 trace invariant. -/
def EvInv (s : FetchState) (evs : List Ev) : Prop :=
  CBFalse s ∧
  (∀ i, HasRed evs i → redCount evs i = 1 ∧ ¬ HasTDF evs i ∧ RedSt s i) ∧
  (∀ i, HasTDF evs i → HadSt s i)

theorem redCount_append (a b : List Ev) (i : Nat) :
    redCount (a ++ b) i = redCount a i + redCount b i := by
  simp [redCount, List.filter_append]

theorem redCount_zero {evs : List Ev} {i : Nat} (h : ¬ HasRed evs i) :
    redCount evs i = 0 := by
  rw [redCount, List.length_eq_zero, List.filter_eq_nil_iff]
  intro a ha hpa
  exact h ⟨a, ha, of_decide_eq_true hpa⟩

theorem redCount_single {i : Nat} {rev : Ev} (h1 : rev.fid = i)
    (h2 : rev.msg = FetchMsg.REDIRECT) : redCount [rev] i = 1 := by
  simp [redCount, List.filter, isRedirectFor, h1, h2]

/-- Projection of the fields that start/header/poll never change on an
existing fetch. -/
def rsOf (f : Fetch) : Bool × Bool × Option Nat :=
  (f.in_callback, f.had_headers, f.curl_handle)

theorem chOf_of_rsOf {o1 o2 : Option Fetch}
    (h : o1.map rsOf = o2.map rsOf) : o1.map chOf = o2.map chOf := by
  cases o1 with
  | none =>
    cases o2 with
    | none => rfl
    | some b => simp [rsOf] at h
  | some a =>
    cases o2 with
    | none => simp [rsOf] at h
    | some b =>
      simp only [rsOf, Option.map_some', Option.some_inj,
        Prod.mk.injEq] at h
      simp only [chOf, Option.map_some', Option.some_inj, Prod.mk.injEq]
      exact ⟨h.1, h.2.1⟩

theorem redst_of_frame {s t : FetchState} {i : Nat}
    (hni : s.next_id ≤ t.next_id)
    (hmap : (lookupF t.heap i).map rsOf = (lookupF s.heap i).map rsOf)
    (hdead : ∀ hv : Nat, hv ∈ s.dead → hv ∈ t.dead)
    (hr : RedSt s i) : RedSt t i := by
  obtain ⟨hn, hcase⟩ := hr
  refine ⟨lt_of_lt_of_le hn hni, ?_⟩
  rcases hcase with hx | ⟨f, hf, hhad, h, hch, hdd⟩
  · left
    rw [hx] at hmap
    exact Option.map_eq_none'.mp hmap
  · right
    rw [hf] at hmap
    cases hl2 : lookupF t.heap i with
    | none => rw [hl2] at hmap; cases hmap
    | some f2 =>
      rw [hl2] at hmap
      simp only [rsOf, Option.map_some', Option.some_inj,
        Prod.mk.injEq] at hmap
      exact ⟨f2, rfl, hmap.2.1.trans hhad, h, hmap.2.2.trans hch,
        hdead h hdd⟩

theorem hadst_of_frame {s t : FetchState} {i : Nat}
    (hni : s.next_id ≤ t.next_id)
    (hmap : (lookupF t.heap i).map rsOf = (lookupF s.heap i).map rsOf)
    (hr : HadSt s i) : HadSt t i := by
  obtain ⟨hn, hcase⟩ := hr
  refine ⟨lt_of_lt_of_le hn hni, ?_⟩
  rcases hcase with hx | ⟨f, hf, hhad⟩
  · left
    rw [hx] at hmap
    exact Option.map_eq_none'.mp hmap
  · right
    rw [hf] at hmap
    cases hl2 : lookupF t.heap i with
    | none => rw [hl2] at hmap; cases hmap
    | some f2 =>
      rw [hl2] at hmap
      simp only [rsOf, Option.map_some', Option.some_inj,
        Prod.mk.injEq] at hmap
      exact ⟨f2, rfl, hmap.2.1.trans hhad⟩

theorem cbfalse_of_frame {s t : FetchState}
    (hmap : ∀ j, (lookupF t.heap j).map chOf = none ∨
      (lookupF t.heap j).map chOf = (lookupF s.heap j).map chOf)
    (hc : CBFalse s) : CBFalse t := by
  intro j f hf
  rcases hmap j with hx | hx
  · rw [hf] at hx; cases hx
  · rw [hf] at hx
    cases hl2 : lookupF s.heap j with
    | none => rw [hl2] at hx; cases hx
    | some f0 =>
      rw [hl2] at hx
      simp only [chOf, Option.map_some', Option.some_inj,
        Prod.mk.injEq] at hx
      exact hx.1.trans (hc j f0 hl2)

theorem engineCanTouch_spec {s : FetchState} {i h : Nat}
    (he : engineCanTouch s i = some h) :
    ∃ f, lookupF s.heap i = some f ∧ f.curl_handle = some h := by
  unfold engineCanTouch at he
  cases hl : lookupF s.heap i with
  | none => rw [hl] at he; cases he
  | some f =>
    rw [hl] at he
    dsimp only at he
    cases hc : f.curl_handle with
    | none => rw [hc] at he; cases he
    | some hv =>
      rw [hc] at he
      dsimp only at he
      split at he
      · exact ⟨f, rfl, hc.trans (congrArg some (Option.some.inj he))⟩
      · cases he

/-! ### C7 frames for the client-driven and bookkeeping operations -/

theorem fetch_start_activate_frame (s : FetchState) (f : Fetch) (x : Nat)
    (hx : x ≠ s.next_id) :
    (lookupF (fetch_start_activate s f s.next_id).1.heap x).map rsOf =
      (lookupF s.heap x).map rsOf := by
  unfold fetch_start_activate
  dsimp only
  cases s.fetch_list with
  | none => rw [lookupF_cons, if_neg (fun hh => hx hh.symm)]
  | some oldHead =>
    dsimp only
    rw [lookupF_cons, if_neg (fun hh => hx hh.symm)]
    exact map_lookupF_updateF rsOf
      (g := fun y => { y with prev := some s.next_id })
      (fun y => rfl) s.heap oldHead x

theorem fetch_start_frame (s : FetchState) (url : String)
    (ref : Option String) (o2 : Bool) (x : Nat) (hx : x ≠ s.next_id) :
    (lookupF (fetch_start s url ref o2).1.heap x).map rsOf =
      (lookupF s.heap x).map rsOf := by
  unfold fetch_start
  dsimp only
  cases url_host url with
  | none => exact fetch_start_activate_frame s _ x hx
  | some hh =>
    dsimp only
    cases findHostFetch s.heap s.fetch_list hh (s.heap.length + 1) with
    | none => exact fetch_start_activate_frame s _ x hx
    | some hid =>
      dsimp only
      rw [lookupF_cons, if_neg (fun h2 => hx h2.symm)]
      exact map_lookupF_updateF rsOf
        (g := fun y => { y with queue_next := some s.next_id })
        (fun y => rfl) s.heap _ x

theorem fetch_start_next_id (s : FetchState) (url : String)
    (ref : Option String) (o2 : Bool) :
    (fetch_start s url ref o2).1.next_id = s.next_id + 1 := by
  unfold fetch_start
  dsimp only
  cases url_host url with
  | none => rfl
  | some hh =>
    dsimp only
    cases findHostFetch s.heap s.fetch_list hh (s.heap.length + 1) with
    | none => rfl
    | some hid => rfl

theorem fetch_start_dead (s : FetchState) (url : String)
    (ref : Option String) (o2 : Bool) :
    (fetch_start s url ref o2).1.dead = s.dead := by
  unfold fetch_start
  dsimp only
  cases url_host url with
  | none => rfl
  | some hh =>
    dsimp only
    cases findHostFetch s.heap s.fetch_list hh (s.heap.length + 1) with
    | none => rfl
    | some hid => rfl

theorem fetch_start_new {s : FetchState} {url : String}
    {ref : Option String} {o2 : Bool} {g : Fetch}
    (hg : lookupF (fetch_start s url ref o2).1.heap s.next_id = some g) :
    g.in_callback = false ∧ g.had_headers = false := by
  have hact : ∀ (f : Fetch), f.in_callback = false → f.had_headers = false →
      lookupF (fetch_start_activate s f s.next_id).1.heap s.next_id =
        some g →
      g.in_callback = false ∧ g.had_headers = false := by
    intro f hc hh hg2
    unfold fetch_start_activate at hg2
    dsimp only at hg2
    cases hfl : s.fetch_list with
    | none =>
      rw [hfl] at hg2
      dsimp only at hg2
      rw [lookupF_cons, if_pos rfl] at hg2
      rw [← Option.some.inj hg2]
      exact ⟨hc, hh⟩
    | some oldHead =>
      rw [hfl] at hg2
      dsimp only at hg2
      rw [lookupF_cons, if_pos rfl] at hg2
      rw [← Option.some.inj hg2]
      exact ⟨hc, hh⟩
  unfold fetch_start at hg
  dsimp only at hg
  cases hu : url_host url with
  | none =>
    rw [hu] at hg
    dsimp only at hg
    exact hact _ rfl rfl hg
  | some hh =>
    rw [hu] at hg
    dsimp only at hg
    cases hff : findHostFetch s.heap s.fetch_list hh (s.heap.length + 1) with
    | none =>
      rw [hff] at hg
      dsimp only at hg
      exact hact _ rfl rfl hg
    | some hid =>
      rw [hff] at hg
      dsimp only at hg
      rw [lookupF_cons, if_pos rfl] at hg
      rw [← Option.some.inj hg]
      exact ⟨rfl, rfl⟩

theorem parseHeaderLine_cb (f : Fetch) (line : String) :
    (parseHeaderLine f line).in_callback = f.in_callback := by
  unfold parseHeaderLine
  dsimp only
  split_ifs <;> try rfl
  all_goals split <;> try rfl
  all_goals split_ifs <;> rfl

theorem parseHeaderLine_ch (f : Fetch) (line : String) :
    (parseHeaderLine f line).curl_handle = f.curl_handle := by
  unfold parseHeaderLine
  dsimp only
  split_ifs <;> try rfl
  all_goals split <;> try rfl
  all_goals split_ifs <;> rfl

theorem parseHeaderLine_rs (line : String) (y : Fetch) :
    rsOf (parseHeaderLine y line) = rsOf y := by
  rw [rsOf, rsOf, parseHeaderLine_cb, parseHeaderLine_had,
    parseHeaderLine_ch]

theorem hadst_of_chframe {s t : FetchState} {i : Nat}
    (hni : s.next_id ≤ t.next_id)
    (hmap : (lookupF t.heap i).map chOf = (lookupF s.heap i).map chOf)
    (hr : HadSt s i) : HadSt t i := by
  obtain ⟨hn, hcase⟩ := hr
  refine ⟨lt_of_lt_of_le hn hni, ?_⟩
  rcases hcase with hx | ⟨f, hf, hhad⟩
  · left
    rw [hx] at hmap
    exact Option.map_eq_none'.mp hmap
  · right
    rw [hf] at hmap
    cases hl2 : lookupF t.heap i with
    | none => rw [hl2] at hmap; cases hmap
    | some f2 =>
      rw [hl2] at hmap
      simp only [chOf, Option.map_some', Option.some_inj,
        Prod.mk.injEq] at hmap
      exact ⟨f2, rfl, hmap.2.trans hhad⟩

/-- One scheduler operation preserves the C7 trace invariant. -/
theorem evinv_applyOp {s s2 : FetchState} {op : Op} {evs evsOp : List Ev}
    (hs : SInv s) (hinv : EvInv s evs)
    (h : applyOp s op = some (s2, evsOp)) : EvInv s2 (evs ++ evsOp) := by
  obtain ⟨hcbf, hred, htdf⟩ := hinv
  cases op with
  | pollCheck =>
    rw [applyOp_pollCheck] at h
    simp only [Option.some_inj, Prod.mk.injEq] at h
    obtain ⟨hst, hev⟩ := h
    rw [← hst, ← hev, List.append_nil]
    exact ⟨hcbf, hred, htdf⟩
  | start url ref o2 =>
    rw [applyOp_start] at h
    simp only [Option.some_inj, Prod.mk.injEq] at h
    obtain ⟨hst, hev⟩ := h
    rw [← hst, ← hev, List.append_nil]
    have hni : s.next_id ≤ (fetch_start s url ref o2).1.next_id := by
      rw [fetch_start_next_id]
      exact Nat.le_succ _
    have hfr : ∀ i, i < s.next_id →
        (lookupF (fetch_start s url ref o2).1.heap i).map rsOf =
          (lookupF s.heap i).map rsOf :=
      fun i hi => fetch_start_frame s url ref o2 i (Nat.ne_of_lt hi)
    refine ⟨?_, ?_, ?_⟩
    · intro j g hg
      by_cases hj : j = s.next_id
      · subst hj
        exact (fetch_start_new hg).1
      · have hm := fetch_start_frame s url ref o2 j hj
        rw [hg] at hm
        cases hl : lookupF s.heap j with
        | none => rw [hl] at hm; cases hm
        | some g0 =>
          rw [hl] at hm
          simp only [rsOf, Option.map_some', Option.some_inj,
            Prod.mk.injEq] at hm
          exact hm.1.trans (hcbf j g0 hl)
    · intro i hr
      obtain ⟨hc1, hc2, hc3⟩ := hred i hr
      refine ⟨hc1, hc2, ?_⟩
      refine redst_of_frame hni (hfr i hc3.1) ?_ hc3
      intro hv hdv
      rw [fetch_start_dead]
      exact hdv
    · intro i ht
      have hh := htdf i ht
      exact hadst_of_frame hni (hfr i hh.1) hh
  | abort j =>
    rw [applyOp_abort] at h
    obtain ⟨s3, hs3, he⟩ := Option.map_eq_some'.mp h
    simp only [Prod.mk.injEq] at he
    rw [← he.1, ← he.2, List.append_nil]
    cases hlf : lookupF s.heap j with
    | none => rw [fetch_abort_eq_none hlf] at hs3; cases hs3
    | some fj =>
      have hcbj := hcbf j fj hlf
      rw [fetch_abort_eq_full hlf hcbj] at hs3
      rw [← Option.some.inj hs3]
      have hnext : (fetch_abort_full s j fj).next_id = s.next_id :=
        (abort_full_scalars s j fj).1
      refine ⟨?_, ?_, ?_⟩
      · refine cbfalse_of_frame (fun x => ?_) hcbf
        rw [chOf_abort_full]
        by_cases hx : x = j
        · rw [if_pos hx]
          exact Or.inl rfl
        · rw [if_neg hx]
          exact Or.inr rfl
      · intro i hr
        obtain ⟨hc1, hc2, hc3⟩ := hred i hr
        obtain ⟨hn, hcase⟩ := hc3
        refine ⟨hc1, hc2, by rw [hnext]; exact hn, ?_⟩
        by_cases hij : i = j
        · subst hij
          left
          exact abort_full_lookup_self s i fj
        · rcases hcase with hx | ⟨f, hf, hhad, hv, hch, hdd⟩
          · left
            have hm := chOf_abort_full s j fj i
            rw [if_neg hij, hx] at hm
            exact Option.map_eq_none'.mp hm
          · right
            obtain ⟨g2, hg2, hg2c, hg2d⟩ :=
              (abort_full_frame_x hs hlf i hij).2 hv f hf hch hdd
            have hm := (abort_full_frame_x hs hlf i hij).1
            rw [hg2, hf] at hm
            simp only [chOf, Option.map_some', Option.some_inj,
              Prod.mk.injEq] at hm
            exact ⟨g2, hg2, hm.2.trans hhad, hv, hg2c, hg2d⟩
      · intro i ht
        obtain ⟨hn, hcase⟩ := htdf i ht
        refine ⟨by rw [hnext]; exact hn, ?_⟩
        by_cases hij : i = j
        · subst hij
          left
          exact abort_full_lookup_self s i fj
        · rcases hcase with hx | ⟨f, hf, hhad⟩
          · left
            have hm := chOf_abort_full s j fj i
            rw [if_neg hij, hx] at hm
            exact Option.map_eq_none'.mp hm
          · have hm := chOf_abort_full s j fj i
            rw [if_neg hij, hf] at hm
            cases hl2 : lookupF (fetch_abort_full s j fj).heap i with
            | none => rw [hl2] at hm; cases hm
            | some g2 =>
              rw [hl2] at hm
              simp only [chOf, Option.map_some', Option.some_inj,
                Prod.mk.injEq] at hm
              exact Or.inr ⟨g2, rfl, hm.2.trans hhad⟩
  | header j line =>
    rw [applyOp_header] at h
    cases he : engineCanTouch s j with
    | none =>
      rw [he] at h
      simp only [Option.some_inj, Prod.mk.injEq] at h
      obtain ⟨hst, hev⟩ := h
      rw [← hst, ← hev, List.append_nil]
      exact ⟨hcbf, hred, htdf⟩
    | some hv =>
      rw [he] at h
      dsimp only at h
      split at h
      · simp only [Option.some_inj, Prod.mk.injEq] at h
        obtain ⟨hst, hev⟩ := h
        rw [← hst, ← hev, List.append_nil]
        exact ⟨hcbf, hred, htdf⟩
      · simp only [Option.some_inj, Prod.mk.injEq] at h
        obtain ⟨hst, hev⟩ := h
        rw [← hst, ← hev, List.append_nil]
        have hfr : ∀ x,
            (lookupF (modifyf s j
              (fun g => parseHeaderLine g line)).heap x).map rsOf =
              (lookupF s.heap x).map rsOf :=
          fun x => map_lookupF_updateF rsOf
            (fun y => parseHeaderLine_rs line y) s.heap j x
        refine ⟨?_, ?_, ?_⟩
        · exact cbfalse_of_frame
            (fun x => Or.inr (chOf_of_rsOf (hfr x))) hcbf
        · intro i hr
          obtain ⟨hc1, hc2, hc3⟩ := hred i hr
          have hle : s.next_id ≤
              (modifyf s j (fun g => parseHeaderLine g line)).next_id :=
            le_refl s.next_id
          exact ⟨hc1, hc2,
            redst_of_frame hle (hfr i) (fun hv2 hd2 => hd2) hc3⟩
        · intro i ht
          have hle : s.next_id ≤
              (modifyf s j (fun g => parseHeaderLine g line)).next_id :=
            le_refl s.next_id
          exact hadst_of_frame hle (hfr i) (htdf i ht)
  | data j chunk hdr ab =>
    rw [applyOp_data] at h
    cases he : engineCanTouch s j with
    | none =>
      rw [he] at h
      simp only [Option.some_inj, Prod.mk.injEq] at h
      obtain ⟨hst, hev⟩ := h
      rw [← hst, ← hev, List.append_nil]
      exact ⟨hcbf, hred, htdf⟩
    | some hv =>
      rw [he] at h
      dsimp only at h
      split at h
      · simp only [Option.some_inj, Prod.mk.injEq] at h
        obtain ⟨hst, hev⟩ := h
        rw [← hst, ← hev, List.append_nil]
        exact ⟨hcbf, hred, htdf⟩
      · rename_i hndead
        cases hc : fetch_curl_data s j chunk hdr ab with
        | none => rw [hc] at h; cases h
        | some q =>
          obtain ⟨s3, killed, evs3⟩ := q
          rw [hc] at h
          simp only [Option.some_inj, Prod.mk.injEq] at h
          obtain ⟨hst, hev⟩ := h
          rw [← hst, ← hev]
          obtain ⟨f0, hf0, hf0c⟩ := engineCanTouch_spec he
          obtain ⟨hU, ⟨f1, hf1, hh1, hc1, hch1⟩, hfids, hrC⟩ :=
            curl_data_char hf0 hc
          have hjn : j < s.next_id := hs.1 j f0 hf0
          have hnotred : ¬ HasRed evs j := by
            rintro hr
            rcases (hred j hr).2.2.2 with hx | ⟨f, hf, -, hx2, hch2, hdd2⟩
            · rw [hf0] at hx; cases hx
            · rw [lookupF_det hf hf0] at hch2
              rw [hf0c] at hch2
              rw [← Option.some.inj hch2] at hdd2
              exact hndead hdd2
          have hhadTDF : HasTDF evs j → f0.had_headers = true := by
            intro ht
            rcases (htdf j ht).2 with hx | ⟨f, hf, hhad⟩
            · rw [hf0] at hx; cases hx
            · rw [← lookupF_det hf hf0]
              exact hhad
          have hcb3 : CBFalse s3 := by
            intro x g hg
            by_cases hx : x = j
            · subst hx
              rw [hf1] at hg
              rw [← Option.some.inj hg]
              exact hc1
            · rw [hU.2.2.2.2.2.2 x hx] at hg
              exact hcbf x g hg
          have hcommon : ∀ (dF : List Nat),
              (∀ hvv : Nat, hvv ∈ s.dead → hvv ∈ dF) →
              (¬ ∃ ev ∈ evs3, ev.msg = FetchMsg.REDIRECT) →
              EvInv { s3 with dead := dF } (evs ++ evs3) := by
            intro dF hdF hnoR
            refine ⟨fun x g hg => hcb3 x g hg, ?_, ?_⟩
            · intro i hr2
              have hri : HasRed evs i := by
                obtain ⟨ev, hev, hfid, hmsg⟩ := hr2
                rcases List.mem_append.mp hev with hx | hx
                · exact ⟨ev, hx, hfid, hmsg⟩
                · exact absurd ⟨ev, hx, hmsg⟩ hnoR
              have hij : i ≠ j := fun hij => hnotred (hij ▸ hri)
              obtain ⟨hc1b, hc2b, hc3b⟩ := hred i hri
              refine ⟨?_, ?_, ?_⟩
              · rw [redCount_append, hc1b, redCount_zero
                  (fun hx => hnoR (by
                    obtain ⟨e, he, -, hm⟩ := hx
                    exact ⟨e, he, hm⟩))]
              · rintro ⟨e, he, hfid, hkind⟩
                rcases List.mem_append.mp he with hx | hx
                · exact hc2b ⟨e, hx, hfid, hkind⟩
                · exact hij ((hfids e hx ▸ hfid : (j : Nat) = i)).symm
              · refine redst_of_frame (ge_of_eq hU.2.2.1)
                  (congrArg (Option.map rsOf) (hU.2.2.2.2.2.2 i hij)) ?_ hc3b
                intro hv2 h2
                exact hdF hv2 h2
            · intro i ht2
              by_cases hij : i = j
              · subst hij
                exact ⟨lt_of_lt_of_le hjn (ge_of_eq hU.2.2.1),
                  Or.inr ⟨f1, hf1, hh1⟩⟩
              · have hti : HasTDF evs i := by
                  obtain ⟨ev, hev, hfid, hkind⟩ := ht2
                  rcases List.mem_append.mp hev with hx | hx
                  · exact ⟨ev, hx, hfid, hkind⟩
                  · exact absurd ((hfids ev hx ▸ hfid : (j : Nat) = i)).symm hij
                exact hadst_of_frame (ge_of_eq hU.2.2.1)
                  (congrArg (Option.map rsOf) (hU.2.2.2.2.2.2 i hij))
                  (htdf i hti)
          cases killed with
          | false =>
            have hnoR : ¬ ∃ ev ∈ evs3, ev.msg = FetchMsg.REDIRECT := by
              intro hx
              cases (hrC hx).2.1
            exact hcommon s3.dead
              (fun hvv h2 => by rw [hU.2.2.2.2.2.1]; exact h2) hnoR
          | true =>
            by_cases hR3 : ∃ ev ∈ evs3, ev.msg = FetchMsg.REDIRECT
            · obtain ⟨⟨rev, hrevEq, hrevMsg⟩, -, hf0had⟩ := hrC hR3
              have hrevFid : rev.fid = j :=
                hfids rev (hrevEq ▸ List.mem_singleton.mpr rfl)
              have hnotdfJ : ¬ HasTDF evs j := by
                intro ht
                rw [hhadTDF ht] at hf0had
                cases hf0had
              have hredJ : RedSt { s3 with dead := hv :: s3.dead } j := by
                refine ⟨lt_of_lt_of_le hjn (ge_of_eq hU.2.2.1), ?_⟩
                exact Or.inr ⟨f1, hf1, hh1, hv, hch1.trans hf0c,
                  List.mem_cons_self _ _⟩
              rw [hrevEq]
              refine ⟨fun x g hg => hcb3 x g hg, ?_, ?_⟩
              · intro i hr2
                by_cases hij : i = j
                · subst hij
                  refine ⟨?_, ?_, hredJ⟩
                  · rw [redCount_append, redCount_zero hnotred,
                      redCount_single hrevFid hrevMsg]
                  · rintro ⟨e, he, hfid, hkind⟩
                    rcases List.mem_append.mp he with hx | hx
                    · exact hnotdfJ ⟨e, hx, hfid, hkind⟩
                    · rw [List.mem_singleton.mp hx, hrevMsg] at hkind
                      rcases hkind with hk | hk | hk <;> cases hk
                · have hri : HasRed evs i := by
                    obtain ⟨ev, hev, hfid, hmsg⟩ := hr2
                    rcases List.mem_append.mp hev with hx | hx
                    · exact ⟨ev, hx, hfid, hmsg⟩
                    · rw [List.mem_singleton.mp hx] at hfid
                      exact absurd (hrevFid ▸ hfid : (j : Nat) = i).symm hij
                  obtain ⟨hc1b, hc2b, hc3b⟩ := hred i hri
                  refine ⟨?_, ?_, ?_⟩
                  · rw [redCount_append, hc1b, redCount_zero
                      (by
                        rintro ⟨e, he, hfid, -⟩
                        rw [List.mem_singleton.mp he] at hfid
                        exact hij (hrevFid ▸ hfid : (j : Nat) = i).symm)]
                  · rintro ⟨e, he, hfid, hkind⟩
                    rcases List.mem_append.mp he with hx | hx
                    · exact hc2b ⟨e, hx, hfid, hkind⟩
                    · rw [List.mem_singleton.mp hx] at hfid
                      exact hij (hrevFid ▸ hfid : (j : Nat) = i).symm
                  · refine redst_of_frame (ge_of_eq hU.2.2.1)
                      (congrArg (Option.map rsOf) (hU.2.2.2.2.2.2 i hij))
                      ?_ hc3b
                    intro hv2 h2
                    exact List.mem_cons_of_mem _
                      (by rw [hU.2.2.2.2.2.1]; exact h2)
              · intro i ht2
                by_cases hij : i = j
                · subst hij
                  exact ⟨lt_of_lt_of_le hjn (ge_of_eq hU.2.2.1),
                    Or.inr ⟨f1, hf1, hh1⟩⟩
                · have hti : HasTDF evs i := by
                    obtain ⟨ev, hev, hfid, hkind⟩ := ht2
                    rcases List.mem_append.mp hev with hx | hx
                    · exact ⟨ev, hx, hfid, hkind⟩
                    · rw [List.mem_singleton.mp hx, hrevMsg] at hkind
                      rcases hkind with hk | hk | hk <;> cases hk
                  exact hadst_of_frame (ge_of_eq hU.2.2.1)
                    (congrArg (Option.map rsOf) (hU.2.2.2.2.2.2 i hij))
                    (htdf i hti)
            · exact hcommon (hv :: s3.dead)
                (fun hvv h2 => List.mem_cons_of_mem _
                  (by rw [hU.2.2.2.2.2.1]; exact h2)) hR3
  | done j res hdr ab =>
    rw [applyOp_done] at h
    cases he : engineCanTouch s j with
    | none =>
      rw [he] at h
      simp only [Option.some_inj, Prod.mk.injEq] at h
      obtain ⟨hst, hev⟩ := h
      rw [← hst, ← hev, List.append_nil]
      exact ⟨hcbf, hred, htdf⟩
    | some hv =>
      rw [he] at h
      dsimp only at h
      split at h
      · simp only [Option.some_inj, Prod.mk.injEq] at h
        obtain ⟨hst, hev⟩ := h
        rw [← hst, ← hev, List.append_nil]
        exact ⟨hcbf, hred, htdf⟩
      · rename_i hguard
        obtain ⟨f0, hf0, hf0c⟩ := engineCanTouch_spec he
        obtain ⟨hfree, hnext, hfids, hRch, hWE, hchF, hhdF⟩ :=
          processDone_char hs (fun f hf => hcbf j f hf) h
        have hjn : j < s.next_id := hs.1 j f0 hf0
        refine ⟨?_, ?_, ?_⟩
        · refine cbfalse_of_frame (fun x => ?_) hcbf
          by_cases hx : x = j
          · subst hx
            rw [hfree]
            exact Or.inl rfl
          · exact Or.inr (hchF x hx)
        · intro i hr2
          by_cases hij : i = j
          · subst hij
            by_cases hrold : HasRed evs i
            · obtain ⟨hc1b, hc2b, hc3b⟩ := hred i hrold
              rcases hc3b.2 with hx | ⟨f, hf, -, hx2, hch2, hdd2⟩
              · rw [hf0] at hx; cases hx
              · rw [lookupF_det hf hf0] at hch2
                rw [hf0c] at hch2
                rw [← Option.some.inj hch2] at hdd2
                have hres : res = .writeError := by
                  by_cases hwe : res = .writeError
                  · exact hwe
                  · exact absurd ⟨hdd2, hwe⟩ hguard
                have hempty : evsOp = [] := hWE hres
                rw [hempty, List.append_nil]
                exact ⟨hc1b, hc2b, by rw [hnext]; exact hc3b.1,
                  Or.inl hfree⟩
            · obtain ⟨ev, hev, hfid, hmsg⟩ := hr2
              have hevOp : ev ∈ evsOp := by
                rcases List.mem_append.mp hev with hx | hx
                · exact absurd ⟨ev, hx, hfid, hmsg⟩ hrold
                · exact hx
              obtain ⟨⟨rev, hrevEq, hrevMsg⟩, hhad0⟩ :=
                hRch ⟨ev, hevOp, hmsg⟩
              have hrevFid : rev.fid = i :=
                hfids rev (hrevEq ▸ List.mem_singleton.mpr rfl)
              have hnotdfJ : ¬ HasTDF evs i := by
                intro ht
                rcases (htdf i ht).2 with hx | ⟨f, hf, hhad⟩
                · rw [hf0] at hx; cases hx
                · rw [hhad0 f hf] at hhad
                  cases hhad
              rw [hrevEq]
              refine ⟨?_, ?_, ?_⟩
              · rw [redCount_append, redCount_zero hrold,
                  redCount_single hrevFid hrevMsg]
              · rintro ⟨e, he, hfid2, hkind⟩
                rcases List.mem_append.mp he with hx | hx
                · exact hnotdfJ ⟨e, hx, hfid2, hkind⟩
                · rw [List.mem_singleton.mp hx, hrevMsg] at hkind
                  rcases hkind with hk | hk | hk <;> cases hk
              · exact ⟨by rw [hnext]; exact hjn, Or.inl hfree⟩
          · have hri : HasRed evs i := by
              obtain ⟨ev, hev, hfid, hmsg⟩ := hr2
              rcases List.mem_append.mp hev with hx | hx
              · exact ⟨ev, hx, hfid, hmsg⟩
              · exact absurd (hfids ev hx ▸ hfid : (j : Nat) = i).symm hij
            obtain ⟨hc1b, hc2b, hc3b⟩ := hred i hri
            refine ⟨?_, ?_, ?_⟩
            · rw [redCount_append, hc1b, redCount_zero
                (by
                  rintro ⟨e, he, hfid, -⟩
                  exact hij (hfids e he ▸ hfid : (j : Nat) = i).symm)]
            · rintro ⟨e, he, hfid, hkind⟩
              rcases List.mem_append.mp he with hx | hx
              · exact hc2b ⟨e, hx, hfid, hkind⟩
              · exact hij (hfids e hx ▸ hfid : (j : Nat) = i).symm
            · obtain ⟨hn, hcase⟩ := hc3b
              refine ⟨by rw [hnext]; exact hn, ?_⟩
              rcases hcase with hx | ⟨f, hf, hhad, hx2, hch2, hdd2⟩
              · left
                have hm := hchF i hij
                rw [hx] at hm
                exact Option.map_eq_none'.mp hm
              · right
                obtain ⟨g2, hg2, hg2c, hg2d⟩ :=
                  hhdF i hx2 f hij hf hch2 hdd2
                have hm := hchF i hij
                rw [hg2, hf] at hm
                simp only [chOf, Option.map_some', Option.some_inj,
                  Prod.mk.injEq] at hm
                exact ⟨g2, hg2, hm.2.trans hhad, hx2, hg2c, hg2d⟩
        · intro i ht2
          by_cases hij : i = j
          · subst hij
            exact ⟨by rw [hnext]; exact hjn, Or.inl hfree⟩
          · have hti : HasTDF evs i := by
              obtain ⟨ev, hev, hfid, hkind⟩ := ht2
              rcases List.mem_append.mp hev with hx | hx
              · exact ⟨ev, hx, hfid, hkind⟩
              · exact absurd (hfids ev hx ▸ hfid : (j : Nat) = i).symm hij
            exact hadst_of_chframe (ge_of_eq hnext) (hchF i hij) (htdf i hti)

theorem evinv_initState : EvInv initState [] := by
  refine ⟨?_, ?_, ?_⟩
  · intro j f hf
    simp [initState, lookupF] at hf
  · rintro i ⟨ev, hev, -⟩
    cases hev
  · rintro i ⟨ev, hev, -⟩
    cases hev

/-- The C7 trace invariant holds along every defined trace. -/
theorem evinv_runOps {s s2 : FetchState} {ops : List Op}
    {evs evs2 : List Ev} (hs : SInv s) (hinv : EvInv s evs)
    (h : runOps s ops = some (s2, evs2)) : EvInv s2 (evs ++ evs2) := by
  induction ops generalizing s evs s2 evs2 with
  | nil =>
    unfold runOps at h
    simp only [Option.some_inj, Prod.mk.injEq] at h
    rw [← h.1, ← h.2, List.append_nil]
    exact hinv
  | cons op rest ih =>
    unfold runOps at h
    cases ha : applyOp s op with
    | none => rw [ha] at h; cases h
    | some p =>
      obtain ⟨s1, evs1⟩ := p
      rw [ha] at h
      dsimp only at h
      cases hr : runOps s1 rest with
      | none => rw [hr] at h; cases h
      | some q =>
        obtain ⟨s3, evs3⟩ := q
        rw [hr] at h
        simp only [Option.some_inj, Prod.mk.injEq] at h
        rw [← h.1, ← h.2, ← List.append_assoc]
        exact ih (sinv_applyOp hs ha) (evinv_applyOp hs hinv ha) hr

/-- Claim C7: (a) status resolution on a fetch with a captured Location
value and a resolved HTTP status in [300,400) percent-decodes the
captured Location and delivers exactly one REDIRECT event carrying the
decoded target, rejecting the transfer; (b) along every trace from the
initial state, each fetch id receives at most one REDIRECT event, and an
id that receives a REDIRECT never receives a TYPE, DATA or FINISHED
event. -/
theorem spec_c7_redirect_exclusive :
    (∀ (s : FetchState) (i : Nat) (hdr : HdrInfo) (ab : Bool)
        (s1 : FetchState) (rej : Bool) (evs : List Ev) (l : String)
        (f0 : Fetch),
      lookupF s.heap i = some f0 → f0.location = some l →
      300 ≤ hdr.http_code → hdr.http_code < 400 →
      fetch_process_headers s i hdr ab = some (s1, rej, evs) →
      rej = true ∧
        evs.map (fun ev => (ev.fid, ev.msg, ev.data)) =
          [(i, FetchMsg.REDIRECT, EvData.loc (curl_unescape l))]) ∧
    (∀ (ops : List Op) (s2 : FetchState) (evs : List Ev),
      runOps initState ops = some (s2, evs) →
      ∀ i, redCount evs i ≤ 1 ∧ (HasRed evs i → ¬ HasTDF evs i)) := by
  constructor
  · intro s i hdr ab s1 rej evs l f0 hf0 hloc h300 h400 hp
    unfold fetch_process_headers at hp
    rw [hf0] at hp
    dsimp only at hp
    rw [hloc] at hp
    dsimp only at hp
    rw [if_pos ⟨h300, h400⟩] at hp
    cases hd : deliverEv
        (modifyf (modifyf s i (fun g => { g with had_headers := true })) i
          (fun g => { g with location := some (curl_unescape l) })) i
        .REDIRECT (.loc (curl_unescape l)) ab with
    | none => rw [hd] at hp; cases hp
    | some p =>
      obtain ⟨s3, ev⟩ := p
      rw [hd] at hp
      simp only [Option.some_inj, Prod.mk.injEq] at hp
      refine ⟨hp.2.1.symm, ?_⟩
      rw [← hp.2.2, deliverEv_ev hd]
      rfl
  · intro ops s2 evs h i
    have hinv := evinv_runOps sinv_initState evinv_initState h
    rw [List.nil_append] at hinv
    obtain ⟨-, hbred, -⟩ := hinv
    constructor
    · by_cases hr : HasRed evs i
      · rw [(hbred i hr).1]
      · rw [redCount_zero hr]
        exact Nat.zero_le 1
    · intro hr
      exact (hbred i hr).2.1

/-- The C7 witness trace: a fetch whose response carries a Location
header and resolves to status 302. -/
def c7ops : List Op :=
  [.start "http://a/" none false, .header 0 "Location: http://b/\r\n",
   .data 0 "zz" ⟨302, none⟩ false]

/-- The state just before status resolution in the C7 witness: started,
Location captured, headers not yet resolved. -/
def c7s : FetchState :=
  ((runOps initState
    [.start "http://a/" none false,
     .header 0 "Location: http://b/\r\n"]).map Prod.fst).getD initState

theorem spec_c7_witness :
    (∃ q : FetchState × Bool × List Ev,
      fetch_process_headers c7s 0 ⟨302, none⟩ false = some q ∧
      q.2.1 = true ∧
      q.2.2.map (fun ev => (ev.fid, ev.msg, ev.data)) =
        [(0, FetchMsg.REDIRECT, EvData.loc "http://b/")]) ∧
    (∃ q : FetchState × List Ev, runOps initState c7ops = some q ∧
      redCount q.2 0 ≤ 1 ∧ (HasRed q.2 0 → ¬ HasTDF q.2 0)) := by
  constructor
  · have hA := spec_c7_redirect_exclusive.1 c7s 0 ⟨302, none⟩ false
      _ _ _ "http://b/" _ rfl rfl (by decide) (by decide) rfl
    exact ⟨_, rfl, hA.1, hA.2.trans rfl⟩
  · exact ⟨_, rfl, spec_c7_redirect_exclusive.2 c7ops _ _ rfl 0⟩

end NetsurfFetch
